import Mathlib

/-!
# dnsproxy: the request table, the upstream socket pool and the proxy

A shallow embedding of the classes `Requests` (`Requests.cc`), `Upstream`
(`Upstream.cc`) and `DNSProxy` (`DNSProxy.cc`), and the properties of their
operations.

Conventions of the embedding.

* `query_id_t` is `uint16_t`: IDs are natural numbers and every arithmetic
  operation of the source on a `query_id_t` is followed by `% 65536`.
* `std::map<query_id_t, request_st>` is an association list kept in ascending
  key order; `std::set<std::pair<time_point, query_id_t>>` is a list kept in
  ascending lexicographic order.  Iteration order in the source is list order
  here.  The well-formedness the C++ types guarantee (strictly ascending keys
  below 65536) is the predicate `Requests.WF`.
* `std::chrono::steady_clock::time_point` is a natural number of clock ticks
  (nanoseconds); every reading of the clock is an argument of the operation
  that reads it.
* `assert(c)` aborts the process when `c` is false: operations return an
  `Option`, and `none` is the abort.
* The result of each `timerfd_settime` call is an argument of the operation
  that issues it; the calls issued are recorded in the field `timer_calls`.
* The random draws of `Get_query_id` and of `Upstream::Get` are arguments.
-/

set_option autoImplicit false

namespace DNSProxy

/-- Number of ticks of `std::chrono::steady_clock` per second. -/
def TICKS_PER_SECOND : Nat := 1000000000

/-- The constant `Requests::MAX_POSSIBLE_QUERIES`:
`std::numeric_limits<query_id_t>::max() + 1`. -/
def MAX_POSSIBLE_QUERIES : Nat := 65535 + 1

/-- The record `struct Requests::request_st`. -/
structure request_st where
  upstream_fd : Int
  expiration : Nat
  client : Nat × Nat
  question : List Nat
  original_query_id : Nat
deriving DecidableEq, Repr

/-- The anonymous enum of `Requests::timer_state`. -/
inductive timer_state_t where
  | DISARMED
  | PERIODIC
  | EXACT
deriving DecidableEq, Repr

/-- The `timerfd_settime` calls `update_gc_timer` can issue: with the `stop`
spec, with the `periodic` spec (interval and value `MIN_GC_TIME` seconds), or
with `TFD_TIMER_ABSTIME` and `ts_expiry` (`tv_sec`, `tv_nsec`). -/
inductive timer_call where
  | stop
  | periodic (seconds : Nat)
  | abstime (tv_sec tv_nsec : Nat)
deriving DecidableEq, Repr

/-- The constants a `Requests` object is constructed with, and
`common::Debug`. -/
structure Config where
  MAX_OUTSTANDING_REQUESTS : Nat
  REQUEST_TIMEOUT : Nat
  MIN_GC_TIME : Nat
  Debug : Bool
deriving DecidableEq, Repr

/-- The mutable members of `class Requests`, and the record of the
`timerfd_settime` calls issued on `gc_timer` so far (newest last). -/
structure Requests where
  timer_state : timer_state_t
  requests : List (Nat × request_st)
  expirations : List (Nat × Nat)
  timer_calls : List timer_call
deriving DecidableEq, Repr

/-- The order of `std::pair<time_point, query_id_t>`. -/
def pair_lt (a b : Nat × Nat) : Prop :=
  a.1 < b.1 ∨ (a.1 = b.1 ∧ a.2 < b.2)

instance (a b : Nat × Nat) : Decidable (pair_lt a b) := by
  unfold pair_lt; infer_instance

/-- The lookup `std::map::find`. -/
def map_find : List (Nat × request_st) → Nat → Option request_st
  | [], _ => none
  | (k, v) :: rest, q => if k = q then some v else map_find rest q

/-- The insertion `std::map::emplace`: the new map and whether the insertion
took place. -/
def map_emplace : List (Nat × request_st) → Nat → request_st →
    List (Nat × request_st) × Bool
  | [], q, r => ([(q, r)], true)
  | (k, v) :: rest, q, r =>
    if q < k then ((q, r) :: (k, v) :: rest, true)
    else if q = k then ((k, v) :: rest, false)
    else ((k, v) :: (map_emplace rest q r).1, (map_emplace rest q r).2)

/-- The removal `std::map::erase(key)`: the new map and the number of
elements removed. -/
def map_erase (m : List (Nat × request_st)) (q : Nat) :
    List (Nat × request_st) × Nat :=
  (m.filter (fun e => e.1 ≠ q), (m.filter (fun e => e.1 = q)).length)

/-- The insertion `std::set::emplace_hint`: the position of the element is
fixed by the order alone, the hint does not change the result.  An element
already present is not inserted again. -/
def set_emplace : List (Nat × Nat) → Nat × Nat → List (Nat × Nat)
  | [], p => [p]
  | a :: rest, p =>
    if pair_lt p a then p :: a :: rest
    else if p = a then a :: rest
    else a :: set_emplace rest p

/-- The removal `std::set::erase` of the element found by `find`. -/
def set_erase (l : List (Nat × Nat)) (p : Nat × Nat) : List (Nat × Nat) :=
  l.filter (fun a => a ≠ p)

namespace Requests

/-- The keys of `requests` in iteration order. -/
def keys (s : Requests) : List Nat := s.requests.map Prod.fst

/-- What the types `std::map<query_id_t, _>` and
`std::set<std::pair<time_point, query_id_t>>` guarantee: strictly ascending
elements, and 16-bit IDs. -/
def WF (s : Requests) : Prop :=
  s.keys.Pairwise (· < ·) ∧ (∀ k ∈ s.keys, k < 65536) ∧
  s.expirations.Pairwise pair_lt ∧ (∀ p ∈ s.expirations, p.2 < 65536)

/-- The constructor `Requests::Requests`. -/
def init : Requests :=
  { timer_state := .DISARMED, requests := [], expirations := [],
    timer_calls := [] }

/-- The loop of `Get_query_id` (lines 58-69) over the keys still to visit,
from the current `*query_idp` and `next_free`; the result is the pair
(`*query_idp`, `next_free`) at the exit of the loop, `none` when
`assert(next_free <= i.first)` fails. -/
def walk : List Nat → Nat → Nat → Option (Nat × Nat)
  | [], query_id, next_free => some (query_id, next_free)
  | key :: rest, query_id, next_free =>
    if next_free ≤ key then
      let nfree := (key + 65536 - next_free) % 65536
      if query_id < nfree then some (query_id, next_free)
      else walk rest ((query_id + 65536 - nfree) % 65536) ((key + 1) % 65536)
    else none

/-- The loop of the debug check (lines 79-83): `nth` after the loop. -/
def debug_count : List Nat → Nat → Nat → Nat
  | [], _, nth => nth
  | key :: rest, query_id, nth =>
    if key < query_id then debug_count rest query_id ((nth + 1) % 65536)
    else nth

/-- Lines 50-70 of `Get_query_id`, "find the @nth free query ID from the
ongoing @requests": `*query_idp` after line 70, `none` when the assertion in
the loop fails. -/
def nth_free (s : Requests) (nth : Nat) : Option Nat :=
  match walk s.keys nth 0 with
  | none => none
  | some (query_id, next_free) => some ((query_id + next_free) % 65536)

/-- The method `Requests::Get_query_id`, with `nth` the value drawn from
`uniform_int_distribution(0, max_query_id - requests.size())`.
`none`: an assertion failed; `some none`: the function returned false (or
`NULL`); `some (some id)`: it returned true with `*query_idp = id`. -/
def Get_query_id (cfg : Config) (s : Requests) (nth : Nat) :
    Option (Option Nat) :=
  if cfg.MAX_OUTSTANDING_REQUESTS ≠ 0
      ∧ s.requests.length ≥ cfg.MAX_OUTSTANDING_REQUESTS then
    some none
  else if ¬ (s.requests.length ≤ MAX_POSSIBLE_QUERIES) then none
  else if s.requests.length ≥ MAX_POSSIBLE_QUERIES then some none
  else
    match nth_free s nth with
    | none => none
    | some query_id =>
      if cfg.Debug then
        if map_find s.requests query_id ≠ none then none
        else if debug_count s.keys query_id nth = query_id then
          some (some query_id)
        else none
      else some (some query_id)

/-- The method `Get_query_id` as a state transformer: the method is `const`,
`requests` is only read. -/
def Get_query_id_step (cfg : Config) (s : Requests) (nth : Nat) :
    Option (Option Nat) × Requests :=
  (Get_query_id cfg s nth, s)

/-- What an operation reads from outside the object: `now` is the reading of
`steady_clock::now()` in the body of `Put` (line 95) or `Gc` (line 157),
`timer_now` the reading in `update_gc_timer` (line 197), and `settime_ok`
tells whether the `timerfd_settime` call of `update_gc_timer` returns a
non-negative value. -/
structure Env where
  now : Nat
  timer_now : Nat
  settime_ok : Bool
deriving DecidableEq, Repr

/-- The method `Requests::update_gc_timer`. -/
def update_gc_timer (cfg : Config) (env : Env) (s : Requests) :
    Option Requests :=
  match s.expirations with
  | [] =>
    if s.timer_state = .DISARMED then some s
    else if ¬ (cfg.REQUEST_TIMEOUT > 0) then none
    else if env.settime_ok then
      some { s with timer_state := .DISARMED,
                    timer_calls := s.timer_calls ++ [.stop] }
    else some { s with timer_calls := s.timer_calls ++ [.stop] }
  | oldest :: _ =>
    if ¬ (cfg.REQUEST_TIMEOUT > 0) then none
    else if cfg.MIN_GC_TIME ≠ 0
        ∧ oldest.1 < env.timer_now + cfg.MIN_GC_TIME * TICKS_PER_SECOND then
      if s.timer_state = .PERIODIC then some s
      else if env.settime_ok then
        some { s with timer_state := .PERIODIC,
                      timer_calls :=
                        s.timer_calls ++ [.periodic cfg.MIN_GC_TIME] }
      else
        some { s with timer_calls :=
                        s.timer_calls ++ [.periodic cfg.MIN_GC_TIME] }
    else
      let ts_expiry : timer_call :=
        .abstime (oldest.1 / TICKS_PER_SECOND) (oldest.1 % TICKS_PER_SECOND)
      if env.settime_ok then
        some { s with timer_state := .EXACT,
                      timer_calls := s.timer_calls ++ [ts_expiry] }
      else some { s with timer_calls := s.timer_calls ++ [ts_expiry] }

/-- The method `Requests::Put`. -/
def Put (cfg : Config) (env : Env) (query_id : Nat) (upstream_fd : Int)
    (client : Nat × Nat) (question : List Nat) (orig_query_id : Nat)
    (s : Requests) : Option Requests :=
  let expiration := env.now + cfg.REQUEST_TIMEOUT * TICKS_PER_SECOND
  let ret := map_emplace s.requests query_id
    { upstream_fd := upstream_fd, expiration := expiration, client := client,
      question := question, original_query_id := orig_query_id }
  if ret.2 ≠ true then none
  else
    let s1 : Requests := { s with requests := ret.1 }
    if cfg.REQUEST_TIMEOUT = 0 then some s1
    else
      let nprev := s1.expirations.length
      let expirations := set_emplace s1.expirations (expiration, query_id)
      if ¬ (expirations.length > nprev) then none
      else if expirations.getLast? ≠ some (expiration, query_id) then none
      else
        let s2 : Requests := { s1 with expirations := expirations }
        if nprev = 0 then update_gc_timer cfg env s2 else some s2

/-- The method `Requests::Find`. -/
def Find (s : Requests) (query_id : Nat) : Option request_st :=
  map_find s.requests query_id

/-- The method `Requests::Done`; `request` is the record `*request` points
to. -/
def Done (cfg : Config) (env : Env) (query_id : Nat) (request : request_st)
    (s : Requests) : Option Requests :=
  if cfg.REQUEST_TIMEOUT ≠ 0 then
    let i := (request.expiration, query_id)
    if i ∉ s.expirations then none
    else
      let is_oldest : Bool := s.expirations.head? = some i
      let s1 : Requests := { s with expirations := set_erase s.expirations i }
      let ret := map_erase s1.requests query_id
      if ret.2 ≠ 1 then none
      else
        let s2 : Requests := { s1 with requests := ret.1 }
        if is_oldest then update_gc_timer cfg env s2 else some s2
  else
    let ret := map_erase s.requests query_id
    if ret.2 ≠ 1 then none
    else some { s with requests := ret.1 }

/-- The loop of `Requests::Gc` (lines 158-170).  The first argument is
`expirations` from the iterator `i` on, which is all of it, as the loop
erases from `begin()`; `calls` lists the elements `*o` of `requests` whose
`second` the callback has been invoked on, oldest call first.  The result is
the state, the calls and `update_timer` at the exit of the loop; `none` when
`assert(o != requests.end())` fails.  The call `requests.erase(o)` removes
the element whose key is `i->second`. -/
def Gc_loop (now : Nat) : List (Nat × Nat) → Requests →
    List (Nat × request_st) → Bool →
    Option (Requests × List (Nat × request_st) × Bool)
  | [], s, calls, update_timer =>
    some ({ s with expirations := [] }, calls, update_timer)
  | i :: rest, s, calls, update_timer =>
    if i.1 ≤ now then
      match map_find s.requests i.2 with
      | none => none
      | some o =>
        Gc_loop now rest
          { s with requests := (map_erase s.requests i.2).1 }
          (calls ++ [(i.2, o)]) true
    else some ({ s with expirations := i :: rest }, calls, update_timer)

/-- The method `Requests::Gc`: the new state and the calls of `callback`, in
order, each given as the element of `requests` whose record the callback
received. -/
def Gc (cfg : Config) (env : Env) (s : Requests) :
    Option (Requests × List (Nat × request_st)) :=
  if ¬ (cfg.REQUEST_TIMEOUT > 0) then none
  else
    match Gc_loop env.now s.expirations s [] false with
    | none => none
    | some (s1, calls, update_timer) =>
      if update_timer then
        match update_gc_timer cfg env s1 with
        | none => none
        | some s2 => some (s2, calls)
      else some (s1, calls)

/-- A call made on a `Requests` object by its owner: `Put` with its
arguments, `Done` of the request `Find` returns for `query_id` (as
`return_response` calls it), or `Gc`. -/
inductive Call where
  | put (env : Env) (query_id : Nat) (upstream_fd : Int) (client : Nat × Nat)
      (question : List Nat) (orig_query_id : Nat)
  | done (env : Env) (query_id : Nat)
  | gc (env : Env)
deriving DecidableEq, Repr

/-- The environment of a call. -/
def Call.env : Call → Env
  | .put env _ _ _ _ _ => env
  | .done env _ => env
  | .gc env => env

/-- One call on the object.  `none` when an assertion fails, when `Done` is
asked for an ID `Find` does not return a request for, or when the ID given to
`Put` is not a `query_id_t`. -/
def step (cfg : Config) (c : Call) (s : Requests) : Option Requests :=
  match c with
  | .put env query_id upstream_fd client question orig_query_id =>
    if query_id < 65536 then
      Put cfg env query_id upstream_fd client question orig_query_id s
    else none
  | .done env query_id =>
    match Find s query_id with
    | none => none
    | some request => Done cfg env query_id request s
  | .gc env =>
    match Gc cfg env s with
    | none => none
    | some (s1, _) => some s1

/-- A sequence of calls, oldest first. -/
def run (cfg : Config) : List Call → Requests → Option Requests
  | [], s => some s
  | c :: cs, s =>
    match step cfg c s with
    | none => none
    | some s1 => run cfg cs s1

/-- An index and a map correspond: the pairs of the index are exactly the
pairs (expiration of the record, key) of the map. -/
def index_matches (expirations : List (Nat × Nat))
    (requests : List (Nat × request_st)) : Prop :=
  ∀ p : Nat × Nat, p ∈ expirations ↔
    ∃ r, map_find requests p.2 = some r ∧ r.expiration = p.1

/-- The correspondence of `expirations` and `requests` in a table. -/
def Corresponds (s : Requests) : Prop :=
  index_matches s.expirations s.requests

end Requests

/-! ## Example data -/

/-- A request record forwarded on socket 5 for the client 127.0.0.1:40000,
with the question of an A query for `example.com.` and the client's ID
`0x1234`. -/
def example_request (expiration : Nat) : request_st :=
  { upstream_fd := 5, expiration := expiration,
    client := (2130706433, 40000),
    question := [7, 101, 120, 97, 109, 112, 108, 101, 3, 99, 111, 109, 0,
      0, 1, 0, 1],
    original_query_id := 4660 }

/-- Scenario 4 of the specification: a table whose primary mapping has the
keys 3 and 7, recorded at the clock readings 0 and 10 with a timeout of 15
seconds. -/
def table_3_7 : Requests :=
  { timer_state := .EXACT,
    requests := [(3, example_request 15000000000),
      (7, example_request 15000000010)],
    expirations := [(15000000000, 3), (15000000010, 7)],
    timer_calls := [.abstime 15 0] }

/-- The default configuration of the proxy with debugging on, and no limit on
the outstanding requests. -/
def example_config : Config :=
  { MAX_OUTSTANDING_REQUESTS := 0, REQUEST_TIMEOUT := 15, MIN_GC_TIME := 5,
    Debug := true }

/-- An environment in which the clock reads `n` and `timerfd_settime`
succeeds. -/
def example_env (n : Nat) : Requests.Env :=
  { now := n, timer_now := n, settime_ok := true }

/-- The call of `Put` for the proxied ID `q` at the clock reading `n` that
records `example_request`. -/
def example_put (n q : Nat) : Requests.Call :=
  .put (example_env n) q 5 (2130706433, 40000)
    [7, 101, 120, 97, 109, 112, 108, 101, 3, 99, 111, 109, 0, 0, 1, 0, 1]
    4660

/-- The calls that build `table_3_7` from the empty table. -/
def example_calls : List Requests.Call :=
  [example_put 0 3, example_put 10 7]

/-- A longer history: the request 9 is recorded at 20 ns, the request 7 is
completed, and the timer fires 5 ns after the request 3 expired. -/
def example_calls_gc : List Requests.Call :=
  [example_put 0 3, example_put 10 7, example_put 20 9,
    .done (example_env 30) 7, .gc (example_env 15000000005)]

/-- The table after `example_calls_gc`. -/
def table_9 : Requests :=
  { timer_state := .PERIODIC,
    requests := [(9, example_request 15000000020)],
    expirations := [(15000000020, 9)],
    timer_calls := [.abstime 15 0, .periodic 5] }

/-- The example configuration with request expiration disabled. -/
def example_config_no_timeout : Config :=
  { example_config with REQUEST_TIMEOUT := 0 }

/-- A history without `Gc`: two requests are recorded and the first one is
completed. -/
def example_calls_no_timeout : List Requests.Call :=
  [example_put 0 3, example_put 10 7, .done (example_env 30) 3]

/-- The table after `example_calls_no_timeout` when expiration is
disabled. -/
def table_7_no_timeout : Requests :=
  { timer_state := .DISARMED,
    requests := [(7, example_request 10)],
    expirations := [],
    timer_calls := [] }

/-- The table `table_3_7` after `Done` of the request 3 at 30 ns. -/
def table_7_done : Requests :=
  { timer_state := .EXACT,
    requests := [(7, example_request 15000000010)],
    expirations := [(15000000010, 7)],
    timer_calls := [.abstime 15 0, .abstime 15 10] }

/-- The table `table_3_7` after `Gc` at 15000000005 ns, when the request 3
has expired and the request 7 has not. -/
def table_7_swept : Requests :=
  { timer_state := .PERIODIC,
    requests := [(7, example_request 15000000010)],
    expirations := [(15000000010, 7)],
    timer_calls := [.abstime 15 0, .periodic 5] }

/-- An environment with the clock reading of the sweep of `table_7_swept`, a
later reading in `update_gc_timer`, and a failing `timerfd_settime`. -/
def example_env_again : Requests.Env :=
  { now := 15000000005, timer_now := 15000000006, settime_ok := false }

/-- Scenario 6 of the specification, first batch: ten requests with the IDs
1 to 10 are recorded 10 ms apart, from the clock reading 0 on. -/
def coalescing_first_batch : List Requests.Call :=
  (List.range 10).map (fun k => example_put (k * 10000000) (k + 1))

/-- Scenario 6 of the specification, second batch: ten requests with the IDs
11 to 20 are recorded 1 ms apart, from the clock reading 14.95 s on. -/
def coalescing_second_batch : List Requests.Call :=
  (List.range 10).map
    (fun k => example_put (14950000000 + k * 1000000) (k + 11))

/-- A table with the index of `table_3_7` whose timer is already periodic. -/
def table_3_7_periodic : Requests :=
  { table_3_7 with timer_state := .PERIODIC,
                   timer_calls := [.abstime 15 0, .periodic 5] }

/-! ## The upstream socket pool (`Upstream.cc`, `Upstream.h`)

A `std::unordered_map<int, _>` is an association list with distinct keys; its
iteration order, which the C++ standard leaves unspecified, is the order of
the list, and `emplace` puts the new element first.  `unsigned` arithmetic is
followed by `% 4294967296`. -/

/-- The record `struct Upstream::socket_usage_st`. -/
structure socket_usage_st where
  outstanding : Nat
  lifetime : Nat
deriving DecidableEq, Repr

/-- The constants an `Upstream` object is constructed with. -/
structure PoolConfig where
  MAX_PORTS : Nat
  MAX_PORT_LIFETIME : Nat
deriving DecidableEq, Repr

/-- The mutable members of `class Upstream`, and the record of the sockets
`Done` has called `close` on (newest last). -/
structure Upstream where
  available : List (Int × socket_usage_st)
  end_of_life : List (Int × Nat)
  closed : List Int
deriving DecidableEq, Repr

/-- The lookup `std::unordered_map::find`. -/
def umap_find {β : Type} : List (Int × β) → Int → Option β
  | [], _ => none
  | (k, v) :: rest, sfd => if k = sfd then some v else umap_find rest sfd

/-- The insertion `std::unordered_map::emplace`: the new map and whether the
insertion took place. -/
def umap_emplace {β : Type} (m : List (Int × β)) (sfd : Int) (v : β) :
    List (Int × β) × Bool :=
  match umap_find m sfd with
  | some _ => (m, false)
  | none => ((sfd, v) :: m, true)

/-- The removal `std::unordered_map::erase` of the element of key `sfd`. -/
def umap_erase {β : Type} (m : List (Int × β)) (sfd : Int) :
    List (Int × β) :=
  m.filter (fun e => e.1 ≠ sfd)

/-- An assignment through a pointer or an iterator to the element of key
`sfd`: the value is replaced in place. -/
def umap_assign {β : Type} (m : List (Int × β)) (sfd : Int) (v : β) :
    List (Int × β) :=
  m.map (fun e => if e.1 = sfd then (e.1, v) else e)

namespace Upstream

/-- The constructor `Upstream::Upstream`. -/
def init : Upstream :=
  { available := [], end_of_life := [], closed := [] }

/-- What `Get` reads from outside the object: `new_socket` is the value
`new_upstream_socket()` returns if it is called (a file descriptor, or -1),
and `n` is the value drawn from
`uniform_int_distribution<unsigned>(0, available.size() - 1)`. -/
structure Env where
  new_socket : Int
  n : Nat
deriving DecidableEq, Repr

/-- The local `open_new_port` of `Upstream::Get`. -/
def open_new_port (pcfg : PoolConfig) (s : Upstream) : Bool :=
  decide (pcfg.MAX_PORTS = 0
    ∨ s.available.length + s.end_of_life.length < pcfg.MAX_PORTS)

/-- The method `Upstream::Get`: `*sfdp` when the result is not `NULL` (the
pointer returned is the one to the element of key `*sfdp` in `available`),
and the new state.  `none` when `assert(ret.second == true)` fails, or when
`n` is not an index of `available`. -/
def Get (pcfg : PoolConfig) (env : Env) (s : Upstream) :
    Option (Option Int × Upstream) :=
  if open_new_port pcfg s = false ∧ s.available = [] then some (none, s)
  else if open_new_port pcfg s = true ∧ env.new_socket ≥ 0 then
    let ret := umap_emplace s.available env.new_socket
      { outstanding := 0, lifetime := 0 }
    if ret.2 ≠ true then none
    else some (some env.new_socket, { s with available := ret.1 })
  else if s.available ≠ [] then
    match s.available.get? env.n with
    | none => none
    | some i => some (some i.1, s)
  else some (none, s)

/-- The method `Upstream::Put`, with `socket` the pointer `Get` returned for
`sfd`, that is the one to the element of key `sfd` in `available`.  `none`
when there is no such element, or when `assert(ret.second == true)` fails. -/
def Put (pcfg : PoolConfig) (sfd : Int) (s : Upstream) : Option Upstream :=
  match umap_find s.available sfd with
  | none => none
  | some socket =>
    let outstanding := (socket.outstanding + 1) % 4294967296
    if pcfg.MAX_PORT_LIFETIME ≠ 0 then
      let lifetime := (socket.lifetime + 1) % 4294967296
      if lifetime ≥ pcfg.MAX_PORT_LIFETIME then
        let ret := umap_emplace s.end_of_life sfd outstanding
        if ret.2 ≠ true then none
        else
          some { s with available := umap_erase s.available sfd,
                        end_of_life := ret.1 }
      else
        some { s with available := umap_assign s.available sfd
                        { outstanding := outstanding, lifetime := lifetime } }
    else
      some { s with available := umap_assign s.available sfd
                      { outstanding := outstanding,
                        lifetime := socket.lifetime } }

/-- The method `Upstream::Done`.  `none` when one of its three assertions
fails. -/
def Done (sfd : Int) (s : Upstream) : Option Upstream :=
  match umap_find s.available sfd with
  | some socket =>
    if ¬ (socket.outstanding > 0) then none
    else
      some { s with available := umap_assign s.available sfd
                      { socket with outstanding := socket.outstanding - 1 } }
  | none =>
    match umap_find s.end_of_life sfd with
    | none => none
    | some o =>
      if ¬ (o > 0) then none
      else if o - 1 = 0 then
        some { s with end_of_life := umap_erase s.end_of_life sfd,
                      closed := s.closed ++ [sfd] }
      else some { s with end_of_life := umap_assign s.end_of_life sfd (o - 1) }

/-- A call made on an `Upstream` object by its owner. -/
inductive Call where
  | get (env : Env)
  | put (sfd : Int)
  | done (sfd : Int)
deriving DecidableEq, Repr

/-- One call on the object; `none` when the call aborts. -/
def step (pcfg : PoolConfig) (c : Call) (s : Upstream) : Option Upstream :=
  match c with
  | .get env =>
    match Get pcfg env s with
    | none => none
    | some (_, s1) => some s1
  | .put sfd => Put pcfg sfd s
  | .done sfd => Done sfd s

/-- A sequence of calls, oldest first. -/
def run (pcfg : PoolConfig) : List Call → Upstream → Option Upstream
  | [], s => some s
  | c :: cs, s =>
    match step pcfg c s with
    | none => none
    | some s1 => run pcfg cs s1

/-- The socket identifier is a key of `available` or of `end_of_life`. -/
def held (s : Upstream) (sfd : Int) : Prop :=
  sfd ∈ s.available.map Prod.fst ∨ sfd ∈ s.end_of_life.map Prod.fst

instance (s : Upstream) (sfd : Int) : Decidable (held s sfd) := by
  unfold held; infer_instance

/-- The assumption on socket creation for one call of `Get`: when `Get`
creates a socket, the identifier it obtains is not held by the pool. -/
def creation_fresh (pcfg : PoolConfig) (env : Env) (s : Upstream) : Prop :=
  open_new_port pcfg s = true → env.new_socket ≥ 0 → ¬ held s env.new_socket

instance (pcfg : PoolConfig) (env : Env) (s : Upstream) :
    Decidable (creation_fresh pcfg env s) := by
  unfold creation_fresh; infer_instance

/-- The assumption on socket creation for one call on the object. -/
def call_fresh (pcfg : PoolConfig) (c : Call) (s : Upstream) : Bool :=
  match c with
  | .get env => decide (creation_fresh pcfg env s)
  | _ => true

/-- The assumption on socket creation along a sequence of calls from the
state `s`. -/
def creation_fresh_along (pcfg : PoolConfig) :
    List Call → Upstream → Bool
  | [], _ => true
  | c :: cs, s =>
    call_fresh pcfg c s &&
    (match step pcfg c s with
      | none => true
      | some s1 => creation_fresh_along pcfg cs s1)

end Upstream

/-! ## The proxy (`DNSProxy.cc`)

A message is the list of its bytes (numbers below 256).  What the proxy
reads from the kernel (datagrams, results of system calls) and the random
draws are arguments of the operations; the `send` and `sendto` calls it makes
are recorded in the state. -/

/-- The size of the DNS header, `NS_HFIXEDSZ` of `<arpa/nameser.h>`. -/
def NS_HFIXEDSZ : Nat := 12

/-- The size of QTYPE and QCLASS, `NS_QFIXEDSZ` of `<arpa/nameser.h>`. -/
def NS_QFIXEDSZ : Nat := 4

/-- The value `ntohs` returns for the 16-bit header field stored at the
offset `i` of the message. -/
def ntohs_field (msg : List Nat) (i : Nat) : Nat :=
  msg.getD i 0 * 256 + msg.getD (i + 1) 0

/-- The bit-field `qr` of `HEADER` (`<arpa/nameser_compat.h>`): the high bit
of byte 2 of the message. -/
def header_qr (msg : List Nat) : Bool :=
  decide (msg.getD 2 0 / 128 % 2 = 1)

/-- The assignment `header->id = htons(query_id)`: bytes 0 and 1 of the
message are overwritten. -/
def set_header_id (msg : List Nat) (query_id : Nat) : List Nat :=
  (query_id / 256 % 256) :: (query_id % 256) :: msg.drop 2

/-- The inner loop of `parse_message` (lines 224-269) from `p`, given as the
`left` bytes from `p` to the end of the message: the bytes from `p` on after
the loop, `none` when the function returns `NULL`.  Every iteration consumes
at least one byte, the first argument bounds the number of iterations. -/
def parse_qname : Nat → List Nat → Option (List Nat)
  | 0, _ => none
  | fuel + 1, p =>
    if p.length < 1 then none
    else
      let llabel := p.headD 0
      let p := p.tail
      if llabel = 0 then some p
      else if p.length < llabel then none
      else parse_qname fuel (p.drop llabel)

/-- The outer loop of `parse_message` (lines 218-292) for the loop counter
`i`, from `p`: the bytes from `p` on after the loop, `none` when the function
returns `NULL`. -/
def parse_questions : Nat → List Nat → Option (List Nat)
  | 0, p => some p
  | i + 1, p =>
    match parse_qname (p.length + 1) p with
    | none => none
    | some p =>
      if p.length < NS_QFIXEDSZ then none
      else parse_questions i (p.drop NS_QFIXEDSZ)

/-- The method `DNSProxy::parse_message`: `*query_idp` and `question` when the
result is not `NULL` (the header returned is the start of the message). -/
def parse_message (msg : List Nat) : Option (Nat × List Nat) :=
  if msg.length < NS_HFIXEDSZ then none
  else
    let query_id := ntohs_field msg 0
    let top := msg.drop NS_HFIXEDSZ
    match parse_questions (ntohs_field msg 4) top with
    | none => none
    | some p => some (query_id, top.take (top.length - p.length))

/-- The objects a `DNSProxy` owns after `Init`, and the records of the
`send` calls made on upstream sockets (socket, message) and of the `sendto`
calls made on `serverfd` (destination, message), newest last. -/
structure Proxy where
  requests : Requests
  sockets : Upstream
  send_calls : List (Int × List Nat)
  sendto_calls : List ((Nat × Nat) × List Nat)
deriving DecidableEq, Repr

namespace Proxy

/-- The state after `DNSProxy::Init`. -/
def init : Proxy :=
  { requests := Requests.init, sockets := Upstream.init, send_calls := [],
    sendto_calls := [] }

/-- What `forward_query` reads from outside: the draw of `Get_query_id`, the
result of `receive_message(serverfd)` (the message and its sender, `none`
for `NULL`), the environment of `Upstream::Get`, whether `send` returns a
non-negative value, and the environment of `Requests::Put`. -/
structure ForwardEnv where
  nth : Nat
  received : Option (List Nat × (Nat × Nat))
  socket_env : Upstream.Env
  send_ok : Bool
  put_env : Requests.Env
deriving DecidableEq, Repr

/-- What `return_response` reads from outside: the result of
`receive_message(upstream_fd)` (`none` for `NULL`), whether `sendto`
returns a non-negative value, and the environment of `Requests::Done`. -/
structure ResponseEnv where
  received : Option (List Nat)
  sendto_ok : Bool
  done_env : Requests.Env
deriving DecidableEq, Repr

/-- The method `DNSProxy::forward_query`: its result and the new state,
`none` when an assertion fails. -/
def forward_query (cfg : Config) (pcfg : PoolConfig) (env : ForwardEnv)
    (st : Proxy) : Option (Bool × Proxy) :=
  match Requests.Get_query_id cfg st.requests env.nth with
  | none => none
  | some none => some (true, st)
  | some (some proxied_query_id) =>
    match env.received with
    | none => some (false, st)
    | some (msg, client) =>
      match parse_message msg with
      | none => some (true, st)
      | some (received_query_id, question) =>
        if header_qr msg then some (true, st)
        else
          match Upstream.Get pcfg env.socket_env st.sockets with
          | none => none
          | some (none, sockets) => some (true, { st with sockets := sockets })
          | some (some upstream_fd, sockets) =>
            let msg := set_header_id msg proxied_query_id
            let st1 : Proxy :=
              { st with sockets := sockets,
                        send_calls := st.send_calls ++ [(upstream_fd, msg)] }
            if env.send_ok = false then some (true, st1)
            else
              match Upstream.Put pcfg upstream_fd st1.sockets with
              | none => none
              | some sockets =>
                match Requests.Put cfg env.put_env proxied_query_id
                  upstream_fd client question received_query_id
                  st1.requests with
                | none => none
                | some requests =>
                  some (true, { st1 with sockets := sockets,
                                         requests := requests })

/-- The method `DNSProxy::return_response`: its result and the new state,
`none` when an assertion fails. -/
def return_response (cfg : Config) (upstream_fd : Int) (env : ResponseEnv)
    (st : Proxy) : Option (Bool × Proxy) :=
  match env.received with
  | none => some (false, st)
  | some msg =>
    match parse_message msg with
    | none => some (true, st)
    | some (_, question) =>
      let proxied_query_id := ntohs_field msg 0
      if header_qr msg = false then some (true, st)
      else
        match Requests.Find st.requests proxied_query_id with
        | none => some (true, st)
        | some request =>
          if upstream_fd ≠ request.upstream_fd then some (true, st)
          else if question ≠ request.question then some (true, st)
          else
            let msg := set_header_id msg request.original_query_id
            let st1 : Proxy :=
              { st with sendto_calls :=
                          st.sendto_calls ++ [(request.client, msg)] }
            match Upstream.Done upstream_fd st1.sockets with
            | none => none
            | some sockets =>
              match Requests.Done cfg env.done_env proxied_query_id request
                st1.requests with
              | none => none
              | some requests =>
                some (true, { st1 with sockets := sockets,
                                       requests := requests })

/-- The calls of the callback `Run` gives to `Gc`, one after the other:
`sockets->Done(request->upstream_fd)` for each request. -/
def release_all : List (Nat × request_st) → Upstream → Option Upstream
  | [], sockets => some sockets
  | request :: rest, sockets =>
    match Upstream.Done request.2.upstream_fd sockets with
    | none => none
    | some sockets => release_all rest sockets

/-- The branch of `Run` for an event of `timerfd` (lines 484-500), with
`read_ok` telling whether `read` returns a non-negative value. -/
def on_timer (cfg : Config) (read_ok : Bool) (env : Requests.Env)
    (st : Proxy) : Option Proxy :=
  if read_ok = false then some st
  else
    match Requests.Gc cfg env st.requests with
    | none => none
    | some (requests, calls) =>
      match release_all calls st.sockets with
      | none => none
      | some sockets => some { st with requests := requests,
                                       sockets := sockets }

/-- An event `epoll_wait` delivers to `Run`: on `serverfd`, on `timerfd`, or
on another file descriptor. -/
inductive Event where
  | client (env : ForwardEnv)
  | timer (read_ok : Bool) (env : Requests.Env)
  | upstream (upstream_fd : Int) (env : ResponseEnv)
deriving DecidableEq, Repr

/-- One iteration of the loop of `DNSProxy::Run` that dispatches an event;
`none` when an assertion fails. -/
def Run_step (cfg : Config) (pcfg : PoolConfig) (e : Event) (st : Proxy) :
    Option Proxy :=
  match e with
  | .client env =>
    match forward_query cfg pcfg env st with
    | none => none
    | some (_, st1) => some st1
  | .timer read_ok env => on_timer cfg read_ok env st
  | .upstream upstream_fd env =>
    match return_response cfg upstream_fd env st with
    | none => none
    | some (_, st1) => some st1

/-- The loop of `DNSProxy::Run` over a sequence of events, oldest first. -/
def Run (cfg : Config) (pcfg : PoolConfig) :
    List Event → Proxy → Option Proxy
  | [], st => some st
  | e :: es, st =>
    match Run_step cfg pcfg e st with
    | none => none
    | some st1 => Run cfg pcfg es st1

end Proxy

/-- A pool configuration: at most two sockets, each retired by its second
forward. -/
def example_pool_config : PoolConfig :=
  { MAX_PORTS := 2, MAX_PORT_LIFETIME := 2 }

/-- A history of the pool: the sockets 5 and 6 are created and used twice
each (the second time chosen among the available ones, as there is no
headroom), a `Get` finds no socket, the socket 5 is released twice and
closed, and the socket 9 is created. -/
def example_pool_calls : List Upstream.Call :=
  [.get ⟨5, 0⟩, .put 5, .get ⟨6, 0⟩, .put 6, .get ⟨7, 0⟩, .put 5,
    .get ⟨7, 0⟩, .put 6, .get ⟨8, 0⟩, .done 5, .done 5, .get ⟨9, 0⟩]

/-- The pool after `example_pool_calls`. -/
def example_pool : Upstream :=
  { available := [(9, { outstanding := 0, lifetime := 0 })],
    end_of_life := [(6, 2)], closed := [5] }

/-- The conditions under which `return_response` accepts the message `msg`
received on the socket `upstream_fd`: it parses, its QR bit is set, its ID is
a key of the request table, the record found was forwarded on `upstream_fd`,
and the question of the message is the recorded question, byte for byte. -/
def Proxy.accepts (st : Proxy) (upstream_fd : Int) (msg : List Nat) : Prop :=
  ∃ query_id question request,
    parse_message msg = some (query_id, question) ∧
    header_qr msg = true ∧
    Requests.Find st.requests query_id = some request ∧
    request.upstream_fd = upstream_fd ∧
    request.question = question

/-- Scenario 1 of the specification: the A query for `example.com.` with the
ID `0x1234`, a 12-byte header and a 17-byte question. -/
def example_query : List Nat :=
  [18, 52, 1, 0, 0, 1, 0, 0, 0, 0, 0, 0,
    7, 101, 120, 97, 109, 112, 108, 101, 3, 99, 111, 109, 0, 0, 1, 0, 1]

/-- A response to `example_query` under the proxied ID `0xABCD`, with one
answer record. -/
def example_response : List Nat :=
  [171, 205, 129, 128, 0, 1, 0, 1, 0, 0, 0, 0,
    7, 101, 120, 97, 109, 112, 108, 101, 3, 99, 111, 109, 0, 0, 1, 0, 1,
    192, 12, 0, 1, 0, 1, 0, 0, 14, 16, 0, 4, 93, 184, 216, 34]

/-- Scenario 3 of the specification: a response under the proxied ID
`0xABCD` whose question is `evil.com.`. -/
def example_spoof : List Nat :=
  [171, 205, 129, 128, 0, 1, 0, 1, 0, 0, 0, 0,
    4, 101, 118, 105, 108, 3, 99, 111, 109, 0, 0, 1, 0, 1,
    192, 12, 0, 1, 0, 1, 0, 0, 14, 16, 0, 4, 6, 6, 6, 6]

/-- The environment of the `forward_query` of scenario 1: the draw 43981
(`0xABCD`), `example_query` from 127.0.0.1:40000, the new socket 5, a
successful `send`, the clock reading 0. -/
def example_forward_env : Proxy.ForwardEnv :=
  { nth := 43981, received := some (example_query, (2130706433, 40000)),
    socket_env := { new_socket := 5, n := 0 }, send_ok := true,
    put_env := example_env 0 }

/-- The environment of a `return_response` that receives `msg` at the clock
reading 1 ms. -/
def example_response_env (msg : List Nat) : Proxy.ResponseEnv :=
  { received := some msg, sendto_ok := true, done_env := example_env 1000000 }

/-- The proxy of scenario 1 after the query has been forwarded. -/
def proxy_in_flight : Proxy :=
  { requests :=
      { timer_state := .EXACT,
        requests := [(43981, example_request 15000000000)],
        expirations := [(15000000000, 43981)],
        timer_calls := [.abstime 15 0] },
    sockets :=
      { available := [(5, { outstanding := 1, lifetime := 1 })],
        end_of_life := [], closed := [] },
    send_calls := [(5, set_header_id example_query 43981)],
    sendto_calls := [] }

/-- The proxy of scenario 1 after the response has been returned. -/
def proxy_answered : Proxy :=
  { requests :=
      { timer_state := .DISARMED, requests := [], expirations := [],
        timer_calls := [.abstime 15 0, .stop] },
    sockets :=
      { available := [(5, { outstanding := 0, lifetime := 1 })],
        end_of_life := [], closed := [] },
    send_calls := [(5, set_header_id example_query 43981)],
    sendto_calls :=
      [((2130706433, 40000), set_header_id example_response 4660)] }

/-- Scenario 5 of the specification: the example configuration with
`MAX_OUTSTANDING_REQUESTS = 2`. -/
def example_config_max2 : Config :=
  { example_config with MAX_OUTSTANDING_REQUESTS := 2 }

/-- The environment of a second `forward_query`: the draw 100,
`example_query` from 127.0.0.1:40001, the new socket 6, the clock reading
1000 ns. -/
def example_forward_env_2 : Proxy.ForwardEnv :=
  { nth := 100, received := some (example_query, (2130706433, 40001)),
    socket_env := { new_socket := 6, n := 0 }, send_ok := true,
    put_env := example_env 1000 }

/-- The environment of a third `forward_query`: the draw 7, `example_query`
from 127.0.0.1:40002, the clock reading 2000 ns. -/
def example_forward_env_3 : Proxy.ForwardEnv :=
  { nth := 7, received := some (example_query, (2130706433, 40002)),
    socket_env := { new_socket := 7, n := 0 }, send_ok := true,
    put_env := example_env 2000 }

/-- The events that put two requests in flight. -/
def saturation_events : List Proxy.Event :=
  [.client example_forward_env, .client example_forward_env_2]

/-- The proxy after `saturation_events`. -/
def proxy_saturated : Proxy :=
  { requests :=
      { timer_state := .EXACT,
        requests :=
          [(100, { example_request 15000001000 with
                     upstream_fd := 6, client := (2130706433, 40001) }),
           (43981, example_request 15000000000)],
        expirations := [(15000000000, 43981), (15000001000, 100)],
        timer_calls := [.abstime 15 0] },
    sockets :=
      { available := [(6, { outstanding := 1, lifetime := 1 }),
                      (5, { outstanding := 1, lifetime := 1 })],
        end_of_life := [], closed := [] },
    send_calls := [(5, set_header_id example_query 43981),
                   (6, set_header_id example_query 100)],
    sendto_calls := [] }

/-- A pool configuration without limits: `MAX_PORTS = 0` and
`MAX_PORT_LIFETIME = 0`. -/
def example_pool_config_no_limit : PoolConfig :=
  { MAX_PORTS := 0, MAX_PORT_LIFETIME := 0 }

/-- A short history of the pool: the socket 5 is created and two queries are
forwarded through it. -/
def example_pool_calls_two_forwards : List Upstream.Call :=
  [.get ⟨5, 0⟩, .put 5, .put 5]

/-- The table after the request 5 has been recorded at the clock reading
10 ns with a timeout of 15 seconds. -/
def table_5 : Requests :=
  { timer_state := .EXACT,
    requests := [(5, example_request 15000000010)],
    expirations := [(15000000010, 5)],
    timer_calls := [.abstime 15 10] }

/-- The environment of `example_forward_env_2` with the clock reading of
`example_forward_env`. -/
def example_forward_env_tie : Proxy.ForwardEnv :=
  { example_forward_env_2 with put_env := example_env 0 }

namespace Upstream

/-- The number of calls of `Put` for the socket `sfd` in a sequence of
calls. -/
def puts_on (sfd : Int) (calls : List Call) : Nat :=
  (calls.filter (fun c => decide (c = .put sfd))).length

/-- The call is a `Get` whose socket creation, when it is made, returns the
identifier `sfd`. -/
def creates (sfd : Int) : Call → Bool
  | .get env => decide (env.new_socket = sfd)
  | _ => false

end Upstream

/-- The pool after the creation of the socket 5 by `Get`. -/
def example_pool_created : Upstream :=
  { available := [(5, { outstanding := 0, lifetime := 0 })],
    end_of_life := [], closed := [] }

/-- A history of the socket 5 after its creation: a forward, the creation of
the socket 6, a response, and a second forward. -/
def example_pool_calls_after_creation : List Upstream.Call :=
  [.put 5, .get ⟨6, 0⟩, .done 5, .put 5]

/-- The pool after `example_pool_calls_after_creation` from
`example_pool_created`, with `example_pool_config`. -/
def example_pool_retired : Upstream :=
  { available := [(6, { outstanding := 0, lifetime := 0 })],
    end_of_life := [(5, 1)], closed := [] }

namespace Requests

/-- The entries the loop of `Get_query_id` (lines 58-69) visits, each with
the values of `*query_idp` and `next_free` on entry of the iteration: the
same loop as `walk`, in the same 16-bit arithmetic, that records
(`i.first`, `*query_idp`, `next_free`) at every iteration it enters, the
one that fails the assertion or breaks included. -/
def walk_visited : List Nat → Nat → Nat → List (Nat × Nat × Nat)
  | [], _, _ => []
  | key :: rest, query_id, next_free =>
    (key, query_id, next_free) ::
      (if next_free ≤ key then
        let nfree := (key + 65536 - next_free) % 65536
        if query_id < nfree then []
        else
          walk_visited rest ((query_id + 65536 - nfree) % 65536)
            ((key + 1) % 65536)
      else [])

/-- The loop of `Get_query_id` (lines 58-69) followed by
`*query_idp += next_free`, computed over the integers instead of
`query_id_t`: no operation is reduced modulo 65536 and nothing is
asserted. -/
def walk_unbounded : List Nat → Int → Int → Int
  | [], query_id, next_free => query_id + next_free
  | key :: rest, query_id, next_free =>
    let nfree := (key : Int) - next_free
    if query_id < nfree then query_id + next_free
    else walk_unbounded rest (query_id - nfree) ((key : Int) + 1)

end Requests

/-- The wire form of a name made of the given labels: each label as its
length followed by its bytes, then the zero byte that ends the name. -/
def encode_qname : List (List Nat) → List Nat
  | [] => [0]
  | label :: rest => label.length :: (label ++ encode_qname rest)

/-- The wire form of a list of questions, each a list of labels and the bytes
of QTYPE and QCLASS that follow the name. -/
def encode_questions : List (List (List Nat) × List Nat) → List Nat
  | [] => []
  | q :: rest => encode_qname q.1 ++ (q.2 ++ encode_questions rest)

/-- The header of `example_query`. -/
def example_header : List Nat :=
  [18, 52, 1, 0, 0, 1, 0, 0, 0, 0, 0, 0]

/-- The question of `example_query`: the labels `example` and `com`, QTYPE 1
and QCLASS 1. -/
def example_questions : List (List (List Nat) × List Nat) :=
  [([[101, 120, 97, 109, 112, 108, 101], [99, 111, 109]], [0, 1, 0, 1])]

/-- The answer record of `example_response`, as a trailer. -/
def example_trailer : List Nat :=
  [192, 12, 0, 1, 0, 1, 0, 0, 14, 16, 0, 4, 93, 184, 216, 34]

/-- A message that is a header alone, with QDCOUNT 0 and the QR bit set. -/
def example_empty_response : List Nat :=
  [171, 205, 129, 128, 0, 0, 0, 0, 0, 0, 0, 0]

/-- The outstanding count the pool stores for the socket `sfd`: the one of
its element in `available`, else the one of its element in `end_of_life`
(the order in which `Upstream::Done` looks the socket up), and 0 when the
pool does not hold the socket. -/
def Upstream.outstanding_of (s : Upstream) (sfd : Int) : Nat :=
  match umap_find s.available sfd with
  | some socket => socket.outstanding
  | none =>
    match umap_find s.end_of_life sfd with
    | some o => o
    | none => 0

/-- The number of request records in a list whose `upstream_fd` is `sfd`. -/
def records_on (m : List (Nat × request_st)) (sfd : Int) : Nat :=
  (m.filter (fun e => decide (e.2.upstream_fd = sfd))).length

namespace Proxy

/-- The assumption on socket creation for one event: when `forward_query`
runs `Upstream::Get` and a socket is created, the identifier obtained is not
held by the pool. -/
def event_fresh (pcfg : PoolConfig) (e : Event) (st : Proxy) : Bool :=
  match e with
  | .client env =>
    decide (Upstream.creation_fresh pcfg env.socket_env st.sockets)
  | _ => true

/-- The assumption on socket creation along a sequence of events from the
state `st`. -/
def creation_fresh_along (cfg : Config) (pcfg : PoolConfig) :
    List Event → Proxy → Bool
  | [], _ => true
  | e :: es, st =>
    event_fresh pcfg e st &&
    (match Run_step cfg pcfg e st with
      | none => true
      | some st1 => creation_fresh_along cfg pcfg es st1)

end Proxy

/-- A history of the proxy: two queries are forwarded, the response to the
first one is returned, and the timer fires after the second one has
expired. -/
def example_events : List Proxy.Event :=
  [.client example_forward_env, .client example_forward_env_2,
    .upstream 5 (example_response_env example_response),
    .timer true (example_env 15000002000)]

/-- The inner loop of `parse_message` (lines 224-269) on offsets: `p` is the
offset of the pointer `p` in the message and `left` the counter `left`.  The
result is the pair (`p`, `left`) after the loop, `none` when the function
returns `NULL`, together with the offsets of the message the loop reads, in
order: the length byte of each label and, when `common::Debug` is set, the
bytes `qname.append(p, llabel)` copies.  A read outside the message yields 0
and is recorded like any other. -/
def parse_qname_reads (debug : Bool) (msg : List Nat) :
    Nat → Nat → Nat → Option (Nat × Nat) × List Nat
  | 0, _, _ => (none, [])
  | fuel + 1, p, left =>
    if left < 1 then (none, [])
    else
      let llabel := msg.getD p 0
      let p1 := p + 1
      let left1 := left - 1
      if llabel = 0 then (some (p1, left1), [p])
      else if left1 < llabel then (none, [p])
      else
        let copied := if debug then List.range' p1 llabel else []
        let r := parse_qname_reads debug msg fuel (p1 + llabel)
          (left1 - llabel)
        (r.1, p :: (copied ++ r.2))

/-- The outer loop of `parse_message` (lines 218-292) on offsets, for the
loop counter `i`: the pair (`p`, `left`) after the loop, `none` when the
function returns `NULL`, and the offsets read. -/
def parse_questions_reads (debug : Bool) (msg : List Nat) :
    Nat → Nat → Nat → Option (Nat × Nat) × List Nat
  | 0, p, left => (some (p, left), [])
  | i + 1, p, left =>
    match parse_qname_reads debug msg (left + 1) p left with
    | (none, reads) => (none, reads)
    | (some (p1, left1), reads) =>
      if left1 < NS_QFIXEDSZ then (none, reads)
      else
        let r := parse_questions_reads debug msg i (p1 + NS_QFIXEDSZ)
          (left1 - NS_QFIXEDSZ)
        (r.1, reads ++ r.2)

/-- The method `DNSProxy::parse_message` on offsets, for a message of
`smsg = msg.length` bytes, with the value of `common::Debug`: its result as
in `parse_message`, and the offsets of the message it reads, in order: the
fields `id` and `qdcount` of the header, the reads of the loops, and the
bytes `question.assign(top, p)` copies. -/
def parse_message_reads (debug : Bool) (msg : List Nat) :
    Option (Nat × List Nat) × List Nat :=
  let smsg := msg.length
  if smsg < NS_HFIXEDSZ then (none, [])
  else
    let query_id := ntohs_field msg 0
    let top := NS_HFIXEDSZ
    match parse_questions_reads debug msg (ntohs_field msg 4) top
        (smsg - NS_HFIXEDSZ) with
    | (none, reads) => (none, [0, 1, 4, 5] ++ reads)
    | (some (p, _), reads) =>
      (some (query_id,
          (List.range' top (p - top)).map (fun i => msg.getD i 0)),
        [0, 1, 4, 5] ++ reads ++ List.range' top (p - top))

/-- The environment of a `return_response` that receives `example_response`
at the clock reading 1000 ns, the reading of `example_forward_env_2`. -/
def example_response_env_tie : Proxy.ResponseEnv :=
  { received := some example_response, sendto_ok := true,
    done_env := example_env 1000 }

/-- The environment of `example_forward_env_3` with the clock reading
1000 ns, the reading of `example_forward_env_2`. -/
def example_forward_env_3_tie : Proxy.ForwardEnv :=
  { example_forward_env_3 with put_env := example_env 1000 }

/-- The environment of `example_forward_env_3` with the clock reading
1001 ns. -/
def example_forward_env_3_later : Proxy.ForwardEnv :=
  { example_forward_env_3 with put_env := example_env 1001 }

/-- The events that put two requests in flight and complete the first one,
all at non-decreasing clock readings (0, 1000 and 1000 ns). -/
def completion_events : List Proxy.Event :=
  saturation_events ++ [.upstream 5 example_response_env_tie]

/-- The proxy after `completion_events`: the request 100 is in flight. -/
def proxy_one_completed : Proxy :=
  { requests :=
      { timer_state := .EXACT,
        requests :=
          [(100, { example_request 15000001000 with
                     upstream_fd := 6, client := (2130706433, 40001) })],
        expirations := [(15000001000, 100)],
        timer_calls := [.abstime 15 0, .abstime 15 1000] },
    sockets :=
      { available := [(6, { outstanding := 1, lifetime := 1 }),
                      (5, { outstanding := 0, lifetime := 1 })],
        end_of_life := [], closed := [] },
    send_calls := [(5, set_header_id example_query 43981),
                   (6, set_header_id example_query 100)],
    sendto_calls :=
      [((2130706433, 40000), set_header_id example_response 4660)] }

open Requests

/-! ## Lists of distinct numbers -/

theorem nodup_of_ascending {l : List Nat} (h : l.Pairwise (· < ·)) :
    l.Nodup :=
  List.Pairwise.imp (fun hab => Nat.ne_of_lt hab) h

theorem length_le_of_nodup_of_bounds {l : List Nat} (a b : Nat)
    (hn : l.Nodup) (hb : ∀ x ∈ l, a ≤ x ∧ x < b) : l.length ≤ b - a := by
  have hsub : l.toFinset ⊆ Finset.Ico a b := by
    intro x hx
    have := hb x (List.mem_toFinset.1 hx)
    exact Finset.mem_Ico.2 this
  have hcard := Finset.card_le_card hsub
  rw [List.toFinset_card_of_nodup hn, Nat.card_Ico] at hcard
  exact hcard

theorem count_free_below {keys : List Nat} (hn : keys.Nodup) (r : Nat) :
    ((List.range r).filter (fun x => decide (x ∉ keys))).length
      + (keys.filter (fun x => decide (x < r))).length = r := by
  have hsplit := List.length_eq_length_filter_add (l := List.range r)
    (fun x => decide (x ∈ keys))
  have hperm : ((List.range r).filter (fun x => decide (x ∈ keys))).Perm
      (keys.filter (fun x => decide (x < r))) := by
    apply (List.perm_ext_iff_of_nodup
      ((List.nodup_range r).filter _) (hn.filter _)).2
    intro a
    simp only [List.mem_filter, List.mem_range, decide_eq_true_eq]
    tauto
  have hlen := hperm.length_eq
  have hnot : (List.range r).filter (fun x => decide (x ∉ keys))
      = (List.range r).filter (fun x => !(decide (x ∈ keys))) := by
    congr 1
    funext x
    simp
  rw [hnot]
  simp only [List.length_range] at hsplit
  omega

theorem map_find_eq_none_iff (m : List (Nat × request_st)) (q : Nat) :
    map_find m q = none ↔ q ∉ m.map Prod.fst := by
  induction m with
  | nil => simp [map_find]
  | cons e rest ih =>
    obtain ⟨k, v⟩ := e
    by_cases h : k = q
    · simp [map_find, h]
    · have h' : ¬ q = k := fun hq => h hq.symm
      simp [map_find, h, h', ih]

/-! ## The allocator `Get_query_id` -/

theorem walk_spec : ∀ (keys : List Nat) (q nf : Nat),
    keys.Pairwise (· < ·) → (∀ x ∈ keys, nf ≤ x ∧ x < 65536) →
    q + nf + keys.length ≤ 65535 →
    ∃ q' nf', Requests.walk keys q nf = some (q', nf') ∧ q' + nf' ≤ 65535 ∧
      nf ≤ q' + nf' ∧ q' + nf' ∉ keys ∧
      q' + nf' = q + nf + (keys.filter (· < q' + nf')).length := by
  intro keys
  induction keys with
  | nil =>
    intro q nf _ _ h
    exact ⟨q, nf, rfl, by simpa using h, by omega, by simp, by simp⟩
  | cons key rest ih =>
    intro q nf hs hb hlen
    have hk := hb key (List.mem_cons_self _ _)
    rw [List.pairwise_cons] at hs
    simp only [List.length_cons] at hlen
    have hnfree : (key + 65536 - nf) % 65536 = key - nf := by omega
    by_cases hq : q < key - nf
    · refine ⟨q, nf, ?_, by omega, by omega, ?_, ?_⟩
      · simp [Requests.walk, hk.1, hnfree, hq]
      · intro hmem
        rcases List.mem_cons.1 hmem with h | h
        · omega
        · have := hs.1 _ h; omega
      · have hnil : (key :: rest).filter (· < q + nf) = [] := by
          apply List.filter_eq_nil_iff.2
          intro a ha
          rcases List.mem_cons.1 ha with h | h
          · simp; omega
          · have := hs.1 _ h; simp; omega
        rw [hnil]; simp
    · have hq1 : (q + 65536 - (key - nf)) % 65536 = q - (key - nf) := by omega
      have hk1 : (key + 1) % 65536 = key + 1 := by omega
      obtain ⟨q', nf', hw, h1, h2, h3, h4⟩ :=
        ih (q - (key - nf)) (key + 1) hs.2
          (fun x hx => ⟨hs.1 x hx, (hb x (List.mem_cons_of_mem _ hx)).2⟩)
          (by omega)
      refine ⟨q', nf', ?_, h1, by omega, ?_, ?_⟩
      · simp [Requests.walk, hk.1, hnfree, hq, hq1, hk1, hw]
      · intro hmem
        rcases List.mem_cons.1 hmem with h | h
        · omega
        · exact h3 h
      · have hlt : key < q' + nf' := by omega
        rw [List.filter_cons_of_pos (by simpa using hlt)]
        simp only [List.length_cons]
        omega

theorem debug_count_spec : ∀ (keys : List Nat) (r nth : Nat),
    keys.Pairwise (· < ·) →
    nth + (keys.filter (· < r)).length ≤ 65535 →
    Requests.debug_count keys r nth = nth + (keys.filter (· < r)).length := by
  intro keys
  induction keys with
  | nil => intro r nth _ _; simp [Requests.debug_count]
  | cons key rest ih =>
    intro r nth hs hle
    rw [List.pairwise_cons] at hs
    by_cases hk : key < r
    · rw [List.filter_cons_of_pos (by simpa using hk)] at hle ⊢
      simp only [List.length_cons] at hle ⊢
      have h1 : (nth + 1) % 65536 = nth + 1 := by omega
      simp only [Requests.debug_count, hk, if_true, h1]
      rw [ih r (nth + 1) hs.2 (by omega)]
      omega
    · have hnil : (key :: rest).filter (· < r) = [] := by
        apply List.filter_eq_nil_iff.2
        intro a ha
        rcases List.mem_cons.1 ha with h | h
        · simp; omega
        · have := hs.1 _ h; simp; omega
      rw [hnil]
      simp [Requests.debug_count, hk]

theorem nth_free_spec (s : Requests) (k : Nat) (hwf : s.WF)
    (hn : s.requests.length < 65536) (hk : k ≤ 65535 - s.requests.length) :
    ∃ id, Requests.nth_free s k = some id ∧ id < 65536 ∧ id ∉ s.keys ∧
      id = k + (s.keys.filter (· < id)).length := by
  have hlen : s.keys.length = s.requests.length := by simp [Requests.keys]
  obtain ⟨q', nf', hw, h1, _, h3, h4⟩ := walk_spec s.keys k 0 hwf.1
    (fun x hx => ⟨Nat.zero_le _, hwf.2.1 x hx⟩) (by omega)
  refine ⟨q' + nf', ?_, by omega, h3, by omega⟩
  have hmod : (q' + nf') % 65536 = q' + nf' := by omega
  simp [Requests.nth_free, hw, hmod]

theorem Get_query_id_spec (cfg : Config) (s : Requests) (k id : Nat)
    (hwf : s.WF)
    (hsat : cfg.MAX_OUTSTANDING_REQUESTS = 0
      ∨ s.requests.length < cfg.MAX_OUTSTANDING_REQUESTS)
    (hn : s.requests.length < 65536)
    (hfree : Requests.nth_free s k = some id) (hid : id < 65536)
    (hnot : id ∉ s.keys)
    (hrank : id = k + (s.keys.filter (· < id)).length) :
    Requests.Get_query_id cfg s k = some (some id) := by
  have hc1 : ¬ (cfg.MAX_OUTSTANDING_REQUESTS ≠ 0
      ∧ s.requests.length ≥ cfg.MAX_OUTSTANDING_REQUESTS) := by
    rintro ⟨h1, h2⟩
    rcases hsat with h | h
    · exact h1 h
    · omega
  have hfind : map_find s.requests id = none :=
    (map_find_eq_none_iff _ _).2 hnot
  have hdbg : Requests.debug_count s.keys id k = id := by
    rw [debug_count_spec s.keys id k hwf.1 (by omega)]
    exact hrank.symm
  have hc2 : s.requests.length ≤ MAX_POSSIBLE_QUERIES := by
    unfold MAX_POSSIBLE_QUERIES; omega
  have hc3 : ¬ s.requests.length ≥ MAX_POSSIBLE_QUERIES := by
    unfold MAX_POSSIBLE_QUERIES; omega
  unfold Requests.Get_query_id
  rw [if_neg hc1, if_neg (not_not.2 hc2), if_neg hc3, hfree]
  simp [hfind, hdbg]

theorem used_below_le {keys : List Nat} (hn : keys.Nodup) (r : Nat) :
    (keys.filter (· < r)).length ≤ r := by
  have h := length_le_of_nodup_of_bounds 0 r (hn.filter (· < r))
    (fun x hx => ⟨Nat.zero_le _, by simpa using (List.mem_filter.1 hx).2⟩)
  simpa using h

theorem used_between {keys : List Nat} (hn : keys.Nodup) {r r' : Nat}
    (hlt : r < r') (hr : r ∉ keys) :
    (keys.filter (· < r')).length
      ≤ (keys.filter (· < r)).length + (r' - (r + 1)) := by
  have hsplit := List.length_eq_length_filter_add
    (l := keys.filter (· < r')) (fun x => decide (x < r))
  have h1 : (keys.filter (· < r')).filter (fun x => decide (x < r))
      = keys.filter (· < r) := by
    rw [List.filter_filter]
    apply List.filter_congr
    intro x _
    by_cases hx : x < r
    · have : x < r' := by omega
      simp [hx, this]
    · simp [hx]
  have h2 : ((keys.filter (· < r')).filter
      (fun x => !(decide (x < r)))).length ≤ r' - (r + 1) := by
    apply length_le_of_nodup_of_bounds (r + 1) r' ((hn.filter _).filter _)
    intro x hx
    have hx1 := List.mem_filter.1 hx
    have hx2 := List.mem_filter.1 hx1.1
    have hne : x ≠ r := fun h => hr (h ▸ hx2.1)
    have ha : ¬ x < r := by simpa using hx1.2
    have hb : x < r' := by simpa using hx2.2
    omega
  rw [h1] at hsplit
  omega

theorem rank_unique {keys : List Nat} (hn : keys.Nodup) {r r' k : Nat}
    (hr : r ∉ keys) (hr' : r' ∉ keys)
    (h1 : r = k + (keys.filter (· < r)).length)
    (h2 : r' = k + (keys.filter (· < r')).length) : r = r' := by
  rcases Nat.lt_trichotomy r r' with h | h | h
  · have := used_between hn h hr
    omega
  · exact h
  · have := used_between hn h hr'
    omega

theorem rank_le_draw_bound {keys : List Nat} (hn : keys.Nodup)
    (hb : ∀ x ∈ keys, x < 65536) {r : Nat} (hr : r ∉ keys)
    (hr16 : r < 65536) :
    r - (keys.filter (· < r)).length ≤ 65535 - keys.length := by
  have hsplit := List.length_eq_length_filter_add (l := keys)
    (fun x => decide (x < r))
  have h2 : (keys.filter (fun x => !(decide (x < r)))).length
      ≤ 65536 - (r + 1) := by
    apply length_le_of_nodup_of_bounds (r + 1) 65536 (hn.filter _)
    intro x hx
    have hx1 := List.mem_filter.1 hx
    have hne : x ≠ r := fun h => hr (h ▸ hx1.1)
    have ha : ¬ x < r := by simpa using hx1.2
    have := hb x hx1.1
    omega
  have h3 := used_below_le hn r
  omega

theorem size_le_of_WF (s : Requests) (hwf : s.WF) :
    s.requests.length ≤ 65536 := by
  have h := length_le_of_nodup_of_bounds 0 65536 (nodup_of_ascending hwf.1)
    (fun x hx => ⟨Nat.zero_le _, hwf.2.1 x hx⟩)
  simpa [Requests.keys] using h

theorem full_iff_of_WF (s : Requests) (hwf : s.WF) :
    s.requests.length ≥ 65536 ↔ ∀ id, id < 65536 → id ∈ s.keys := by
  have hnd := nodup_of_ascending hwf.1
  have hlen : s.keys.length = s.requests.length := by simp [Requests.keys]
  constructor
  · intro hge id hid
    by_contra hnot
    have hsub : s.keys.toFinset ⊆ (Finset.range 65536).erase id := by
      intro x hx
      have hx' := List.mem_toFinset.1 hx
      refine Finset.mem_erase.2 ⟨fun h => hnot (h ▸ hx'), ?_⟩
      exact Finset.mem_range.2 (hwf.2.1 x hx')
    have hcard := Finset.card_le_card hsub
    rw [List.toFinset_card_of_nodup hnd,
      Finset.card_erase_of_mem (Finset.mem_range.2 hid),
      Finset.card_range] at hcard
    omega
  · intro hall
    have hsub : Finset.range 65536 ⊆ s.keys.toFinset := by
      intro x hx
      exact List.mem_toFinset.2 (hall x (Finset.mem_range.1 hx))
    have hcard := Finset.card_le_card hsub
    rw [List.toFinset_card_of_nodup hnd, Finset.card_range] at hcard
    omega

theorem table_3_7_WF : table_3_7.WF := by
  simp [Requests.WF, Requests.keys, table_3_7, pair_lt]

/-! ## Claims on `Get_query_id` -/

/-- C1: for every well-formed request mapping with fewer than 65536 entries
that is not saturated (`MAX_OUTSTANDING_REQUESTS` is 0 or greater than the
size) and every draw `k` in `[0, 65535 - n]`, `Get_query_id` returns true
with an ID that is not a key of the mapping (`Find` returns nothing for
it). -/
theorem C1_allocated_id_is_free (cfg : Config) (s : Requests) (k : Nat)
    (hwf : s.WF) (hn : s.requests.length < 65536)
    (hsat : cfg.MAX_OUTSTANDING_REQUESTS = 0
      ∨ s.requests.length < cfg.MAX_OUTSTANDING_REQUESTS)
    (hk : k ≤ 65535 - s.requests.length) :
    ∃ id, Requests.Get_query_id cfg s k = some (some id) ∧ id ∉ s.keys ∧
      Requests.Find s id = none := by
  obtain ⟨id, hfree, hid, hnot, hrank⟩ := nth_free_spec s k hwf hn hk
  exact ⟨id, Get_query_id_spec cfg s k id hwf hsat hn hfree hid hnot hrank,
    hnot, (map_find_eq_none_iff _ _).2 hnot⟩

theorem C1_allocated_id_is_free_witness :
    ∃ id, Requests.Get_query_id example_config table_3_7 3 = some (some id)
      ∧ id ∉ table_3_7.keys ∧ Requests.Find table_3_7 id = none :=
  C1_allocated_id_is_free example_config table_3_7 3 table_3_7_WF
    (by decide) (Or.inl rfl) (by decide)

/-- C2: for every well-formed request mapping with fewer than 65536 entries
and every draw `k` in `[0, 65535 - n]`, the walk of `Get_query_id` produces
the `k`-th (0-indexed) free ID in ascending order: the ID is not a key,
exactly `k` IDs below it are not keys, and the ID is `k` plus the number of
keys below it; the debug check passes, so that `Get_query_id` returns this ID
whenever the table is not saturated. -/
theorem C2_walk_selects_kth_free (s : Requests) (k : Nat)
    (hwf : s.WF) (hn : s.requests.length < 65536)
    (hk : k ≤ 65535 - s.requests.length) :
    ∃ id, Requests.nth_free s k = some id ∧ id ∉ s.keys ∧
      ((List.range id).filter (fun x => decide (x ∉ s.keys))).length = k ∧
      id = k + (s.keys.filter (· < id)).length ∧
      ∀ cfg : Config, (cfg.MAX_OUTSTANDING_REQUESTS = 0
          ∨ s.requests.length < cfg.MAX_OUTSTANDING_REQUESTS) →
        Requests.Get_query_id cfg s k = some (some id) := by
  obtain ⟨id, hfree, hid, hnot, hrank⟩ := nth_free_spec s k hwf hn hk
  refine ⟨id, hfree, hnot, ?_, hrank, ?_⟩
  · have := count_free_below (nodup_of_ascending hwf.1) id
    omega
  · intro cfg hsat
    exact Get_query_id_spec cfg s k id hwf hsat hn hfree hid hnot hrank

theorem C2_walk_selects_kth_free_witness :
    (Requests.Get_query_id example_config table_3_7 0 = some (some 0) ∧
     Requests.Get_query_id example_config table_3_7 2 = some (some 2) ∧
     Requests.Get_query_id example_config table_3_7 3 = some (some 4) ∧
     Requests.Get_query_id example_config table_3_7 6 = some (some 8)) ∧
    ∃ id, Requests.nth_free table_3_7 6 = some id ∧ id ∉ table_3_7.keys ∧
      ((List.range id).filter
        (fun x => decide (x ∉ table_3_7.keys))).length = 6 ∧
      id = 6 + (table_3_7.keys.filter (· < id)).length ∧
      ∀ cfg : Config, (cfg.MAX_OUTSTANDING_REQUESTS = 0
          ∨ table_3_7.requests.length < cfg.MAX_OUTSTANDING_REQUESTS) →
        Requests.Get_query_id cfg table_3_7 6 = some (some id) :=
  ⟨by decide,
   C2_walk_selects_kth_free table_3_7 6 table_3_7_WF (by decide) (by decide)⟩

/-- C3: for every well-formed request mapping with fewer than 65536 entries,
the function from the draw to the ID the walk of `Get_query_id` produces is a
bijection from `[0, 65535 - n]` onto the IDs absent from the mapping: every
draw gives a free ID, distinct draws give distinct IDs, and every free ID is
given by a draw; `Get_query_id` returns the ID of the walk whenever the table
is not saturated. -/
theorem C3_draw_to_free_id_bijective (s : Requests) (hwf : s.WF)
    (hn : s.requests.length < 65536) :
    (∀ k, k ≤ 65535 - s.requests.length →
      ∃ id, Requests.nth_free s k = some id ∧ id < 65536 ∧ id ∉ s.keys ∧
        ∀ cfg : Config, (cfg.MAX_OUTSTANDING_REQUESTS = 0
            ∨ s.requests.length < cfg.MAX_OUTSTANDING_REQUESTS) →
          Requests.Get_query_id cfg s k = some (some id)) ∧
    (∀ k₁ k₂, k₁ ≤ 65535 - s.requests.length →
      k₂ ≤ 65535 - s.requests.length →
      Requests.nth_free s k₁ = Requests.nth_free s k₂ → k₁ = k₂) ∧
    (∀ id, id < 65536 → id ∉ s.keys →
      ∃ k, k ≤ 65535 - s.requests.length ∧
        Requests.nth_free s k = some id) := by
  have hnd := nodup_of_ascending hwf.1
  have hlen : s.keys.length = s.requests.length := by simp [Requests.keys]
  refine ⟨?_, ?_, ?_⟩
  · intro k hk
    obtain ⟨id, hfree, hid, hnot, hrank⟩ := nth_free_spec s k hwf hn hk
    exact ⟨id, hfree, hid, hnot, fun cfg hsat =>
      Get_query_id_spec cfg s k id hwf hsat hn hfree hid hnot hrank⟩
  · intro k₁ k₂ hk₁ hk₂ heq
    obtain ⟨id₁, hfree₁, _, _, hrank₁⟩ := nth_free_spec s k₁ hwf hn hk₁
    obtain ⟨id₂, hfree₂, _, _, hrank₂⟩ := nth_free_spec s k₂ hwf hn hk₂
    rw [hfree₁, hfree₂] at heq
    have hid : id₁ = id₂ := Option.some.inj heq
    subst hid
    omega
  · intro id hid hnot
    have hbound := rank_le_draw_bound hnd hwf.2.1 hnot hid
    have hle := used_below_le hnd id
    rw [hlen] at hbound
    refine ⟨id - (s.keys.filter (· < id)).length, hbound, ?_⟩
    obtain ⟨id', hfree', _, hnot', hrank'⟩ :=
      nth_free_spec s _ hwf hn hbound
    have hrank : id = id - (s.keys.filter (· < id)).length
        + (s.keys.filter (· < id)).length := by omega
    rw [hfree', rank_unique hnd hnot hnot' hrank hrank']

theorem C3_draw_to_free_id_bijective_witness :
    (∀ k, k ≤ 65535 - table_3_7.requests.length →
      ∃ id, Requests.nth_free table_3_7 k = some id ∧ id < 65536
        ∧ id ∉ table_3_7.keys ∧
        ∀ cfg : Config, (cfg.MAX_OUTSTANDING_REQUESTS = 0
            ∨ table_3_7.requests.length < cfg.MAX_OUTSTANDING_REQUESTS) →
          Requests.Get_query_id cfg table_3_7 k = some (some id)) ∧
    (∀ k₁ k₂, k₁ ≤ 65535 - table_3_7.requests.length →
      k₂ ≤ 65535 - table_3_7.requests.length →
      Requests.nth_free table_3_7 k₁ = Requests.nth_free table_3_7 k₂ →
      k₁ = k₂) ∧
    (∀ id, id < 65536 → id ∉ table_3_7.keys →
      ∃ k, k ≤ 65535 - table_3_7.requests.length ∧
        Requests.nth_free table_3_7 k = some id) :=
  C3_draw_to_free_id_bijective table_3_7 table_3_7_WF (by decide)

/-- C4: on a well-formed table, whatever the draw in `[0, 65535 - n]`,
`Get_query_id` trips no assertion; it returns false if and only if
`MAX_OUTSTANDING_REQUESTS` is non-zero and at most the size of the mapping,
or the mapping holds all 65536 IDs; in every other state it returns true
with an ID; and the table after the call is the table before it. -/
theorem C4_Get_query_id_fails_iff (cfg : Config) (s : Requests) (k : Nat)
    (hwf : s.WF) (hk : k ≤ 65535 - s.requests.length) :
    Requests.Get_query_id cfg s k ≠ none ∧
    (Requests.Get_query_id cfg s k = some none ↔
      (cfg.MAX_OUTSTANDING_REQUESTS ≠ 0
        ∧ s.requests.length ≥ cfg.MAX_OUTSTANDING_REQUESTS)
      ∨ ∀ id, id < 65536 → id ∈ s.keys) ∧
    (¬ ((cfg.MAX_OUTSTANDING_REQUESTS ≠ 0
        ∧ s.requests.length ≥ cfg.MAX_OUTSTANDING_REQUESTS)
      ∨ ∀ id, id < 65536 → id ∈ s.keys) →
      ∃ id, Requests.Get_query_id cfg s k = some (some id)) ∧
    (Requests.Get_query_id_step cfg s k).2 = s := by
  have hsize := size_le_of_WF s hwf
  have hfull := full_iff_of_WF s hwf
  by_cases hsat : cfg.MAX_OUTSTANDING_REQUESTS ≠ 0
      ∧ s.requests.length ≥ cfg.MAX_OUTSTANDING_REQUESTS
  · have hres : Requests.Get_query_id cfg s k = some none := by
      unfold Requests.Get_query_id
      rw [if_pos hsat]
    refine ⟨by simp [hres], ⟨fun _ => Or.inl hsat, fun _ => hres⟩, ?_, rfl⟩
    intro hno
    exact absurd (Or.inl hsat) hno
  · by_cases hall : s.requests.length ≥ 65536
    · have hres : Requests.Get_query_id cfg s k = some none := by
        unfold Requests.Get_query_id
        rw [if_neg hsat, if_neg (by unfold MAX_POSSIBLE_QUERIES; omega),
          if_pos (by unfold MAX_POSSIBLE_QUERIES; omega)]
      refine ⟨by simp [hres],
        ⟨fun _ => Or.inr (hfull.1 hall), fun _ => hres⟩, ?_, rfl⟩
      intro hno
      exact absurd (Or.inr (hfull.1 hall)) hno
    · have hn : s.requests.length < 65536 := by omega
      have hsat' : cfg.MAX_OUTSTANDING_REQUESTS = 0
          ∨ s.requests.length < cfg.MAX_OUTSTANDING_REQUESTS := by
        by_cases h0 : cfg.MAX_OUTSTANDING_REQUESTS = 0
        · exact Or.inl h0
        · right
          by_contra hge
          exact hsat ⟨h0, by omega⟩
      obtain ⟨id, hfree, hid, hnot, hrank⟩ := nth_free_spec s k hwf hn hk
      have hres := Get_query_id_spec cfg s k id hwf hsat' hn hfree hid hnot
        hrank
      refine ⟨by simp [hres], ⟨?_, ?_⟩, fun _ => ⟨id, hres⟩, rfl⟩
      · intro h
        rw [hres] at h
        simp at h
      · rintro (h | h)
        · exact absurd h hsat
        · exact absurd (hfull.2 h) hall

theorem C4_Get_query_id_fails_iff_witness :
    Requests.Get_query_id
      { example_config with MAX_OUTSTANDING_REQUESTS := 2 } table_3_7 0
      = some none ∧
    Requests.Get_query_id
      { example_config with MAX_OUTSTANDING_REQUESTS := 3 } table_3_7 0
      = some (some 0) ∧
    (Requests.Get_query_id
        { example_config with MAX_OUTSTANDING_REQUESTS := 2 } table_3_7 0
        = some none ↔
      (({ example_config with MAX_OUTSTANDING_REQUESTS := 2 } : Config
          ).MAX_OUTSTANDING_REQUESTS ≠ 0
        ∧ table_3_7.requests.length ≥
          ({ example_config with MAX_OUTSTANDING_REQUESTS := 2 } : Config
            ).MAX_OUTSTANDING_REQUESTS)
      ∨ ∀ id, id < 65536 → id ∈ table_3_7.keys) :=
  ⟨by decide, by decide,
    (C4_Get_query_id_fails_iff
      { example_config with MAX_OUTSTANDING_REQUESTS := 2 } table_3_7 0
      table_3_7_WF (by decide)).2.1⟩

/-! ## The containers -/

theorem pair_lt_trans {a b c : Nat × Nat} (hab : pair_lt a b)
    (hbc : pair_lt b c) : pair_lt a c := by
  unfold pair_lt at *
  omega

theorem pair_lt_of_not {p a : Nat × Nat} (h1 : ¬ pair_lt p a) (h2 : p ≠ a) :
    pair_lt a p := by
  have hne : ¬ (p.1 = a.1 ∧ p.2 = a.2) := fun h => h2 (Prod.ext h.1 h.2)
  unfold pair_lt at *
  omega

theorem pair_lt_irrefl (a : Nat × Nat) : ¬ pair_lt a a := by
  unfold pair_lt
  omega

theorem nodup_of_pair_ascending {l : List (Nat × Nat)}
    (h : l.Pairwise pair_lt) : l.Nodup :=
  List.Pairwise.imp (R := pair_lt) (S := fun a b => a ≠ b)
    (fun {a b} (hab : pair_lt a b) (heq : a = b) =>
      pair_lt_irrefl b (by rw [heq] at hab; exact hab)) h

theorem mem_set_emplace (l : List (Nat × Nat)) (p x : Nat × Nat) :
    x ∈ set_emplace l p ↔ x = p ∨ x ∈ l := by
  induction l with
  | nil => simp [set_emplace]
  | cons a rest ih =>
    unfold set_emplace
    by_cases h1 : pair_lt p a
    · simp [h1]
    · by_cases h2 : p = a
      · subst h2
        simp [h1]
      · simp only [h1, h2, if_false, List.mem_cons, ih]
        tauto

theorem set_emplace_ascending (l : List (Nat × Nat)) (p : Nat × Nat)
    (h : l.Pairwise pair_lt) : (set_emplace l p).Pairwise pair_lt := by
  induction l with
  | nil => simp [set_emplace]
  | cons a rest ih =>
    rw [List.pairwise_cons] at h
    unfold set_emplace
    by_cases h1 : pair_lt p a
    · simp only [h1, if_true]
      refine List.pairwise_cons.2 ⟨?_, List.pairwise_cons.2 h⟩
      intro x hx
      rcases List.mem_cons.1 hx with hxa | hxr
      · exact hxa ▸ h1
      · exact pair_lt_trans h1 (h.1 x hxr)
    · by_cases h2 : p = a
      · subst h2
        simp only [h1, if_false, if_true]
        exact List.pairwise_cons.2 h
      · simp only [h1, h2, if_false]
        refine List.pairwise_cons.2 ⟨?_, ih h.2⟩
        intro x hx
        rcases (mem_set_emplace rest p x).1 hx with hxp | hxr
        · exact hxp ▸ pair_lt_of_not h1 h2
        · exact h.1 x hxr

theorem length_set_emplace (l : List (Nat × Nat)) (p : Nat × Nat)
    (h : p ∉ l) : (set_emplace l p).length = l.length + 1 := by
  induction l with
  | nil => simp [set_emplace]
  | cons a rest ih =>
    have hne : p ≠ a := fun heq => h (heq ▸ List.mem_cons_self _ _)
    have hrest : p ∉ rest := fun hm => h (List.mem_cons_of_mem _ hm)
    unfold set_emplace
    by_cases h1 : pair_lt p a
    · simp [h1]
    · simp [h1, hne, ih hrest]

theorem mem_set_erase (l : List (Nat × Nat)) (p x : Nat × Nat) :
    x ∈ set_erase l p ↔ x ∈ l ∧ x ≠ p := by
  simp [set_erase, List.mem_filter]

theorem set_erase_head (a : Nat × Nat) (rest : List (Nat × Nat))
    (h : (a :: rest).Pairwise pair_lt) : set_erase (a :: rest) a = rest := by
  have hnd := nodup_of_pair_ascending h
  rw [List.nodup_cons] at hnd
  unfold set_erase
  rw [List.filter_cons_of_neg (by simp)]
  apply List.filter_eq_self.2
  intro x hx
  have : x ≠ a := fun heq => hnd.1 (heq ▸ hx)
  simpa using this

theorem map_find_emplace (m : List (Nat × request_st)) (q : Nat)
    (r : request_st) (h : (map_emplace m q r).2 = true) (q' : Nat) :
    map_find (map_emplace m q r).1 q'
      = if q' = q then some r else map_find m q' := by
  induction m with
  | nil =>
    by_cases hq : q = q'
    · simp [map_emplace, map_find, hq]
    · have hq' : ¬ q' = q := fun e => hq e.symm
      simp [map_emplace, map_find, hq, hq']
  | cons e rest ih =>
    obtain ⟨k, v⟩ := e
    unfold map_emplace at h ⊢
    by_cases h1 : q < k
    · simp only [h1, if_true]
      by_cases hq : q = q'
      · simp [map_find, hq]
      · have hq' : ¬ q' = q := fun e => hq e.symm
        simp [map_find, hq, hq']
    · by_cases h2 : q = k
      · simp [h1, h2] at h
      · simp only [h1, h2, if_false] at h ⊢
        simp only [map_find, ih h]
        by_cases hk : k = q'
        · have hq' : ¬ q' = q := fun e => h2 (e ▸ hk.symm)
          simp [hk, hq']
        · simp [hk]

theorem map_emplace_inserted (m : List (Nat × request_st)) (q : Nat)
    (r : request_st) (h : map_find m q = none) :
    (map_emplace m q r).2 = true := by
  induction m with
  | nil => simp [map_emplace]
  | cons e rest ih =>
    obtain ⟨k, v⟩ := e
    unfold map_find at h
    by_cases hk : k = q
    · simp [hk] at h
    · simp only [hk, if_false] at h
      have hk' : ¬ q = k := fun e => hk e.symm
      unfold map_emplace
      by_cases h1 : q < k
      · simp [h1]
      · simp [h1, hk', ih h]

theorem map_find_none_of_inserted (m : List (Nat × request_st)) (q : Nat)
    (r : request_st) (hs : (m.map Prod.fst).Pairwise (· < ·))
    (h : (map_emplace m q r).2 = true) : map_find m q = none := by
  induction m with
  | nil => simp [map_find]
  | cons e rest ih =>
    obtain ⟨k, v⟩ := e
    simp only [List.map_cons, List.pairwise_cons] at hs
    unfold map_emplace at h
    by_cases h1 : q < k
    · apply (map_find_eq_none_iff _ _).2
      intro hmem
      rcases List.mem_cons.1 hmem with hq | hq
      · simp at hq; omega
      · have := hs.1 q hq
        omega
    · by_cases h2 : q = k
      · simp [h1, h2] at h
      · simp only [h1, h2, if_false] at h
        have hk : ¬ k = q := fun e => h2 e.symm
        simp only [map_find, hk, if_false]
        exact ih hs.2 h

theorem mem_keys_emplace (m : List (Nat × request_st)) (q : Nat)
    (r : request_st) (x : Nat) :
    x ∈ (map_emplace m q r).1.map Prod.fst → x = q ∨ x ∈ m.map Prod.fst := by
  induction m with
  | nil => simp [map_emplace]
  | cons e rest ih =>
    obtain ⟨k, v⟩ := e
    unfold map_emplace
    by_cases h1 : q < k
    · simp only [h1, if_true, List.map_cons, List.mem_cons]
      tauto
    · by_cases h2 : q = k
      · subst h2
        simp only [h1, if_false, if_true, List.map_cons, List.mem_cons]
        tauto
      · simp only [h1, h2, if_false, List.map_cons, List.mem_cons]
        intro hx
        rcases hx with hx | hx
        · exact Or.inr (Or.inl hx)
        · rcases ih hx with h | h
          · exact Or.inl h
          · exact Or.inr (Or.inr h)

theorem map_emplace_ascending (m : List (Nat × request_st)) (q : Nat)
    (r : request_st) (hs : (m.map Prod.fst).Pairwise (· < ·)) :
    ((map_emplace m q r).1.map Prod.fst).Pairwise (· < ·) := by
  induction m with
  | nil => simp [map_emplace]
  | cons e rest ih =>
    obtain ⟨k, v⟩ := e
    have hs' := hs
    simp only [List.map_cons, List.pairwise_cons] at hs'
    unfold map_emplace
    by_cases h1 : q < k
    · simp only [h1, if_true, List.map_cons]
      refine List.pairwise_cons.2 ⟨?_, hs⟩
      intro x hx
      rcases List.mem_cons.1 hx with hxk | hxr
      · omega
      · have := hs'.1 x hxr
        omega
    · by_cases h2 : q = k
      · subst h2
        simp only [h1, if_false, if_true]
        exact hs
      · simp only [h1, h2, if_false, List.map_cons]
        refine List.pairwise_cons.2 ⟨?_, ih hs'.2⟩
        intro x hx
        rcases mem_keys_emplace rest q r x hx with hxq | hxr
        · omega
        · exact hs'.1 x hxr

theorem map_find_erase (m : List (Nat × request_st)) (q q' : Nat) :
    map_find (map_erase m q).1 q'
      = if q' = q then none else map_find m q' := by
  unfold map_erase
  induction m with
  | nil => simp [map_find]
  | cons e rest ih =>
    obtain ⟨k, v⟩ := e
    simp only at ih
    by_cases hk : k = q
    · rw [List.filter_cons_of_neg (by simp [hk])]
      simp only [ih, map_find]
      by_cases hq : q' = q
      · simp [hq]
      · have : ¬ k = q' := fun e => hq (e ▸ hk)
        simp [hq, this]
    · rw [List.filter_cons_of_pos (by simp [hk])]
      simp only [map_find, ih]
      by_cases hkq : k = q'
      · have : ¬ q' = q := fun e => hk (hkq ▸ e)
        simp [hkq, this]
      · simp [hkq]

theorem map_erase_ascending (m : List (Nat × request_st)) (q : Nat)
    (hs : (m.map Prod.fst).Pairwise (· < ·)) :
    ((map_erase m q).1.map Prod.fst).Pairwise (· < ·) := by
  unfold map_erase
  rw [List.pairwise_map] at hs ⊢
  exact hs.filter _

theorem map_erase_count (m : List (Nat × request_st)) (q : Nat)
    (r : request_st) (hs : (m.map Prod.fst).Pairwise (· < ·))
    (h : map_find m q = some r) : (map_erase m q).2 = 1 := by
  unfold map_erase
  induction m with
  | nil => simp [map_find] at h
  | cons e rest ih =>
    obtain ⟨k, v⟩ := e
    simp only [List.map_cons, List.pairwise_cons] at hs
    simp only at ih ⊢
    by_cases hk : k = q
    · rw [List.filter_cons_of_pos (by simp [hk])]
      have hnil : rest.filter (fun e => decide (e.1 = q)) = [] := by
        apply List.filter_eq_nil_iff.2
        intro a ha
        have := hs.1 a.1 (List.mem_map_of_mem _ ha)
        simp
        omega
      simp [hnil]
    · rw [List.filter_cons_of_neg (by simp [hk])]
      simp only [map_find, hk, if_false] at h
      exact ih hs.2 h

/-! ## The operations, step by step -/

theorem update_gc_timer_frame (cfg : Config) (env : Env) (s s' : Requests)
    (h : Requests.update_gc_timer cfg env s = some s') :
    s'.requests = s.requests ∧ s'.expirations = s.expirations := by
  unfold Requests.update_gc_timer at h
  split at h
  · split_ifs at h <;> simp at h <;> subst h <;> exact ⟨rfl, rfl⟩
  · split_ifs at h <;> simp at h <;> subst h <;> exact ⟨rfl, rfl⟩

theorem update_gc_timer_total (cfg : Config) (env : Env) (s : Requests)
    (hrt : 0 < cfg.REQUEST_TIMEOUT) :
    ∃ s', Requests.update_gc_timer cfg env s = some s' := by
  unfold Requests.update_gc_timer
  split
  · split_ifs <;> exact ⟨_, rfl⟩
  · split_ifs <;> first | exact ⟨_, rfl⟩ | (exfalso; omega)

theorem update_gc_timer_armed (cfg : Config) (env : Env) (s s' : Requests)
    (hok : env.settime_ok = true)
    (h : Requests.update_gc_timer cfg env s = some s') :
    (s'.timer_state = .DISARMED ↔ s'.expirations = []) := by
  unfold Requests.update_gc_timer at h
  split at h
  next hexp =>
    split_ifs at h <;> simp at h <;> subst h <;> simp [*]
  next oldest rest hexp =>
    split_ifs at h <;> simp at h <;> subst h <;> simp [*]

theorem Put_some (cfg : Config) (env : Env) (q : Nat) (fd : Int)
    (client : Nat × Nat) (question : List Nat) (orig : Nat)
    (s s' : Requests)
    (h : Requests.Put cfg env q fd client question orig s = some s') :
    (map_emplace s.requests q
      ⟨fd, env.now + cfg.REQUEST_TIMEOUT * TICKS_PER_SECOND, client,
        question, orig⟩).2 = true ∧
    s'.requests = (map_emplace s.requests q
      ⟨fd, env.now + cfg.REQUEST_TIMEOUT * TICKS_PER_SECOND, client,
        question, orig⟩).1 ∧
    s'.expirations = (if cfg.REQUEST_TIMEOUT = 0 then s.expirations
      else set_emplace s.expirations
        (env.now + cfg.REQUEST_TIMEOUT * TICKS_PER_SECOND, q)) := by
  unfold Requests.Put at h
  simp only at h
  split_ifs at h with h1 h2 h3 h4 h5
  · simp at h
    subst h
    exact ⟨by simpa using h1, rfl, by simp [h2]⟩
  · have hf := update_gc_timer_frame _ _ _ _ h
    exact ⟨by simpa using h1, hf.1, by simp [h2, hf.2]⟩
  · simp at h
    subst h
    exact ⟨by simpa using h1, rfl, by simp [h2]⟩

theorem Done_some (cfg : Config) (env : Env) (q : Nat) (r : request_st)
    (s s' : Requests) (h : Requests.Done cfg env q r s = some s') :
    (map_erase s.requests q).2 = 1 ∧
    s'.requests = (map_erase s.requests q).1 ∧
    s'.expirations = (if cfg.REQUEST_TIMEOUT = 0 then s.expirations
      else set_erase s.expirations (r.expiration, q)) ∧
    (cfg.REQUEST_TIMEOUT ≠ 0 → (r.expiration, q) ∈ s.expirations) := by
  unfold Requests.Done at h
  simp only at h
  split_ifs at h with h1 h2 h3 h4 h5
  · have hf := update_gc_timer_frame _ _ _ _ h
    exact ⟨by simpa using h3, hf.1, by simp [h1, hf.2],
      fun _ => by simpa using h2⟩
  · simp at h
    subst h
    exact ⟨by simpa using h3, rfl, by simp [h1], fun _ => by simpa using h2⟩
  · simp at h
    subst h
    have h0 : cfg.REQUEST_TIMEOUT = 0 := by simpa using h1
    exact ⟨by simpa using h5, rfl, by simp [h0], fun hne => absurd h0 hne⟩

theorem mem_iff_map_find (m : List (Nat × request_st))
    (hs : (m.map Prod.fst).Pairwise (· < ·)) (e : Nat × request_st) :
    e ∈ m ↔ map_find m e.1 = some e.2 := by
  induction m with
  | nil => simp [map_find]
  | cons a rest ih =>
    obtain ⟨k, v⟩ := a
    simp only [List.map_cons, List.pairwise_cons] at hs
    by_cases hk : k = e.1
    · have hnot : e ∉ rest := by
        intro hmem
        have := hs.1 e.1 (List.mem_map_of_mem _ hmem)
        omega
      simp only [List.mem_cons, map_find, hk, if_true, hnot, or_false,
        Option.some.injEq]
      constructor
      · intro h
        rw [h]
      · intro h
        exact Prod.ext rfl h.symm
    · have hne : e ≠ (k, v) := fun h => hk (by rw [h])
      simp only [List.mem_cons, hne, false_or, map_find, hk, if_false]
      exact ih hs.2

theorem index_matches_remove (exps : List (Nat × Nat))
    (m : List (Nat × request_st)) (p : Nat × Nat)
    (hc : index_matches exps m) (hp : p ∈ exps) :
    index_matches (set_erase exps p) (map_erase m p.2).1 := by
  intro x
  rw [mem_set_erase, map_find_erase]
  constructor
  · rintro ⟨hx, hne⟩
    obtain ⟨r, hr, hre⟩ := (hc x).1 hx
    by_cases h2 : x.2 = p.2
    · exfalso
      obtain ⟨r', hr', hre'⟩ := (hc p).1 hp
      rw [h2, hr'] at hr
      have : r' = r := Option.some.inj hr
      subst this
      exact hne (Prod.ext (hre.symm.trans hre') h2)
    · exact ⟨r, by simp [h2, hr], hre⟩
  · rintro ⟨r, hr, hre⟩
    by_cases h2 : x.2 = p.2
    · simp [h2] at hr
    · simp only [h2, if_false] at hr
      exact ⟨(hc x).2 ⟨r, hr, hre⟩, fun h => h2 (by rw [h])⟩

theorem index_matches_insert (exps : List (Nat × Nat))
    (m : List (Nat × request_st)) (q : Nat) (r : request_st)
    (hc : index_matches exps m) (habs : map_find m q = none)
    (hins : (map_emplace m q r).2 = true) :
    index_matches (set_emplace exps (r.expiration, q))
      (map_emplace m q r).1 := by
  intro x
  rw [mem_set_emplace, map_find_emplace m q r hins]
  constructor
  · rintro (hx | hx)
    · subst hx
      exact ⟨r, by simp, rfl⟩
    · obtain ⟨r', hr', hre'⟩ := (hc x).1 hx
      have hne : ¬ x.2 = q := by
        intro h
        rw [h, habs] at hr'
        simp at hr'
      exact ⟨r', by simp [hne, hr'], hre'⟩
  · rintro ⟨r', hr', hre'⟩
    by_cases h2 : x.2 = q
    · simp only [h2, if_true, Option.some.injEq] at hr'
      subst hr'
      exact Or.inl (Prod.ext hre'.symm h2)
    · simp only [h2, if_false] at hr'
      exact Or.inr ((hc x).2 ⟨r', hr', hre'⟩)

theorem Gc_loop_spec (now : Nat) : ∀ (exps : List (Nat × Nat))
    (s : Requests) (calls : List (Nat × request_st)) (upd : Bool),
    exps.Pairwise pair_lt → s.keys.Pairwise (· < ·) →
    index_matches exps s.requests →
    ∃ s1 removed,
      Requests.Gc_loop now exps s calls upd
        = some (s1, calls ++ removed, upd || !removed.isEmpty) ∧
      s1.expirations = exps.filter (fun p => decide (¬ p.1 ≤ now)) ∧
      s1.requests
        = s.requests.filter (fun e => decide (¬ e.2.expiration ≤ now)) ∧
      removed.map (fun e => (e.2.expiration, e.1))
        = exps.filter (fun p => decide (p.1 ≤ now)) ∧
      (∀ e ∈ removed, e ∈ s.requests) ∧
      index_matches s1.expirations s1.requests ∧
      s1.timer_state = s.timer_state ∧ s1.timer_calls = s.timer_calls := by
  intro exps
  induction exps with
  | nil =>
    intro s calls upd _ hk hc
    refine ⟨{ s with expirations := [] }, [], by simp [Requests.Gc_loop],
      rfl, ?_, rfl, by simp, ?_, rfl, rfl⟩
    · symm
      apply List.filter_eq_self.2
      intro e he
      exfalso
      have := (hc (e.2.expiration, e.1)).2
        ⟨e.2, (mem_iff_map_find _ hk e).1 he, rfl⟩
      simp at this
    · exact hc
  | cons p rest ih =>
    intro s calls upd hs hk hc
    have hs' := List.pairwise_cons.1 hs
    by_cases hp : p.1 ≤ now
    · obtain ⟨o, ho, hoe⟩ := (hc p).1 (List.mem_cons_self _ _)
      have hc' : index_matches rest (map_erase s.requests p.2).1 := by
        have := index_matches_remove (p :: rest) s.requests p hc
          (List.mem_cons_self _ _)
        rwa [set_erase_head p rest hs] at this
      have hk' : (Requests.keys
          { s with requests := (map_erase s.requests p.2).1 }).Pairwise
          (· < ·) := map_erase_ascending _ _ hk
      obtain ⟨s1, removed, hloop, hexp, hreq, hrem, hmem, hcorr, hts, htc⟩ :=
        ih { s with requests := (map_erase s.requests p.2).1 }
          (calls ++ [(p.2, o)]) true hs'.2 hk' hc'
      have hin : (p.2, o) ∈ s.requests :=
        (mem_iff_map_find _ hk (p.2, o)).2 ho
      refine ⟨s1, (p.2, o) :: removed, ?_, ?_, ?_, ?_, ?_, hcorr, hts, htc⟩
      · simp [Requests.Gc_loop, hp, ho, hloop]
      · rw [hexp, List.filter_cons_of_neg (by simpa using hp)]
      · rw [hreq]
        simp only [map_erase, List.filter_filter]
        apply List.filter_congr
        intro e he
        by_cases hek : e.1 = p.2
        · have hfe := (mem_iff_map_find _ hk e).1 he
          rw [hek, ho] at hfe
          have : o = e.2 := Option.some.inj hfe
          have hle : e.2.expiration ≤ now := by
            rw [← this, hoe]
            exact hp
          simp [hek, hle]
        · simp [hek]
      · rw [List.filter_cons_of_pos (by simpa using hp)]
        simp only [List.map_cons, hrem, hoe]
      · intro e he
        rcases List.mem_cons.1 he with h | h
        · exact h ▸ hin
        · have := hmem e h
          exact (List.mem_filter.1 this).1
    · have hall : ∀ x ∈ p :: rest, ¬ x.1 ≤ now := by
        intro x hx
        rcases List.mem_cons.1 hx with h | h
        · exact h ▸ hp
        · have := hs'.1 x h
          unfold pair_lt at this
          omega
      have hfil : s.requests.filter
          (fun e => decide (¬ e.2.expiration ≤ now)) = s.requests := by
        apply List.filter_eq_self.2
        intro e he
        have hin := (hc (e.2.expiration, e.1)).2
          ⟨e.2, (mem_iff_map_find _ hk e).1 he, rfl⟩
        have := hall _ hin
        simpa using this
      have hfe : (p :: rest).filter (fun x => decide (¬ x.1 ≤ now))
          = p :: rest := by
        apply List.filter_eq_self.2
        intro x hx
        simpa using hall x hx
      have hfn : (p :: rest).filter (fun x => decide (x.1 ≤ now)) = [] := by
        apply List.filter_eq_nil_iff.2
        intro x hx
        simpa using hall x hx
      refine ⟨{ s with expirations := p :: rest }, [],
        by simp [Requests.Gc_loop, hp], hfe.symm, hfil.symm, by simp [hfn],
        by simp, hc, rfl, rfl⟩

theorem Gc_spec (cfg : Config) (env : Env) (s : Requests)
    (hrt : 0 < cfg.REQUEST_TIMEOUT)
    (hs : s.expirations.Pairwise pair_lt) (hk : s.keys.Pairwise (· < ·))
    (hc : Corresponds s) :
    ∃ s' calls, Requests.Gc cfg env s = some (s', calls) ∧
      s'.expirations
        = s.expirations.filter (fun p => decide (¬ p.1 ≤ env.now)) ∧
      s'.requests
        = s.requests.filter (fun e => decide (¬ e.2.expiration ≤ env.now)) ∧
      calls.map (fun e => (e.2.expiration, e.1))
        = s.expirations.filter (fun p => decide (p.1 ≤ env.now)) ∧
      (∀ e ∈ calls, e ∈ s.requests) ∧ Corresponds s' := by
  obtain ⟨s1, removed, hloop, hexp, hreq, hrem, hmem, hcorr, _, _⟩ :=
    Gc_loop_spec env.now s.expirations s [] false hs hk hc
  have hnot : ¬ ¬ cfg.REQUEST_TIMEOUT > 0 := not_not.2 hrt
  unfold Requests.Gc
  rw [if_neg hnot, hloop]
  simp only [List.nil_append, Bool.false_or]
  by_cases hr : removed.isEmpty = true
  · simp only [hr, Bool.not_true]
    exact ⟨s1, removed, by simp, hexp, hreq, hrem, hmem, hcorr⟩
  · simp only [hr, Bool.not_false, if_true]
    obtain ⟨s2, h2⟩ := update_gc_timer_total cfg env s1 hrt
    have hf := update_gc_timer_frame _ _ _ _ h2
    refine ⟨s2, removed, by simp [h2], by rw [hf.2, hexp], by rw [hf.1, hreq],
      hrem, hmem, ?_⟩
    unfold Corresponds
    rw [hf.1, hf.2]
    exact hcorr

theorem WF_Put (cfg : Config) (env : Env) (q : Nat) (fd : Int)
    (client : Nat × Nat) (question : List Nat) (orig : Nat)
    (s s' : Requests) (hq : q < 65536) (hwf : s.WF)
    (h : Requests.Put cfg env q fd client question orig s = some s') :
    s'.WF := by
  obtain ⟨_, hreq, hexp⟩ := Put_some _ _ _ _ _ _ _ _ _ h
  obtain ⟨h1, h2, h3, h4⟩ := hwf
  refine ⟨?_, ?_, ?_, ?_⟩
  · unfold Requests.keys
    rw [hreq]
    exact map_emplace_ascending _ _ _ h1
  · unfold Requests.keys
    rw [hreq]
    intro k hk
    rcases mem_keys_emplace _ _ _ _ hk with h | h
    · omega
    · exact h2 k h
  · rw [hexp]
    split_ifs
    · exact h3
    · exact set_emplace_ascending _ _ h3
  · rw [hexp]
    split_ifs
    · exact h4
    · intro p hp
      rcases (mem_set_emplace _ _ _).1 hp with h | h
      · rw [h]
        exact hq
      · exact h4 p h

theorem WF_Done (cfg : Config) (env : Env) (q : Nat) (r : request_st)
    (s s' : Requests) (hwf : s.WF)
    (h : Requests.Done cfg env q r s = some s') : s'.WF := by
  obtain ⟨_, hreq, hexp, _⟩ := Done_some _ _ _ _ _ _ h
  obtain ⟨h1, h2, h3, h4⟩ := hwf
  refine ⟨?_, ?_, ?_, ?_⟩
  · unfold Requests.keys
    rw [hreq]
    exact map_erase_ascending _ _ h1
  · unfold Requests.keys
    rw [hreq]
    intro k hk
    obtain ⟨e, he, hek⟩ := List.mem_map.1 hk
    exact h2 k (List.mem_map.2 ⟨e, (List.mem_filter.1 he).1, hek⟩)
  · rw [hexp]
    split_ifs
    · exact h3
    · exact h3.filter _
  · rw [hexp]
    split_ifs
    · exact h4
    · intro p hp
      exact h4 p ((mem_set_erase _ _ _).1 hp).1

theorem Corresponds_Put (cfg : Config) (env : Env) (q : Nat) (fd : Int)
    (client : Nat × Nat) (question : List Nat) (orig : Nat)
    (s s' : Requests) (hrt : 0 < cfg.REQUEST_TIMEOUT) (hwf : s.WF)
    (hc : Corresponds s)
    (h : Requests.Put cfg env q fd client question orig s = some s') :
    Corresponds s' := by
  obtain ⟨hins, hreq, hexp⟩ := Put_some _ _ _ _ _ _ _ _ _ h
  have hne : ¬ cfg.REQUEST_TIMEOUT = 0 := by omega
  rw [if_neg hne] at hexp
  unfold Corresponds
  rw [hreq, hexp]
  exact index_matches_insert s.expirations s.requests q _ hc
    (map_find_none_of_inserted _ _ _ hwf.1 hins) hins

theorem Corresponds_Done (cfg : Config) (env : Env) (q : Nat)
    (r : request_st) (s s' : Requests) (hrt : 0 < cfg.REQUEST_TIMEOUT)
    (hc : Corresponds s) (h : Requests.Done cfg env q r s = some s') :
    Corresponds s' := by
  obtain ⟨_, hreq, hexp, hmem⟩ := Done_some _ _ _ _ _ _ h
  have hne : ¬ cfg.REQUEST_TIMEOUT = 0 := by omega
  rw [if_neg hne] at hexp
  unfold Corresponds
  rw [hreq, hexp]
  exact index_matches_remove s.expirations s.requests (r.expiration, q) hc
    (hmem hne)

theorem Gc_positive_timeout (cfg : Config) (env : Env) (s : Requests)
    (out : Requests × List (Nat × request_st))
    (h : Requests.Gc cfg env s = some out) : 0 < cfg.REQUEST_TIMEOUT := by
  unfold Requests.Gc at h
  by_contra hrt
  rw [if_pos hrt] at h
  simp at h

theorem step_preserves (cfg : Config) (c : Call) (s s' : Requests)
    (hwf : s.WF) (hc : 0 < cfg.REQUEST_TIMEOUT → Corresponds s)
    (h : Requests.step cfg c s = some s') :
    s'.WF ∧ (0 < cfg.REQUEST_TIMEOUT → Corresponds s') := by
  cases c with
  | put env q fd client question orig =>
    simp only [Requests.step] at h
    split_ifs at h with hq
    exact ⟨WF_Put _ _ _ _ _ _ _ _ _ hq hwf h,
      fun hrt => Corresponds_Put _ _ _ _ _ _ _ _ _ hrt hwf (hc hrt) h⟩
  | done env q =>
    simp only [Requests.step] at h
    split at h
    · simp at h
    · exact ⟨WF_Done _ _ _ _ _ _ hwf h,
        fun hrt => Corresponds_Done _ _ _ _ _ _ hrt (hc hrt) h⟩
  | gc env =>
    simp only [Requests.step] at h
    split at h
    · simp at h
    next s1 calls hgc =>
      have hrt := Gc_positive_timeout _ _ _ _ hgc
      obtain ⟨s2, calls2, hgc2, hexp, hreq, _, _, hcorr⟩ :=
        Gc_spec cfg env s hrt hwf.2.2.1 hwf.1 (hc hrt)
      rw [hgc2] at hgc
      simp only [Option.some.injEq, Prod.mk.injEq] at hgc h
      obtain ⟨h1, _⟩ := hgc
      subst h1
      subst h
      refine ⟨⟨?_, ?_, ?_, ?_⟩, fun _ => hcorr⟩
      · unfold Requests.keys
        rw [hreq]
        have := hwf.1
        unfold Requests.keys at this
        rw [List.pairwise_map] at this ⊢
        exact this.filter _
      · unfold Requests.keys
        rw [hreq]
        intro k hk
        obtain ⟨e, he, hek⟩ := List.mem_map.1 hk
        exact hwf.2.1 k (List.mem_map.2 ⟨e, (List.mem_filter.1 he).1, hek⟩)
      · rw [hexp]
        exact hwf.2.2.1.filter _
      · rw [hexp]
        intro p hp
        exact hwf.2.2.2 p (List.mem_filter.1 hp).1

theorem run_preserves (cfg : Config) : ∀ (calls : List Call)
    (s s' : Requests), s.WF → (0 < cfg.REQUEST_TIMEOUT → Corresponds s) →
    Requests.run cfg calls s = some s' →
    s'.WF ∧ (0 < cfg.REQUEST_TIMEOUT → Corresponds s') := by
  intro calls
  induction calls with
  | nil =>
    intro s s' hwf hc h
    simp only [Requests.run, Option.some.injEq] at h
    subst h
    exact ⟨hwf, hc⟩
  | cons c cs ih =>
    intro s s' hwf hc h
    simp only [Requests.run] at h
    split at h
    · simp at h
    next s1 hstep =>
      obtain ⟨hwf1, hc1⟩ := step_preserves cfg c s s1 hwf hc hstep
      exact ih s1 s' hwf1 hc1 h

theorem init_WF : Requests.init.WF := by
  simp [Requests.WF, Requests.keys, Requests.init]

theorem init_Corresponds : Corresponds Requests.init := by
  intro p
  simp [Requests.init, map_find]

theorem index_length_eq (s : Requests) (hwf : s.WF) (hc : Corresponds s) :
    s.expirations.length = s.requests.length := by
  have hnd := nodup_of_pair_ascending hwf.2.2.1
  have hkd := nodup_of_ascending hwf.1
  have hinj : (s.expirations.map Prod.snd).Nodup := by
    apply List.Nodup.map_on _ hnd
    intro x hx y hy hxy
    obtain ⟨r, hr, hre⟩ := (hc x).1 hx
    obtain ⟨r', hr', hre'⟩ := (hc y).1 hy
    rw [hxy, hr'] at hr
    have : r' = r := Option.some.inj hr
    subst this
    exact Prod.ext (hre.symm.trans hre') hxy
  have hperm : (s.expirations.map Prod.snd).Perm s.keys := by
    apply (List.perm_ext_iff_of_nodup hinj hkd).2
    intro q
    constructor
    · intro hq
      obtain ⟨x, hx, hxq⟩ := List.mem_map.1 hq
      obtain ⟨r, hr, _⟩ := (hc x).1 hx
      by_contra hnot
      have := (map_find_eq_none_iff s.requests q).2 hnot
      rw [← hxq, hr] at this
      simp at this
    · intro hq
      have hne : map_find s.requests q ≠ none :=
        fun h => (map_find_eq_none_iff s.requests q).1 h hq
      obtain ⟨r, hr⟩ := Option.ne_none_iff_exists'.1 hne
      exact List.mem_map.2 ⟨(r.expiration, q), (hc _).2 ⟨r, hr, rfl⟩, rfl⟩
  have := hperm.length_eq
  simpa [Requests.keys] using this

/-! ## Claims on the expiration index and the timer -/

/-- C5: with `REQUEST_TIMEOUT > 0`, in every table state reached from the
empty table by calls of `Put`, `Done` (of the request `Find` returns) and
`Gc`, the expiration index and the primary mapping are in one-to-one
correspondence: for every key `q` with record `r` the index holds the pair
`(r.expiration, q)`, every pair of the index is of this form, and neither
holds an element twice, so that both have the same size. -/
theorem C5_index_corresponds_to_mapping (cfg : Config)
    (calls : List Call) (s : Requests) (hrt : 0 < cfg.REQUEST_TIMEOUT)
    (h : Requests.run cfg calls Requests.init = some s) :
    (∀ q r, Requests.Find s q = some r → (r.expiration, q) ∈ s.expirations) ∧
    (∀ p ∈ s.expirations,
      ∃ r, Requests.Find s p.2 = some r ∧ r.expiration = p.1) ∧
    s.expirations.Nodup ∧ s.keys.Nodup ∧
    s.expirations.length = s.requests.length := by
  obtain ⟨hwf, hc⟩ := run_preserves cfg calls Requests.init s init_WF
    (fun _ => init_Corresponds) h
  have hc := hc hrt
  refine ⟨?_, ?_, nodup_of_pair_ascending hwf.2.2.1,
    nodup_of_ascending hwf.1, index_length_eq s hwf hc⟩
  · intro q r hf
    exact (hc (r.expiration, q)).2 ⟨r, hf, rfl⟩
  · intro p hp
    exact (hc p).1 hp

theorem C5_index_corresponds_to_mapping_witness :
    (∀ q r, Requests.Find table_9 q = some r →
      (r.expiration, q) ∈ table_9.expirations) ∧
    (∀ p ∈ table_9.expirations,
      ∃ r, Requests.Find table_9 p.2 = some r ∧ r.expiration = p.1) ∧
    table_9.expirations.Nodup ∧ table_9.keys.Nodup ∧
    table_9.expirations.length = table_9.requests.length :=
  C5_index_corresponds_to_mapping example_config example_calls_gc table_9
    (by decide) (by decide)

theorem Gc_loop_exit (now : Nat) : ∀ (exps : List (Nat × Nat))
    (s : Requests) (calls : List (Nat × request_st)) (upd : Bool)
    (s1 : Requests) (calls1 : List (Nat × request_st)) (upd1 : Bool),
    Requests.Gc_loop now exps s calls upd = some (s1, calls1, upd1) →
    s1.timer_state = s.timer_state ∧ s1.timer_calls = s.timer_calls ∧
    (∀ p ∈ s1.expirations.head?, ¬ p.1 ≤ now) ∧
    (upd1 = true ∨
      (s1 = { s with expirations := exps } ∧ calls1 = calls ∧ upd1 = upd)) := by
  intro exps
  induction exps with
  | nil =>
    intro s calls upd s1 calls1 upd1 h
    simp only [Requests.Gc_loop, Option.some.injEq, Prod.mk.injEq] at h
    obtain ⟨h1, h2, h3⟩ := h
    subst h1 h2 h3
    exact ⟨rfl, rfl, by simp, Or.inr ⟨rfl, rfl, rfl⟩⟩
  | cons p rest ih =>
    intro s calls upd s1 calls1 upd1 h
    unfold Requests.Gc_loop at h
    by_cases hp : p.1 ≤ now
    · rw [if_pos hp] at h
      split at h
      · simp at h
      next o ho =>
        obtain ⟨h1, h2, h3, h4⟩ := ih _ _ _ _ _ _ h
        refine ⟨h1, h2, h3, Or.inl ?_⟩
        rcases h4 with h4 | ⟨_, _, h4⟩
        · exact h4
        · exact h4
    · rw [if_neg hp] at h
      simp only [Option.some.injEq, Prod.mk.injEq] at h
      obtain ⟨h1, h2, h3⟩ := h
      subst h1 h2 h3
      exact ⟨rfl, rfl, by simpa using hp, Or.inr ⟨rfl, rfl, rfl⟩⟩

theorem armed_Put (cfg : Config) (env : Env) (q : Nat) (fd : Int)
    (client : Nat × Nat) (question : List Nat) (orig : Nat)
    (s s' : Requests) (hok : env.settime_ok = true)
    (hinv : s.timer_state = .DISARMED ↔ s.expirations = [])
    (h : Requests.Put cfg env q fd client question orig s = some s') :
    (s'.timer_state = .DISARMED ↔ s'.expirations = []) := by
  unfold Requests.Put at h
  simp only at h
  split_ifs at h with h1 h2 h3 h4 h5
  · simp at h
    subst h
    exact hinv
  · exact update_gc_timer_armed _ _ _ _ hok h
  · simp at h
    subst h
    simp only
    have hne : s.expirations ≠ [] := fun e => h5 (by simp [e])
    have hne' : set_emplace s.expirations
        (env.now + cfg.REQUEST_TIMEOUT * TICKS_PER_SECOND, q) ≠ [] := by
      intro e
      rw [e] at h3
      simp at h3
    constructor
    · intro hd
      exact absurd (hinv.1 hd) hne
    · intro he
      exact absurd he hne'

theorem armed_Done (cfg : Config) (env : Env) (q : Nat) (r : request_st)
    (s s' : Requests) (hok : env.settime_ok = true)
    (hinv : s.timer_state = .DISARMED ↔ s.expirations = [])
    (h : Requests.Done cfg env q r s = some s') :
    (s'.timer_state = .DISARMED ↔ s'.expirations = []) := by
  unfold Requests.Done at h
  simp only at h
  split_ifs at h with h1 h2 h3 h4 h5
  · exact update_gc_timer_armed _ _ _ _ hok h
  · simp at h
    subst h
    simp only
    have hmem : (r.expiration, q) ∈ s.expirations := by simpa using h2
    have hne : s.expirations ≠ [] := List.ne_nil_of_mem hmem
    have hne' : set_erase s.expirations (r.expiration, q) ≠ [] := by
      cases hexp : s.expirations with
      | nil => exact absurd hexp hne
      | cons a rest =>
        have ha : a ≠ (r.expiration, q) := by
          intro e
          apply h4
          simp [hexp, e]
        have : a ∈ set_erase (a :: rest) (r.expiration, q) :=
          (mem_set_erase _ _ _).2 ⟨List.mem_cons_self _ _, ha⟩
        exact List.ne_nil_of_mem this
    constructor
    · intro hd
      exact absurd (hinv.1 hd) hne
    · intro he
      exact absurd he hne'
  · simp at h
    subst h
    exact hinv

theorem armed_Gc (cfg : Config) (env : Env) (s s' : Requests)
    (calls : List (Nat × request_st)) (hok : env.settime_ok = true)
    (hinv : s.timer_state = .DISARMED ↔ s.expirations = [])
    (h : Requests.Gc cfg env s = some (s', calls)) :
    (s'.timer_state = .DISARMED ↔ s'.expirations = []) := by
  unfold Requests.Gc at h
  split_ifs at h with h1
  split at h
  · simp at h
  next s1 calls1 upd hloop =>
    obtain ⟨_, _, _, h4⟩ := Gc_loop_exit _ _ _ _ _ _ _ _ hloop
    by_cases hu : upd = true
    · rw [if_pos hu] at h
      split at h
      · simp at h
      next s2 h2 =>
        simp only [Option.some.injEq, Prod.mk.injEq] at h
        rw [← h.1]
        exact update_gc_timer_armed _ _ _ _ hok h2
    · rw [if_neg hu] at h
      simp only [Option.some.injEq, Prod.mk.injEq] at h
      rcases h4 with h4 | ⟨h4, _, _⟩
      · exact absurd h4 hu
      · rw [← h.1, h4]
        exact hinv

theorem armed_run (cfg : Config) : ∀ (calls : List Call) (s s' : Requests),
    (∀ c ∈ calls, c.env.settime_ok = true) →
    (s.timer_state = .DISARMED ↔ s.expirations = []) →
    Requests.run cfg calls s = some s' →
    (s'.timer_state = .DISARMED ↔ s'.expirations = []) := by
  intro calls
  induction calls with
  | nil =>
    intro s s' _ hinv h
    simp only [Requests.run, Option.some.injEq] at h
    subst h
    exact hinv
  | cons c cs ih =>
    intro s s' hok hinv h
    simp only [Requests.run] at h
    split at h
    · simp at h
    next s1 hstep =>
      have hc := hok c (List.mem_cons_self _ _)
      refine ih s1 s' (fun c' hc' => hok c' (List.mem_cons_of_mem _ hc')) ?_ h
      cases c with
      | put env q fd client question orig =>
        simp only [Requests.step] at hstep
        split_ifs at hstep
        exact armed_Put _ _ _ _ _ _ _ _ _ hc hinv hstep
      | done env q =>
        simp only [Requests.step] at hstep
        split at hstep
        · simp at hstep
        · exact armed_Done _ _ _ _ _ _ hc hinv hstep
      | gc env =>
        simp only [Requests.step] at hstep
        split at hstep
        · simp at hstep
        next s2 calls2 hgc =>
          simp only [Option.some.injEq] at hstep
          subst hstep
          exact armed_Gc _ _ _ _ _ hc hinv hgc

/-- C6: when every `timerfd_settime` call succeeds, in every table state
reached from the initial state by calls of `Put`, `Done` and `Gc` the timer
state is `DISARMED` if and only if the expiration index is empty; so with a
non-empty index the timer is armed, `PERIODIC` or `EXACT`. -/
theorem C6_disarmed_iff_index_empty (cfg : Config) (calls : List Call)
    (s : Requests) (hok : ∀ c ∈ calls, c.env.settime_ok = true)
    (h : Requests.run cfg calls Requests.init = some s) :
    (s.timer_state = .DISARMED ↔ s.expirations = []) ∧
    (s.expirations ≠ [] →
      s.timer_state = .PERIODIC ∨ s.timer_state = .EXACT) := by
  have hiff := armed_run cfg calls Requests.init s hok
    (by simp [Requests.init]) h
  refine ⟨hiff, ?_⟩
  intro hne
  cases hts : s.timer_state with
  | DISARMED => exact absurd (hiff.1 hts) hne
  | PERIODIC => exact Or.inl rfl
  | EXACT => exact Or.inr rfl

theorem C6_disarmed_iff_index_empty_witness :
    (table_9.timer_state = .DISARMED ↔ table_9.expirations = []) ∧
    (table_9.expirations ≠ [] →
      table_9.timer_state = .PERIODIC ∨ table_9.timer_state = .EXACT) :=
  C6_disarmed_iff_index_empty example_config example_calls_gc table_9
    (by decide) (by decide)

/-! ## Claims on `Done` and `Gc` -/

theorem Done_total (cfg : Config) (env : Env) (q : Nat) (r : request_st)
    (s : Requests) (hfind : Requests.Find s q = some r) (hwf : s.WF)
    (hc : cfg.REQUEST_TIMEOUT ≠ 0 → Corresponds s) :
    ∃ s', Requests.Done cfg env q r s = some s' := by
  have hcount : (map_erase s.requests q).2 = 1 :=
    map_erase_count s.requests q r hwf.1 hfind
  unfold Requests.Done
  simp only
  by_cases hrt : cfg.REQUEST_TIMEOUT ≠ 0
  · have hmem : (r.expiration, q) ∈ s.expirations :=
      (hc hrt (r.expiration, q)).2 ⟨r, hfind, rfl⟩
    rw [if_pos hrt, if_neg (not_not.2 hmem), if_neg (not_not.2 hcount)]
    split_ifs
    · exact update_gc_timer_total cfg env _ (by omega)
    · exact ⟨_, rfl⟩
  · rw [if_neg hrt, if_neg (not_not.2 hcount)]
    exact ⟨_, rfl⟩

/-- C7: for every table state and every ID `q` for which `Find` returns the
record `r`, after `Done(q, r)` the lookup `Find(q)` returns nothing and
`Find(p)` returns for every other ID `p` what it returned before; and `Done`
does complete (no assertion fails) on every well-formed table whose index
corresponds to the mapping when `REQUEST_TIMEOUT` is non-zero. -/
theorem C7_Done_removes_only_its_request (cfg : Config) (env : Env)
    (s : Requests) (q : Nat) (r : request_st)
    (hfind : Requests.Find s q = some r) :
    (∀ s', Requests.Done cfg env q r s = some s' →
      Requests.Find s' q = none ∧
      ∀ p, p ≠ q → Requests.Find s' p = Requests.Find s p) ∧
    (s.WF → (cfg.REQUEST_TIMEOUT ≠ 0 → Corresponds s) →
      ∃ s', Requests.Done cfg env q r s = some s') := by
  refine ⟨?_, fun hwf hc => Done_total cfg env q r s hfind hwf hc⟩
  intro s' h
  obtain ⟨_, hreq, _, _⟩ := Done_some _ _ _ _ _ _ h
  unfold Requests.Find
  rw [hreq]
  refine ⟨by rw [map_find_erase]; simp, ?_⟩
  intro p hp
  rw [map_find_erase]
  simp [hp]

theorem table_3_7_Corresponds : Corresponds table_3_7 := by
  have h := run_preserves example_config example_calls Requests.init
    table_3_7 init_WF (fun _ => init_Corresponds) (by decide)
  exact h.2 (by decide)

theorem C7_Done_removes_only_its_request_witness :
    Requests.Done example_config (example_env 30) 3
      (example_request 15000000000) table_3_7 = some table_7_done ∧
    (Requests.Find table_7_done 3 = none ∧
      ∀ p, p ≠ 3 →
        Requests.Find table_7_done p = Requests.Find table_3_7 p) ∧
    (∃ s', Requests.Done example_config (example_env 30) 3
      (example_request 15000000000) table_3_7 = some s') :=
  ⟨by decide,
   (C7_Done_removes_only_its_request example_config (example_env 30)
     table_3_7 3 (example_request 15000000000) (by decide)).1 table_7_done
     (by decide),
   (C7_Done_removes_only_its_request example_config (example_env 30)
     table_3_7 3 (example_request 15000000000) (by decide)).2 table_3_7_WF
     (fun _ => table_3_7_Corresponds)⟩

/-- C8: on every well-formed table whose index corresponds to the mapping,
and at every clock reading `now`, `Gc` completes exactly when its entry
assertion `REQUEST_TIMEOUT > 0` holds, and then it has removed exactly the
requests whose expiration is at most `now`, from the mapping and from the
index, has kept every request whose expiration is greater than `now` as it
was, and has invoked the callback once for each removed request and for no
other, in ascending order of (expiration, ID). -/
theorem C8_Gc_removes_exactly_expired (cfg : Config) (env : Env)
    (s : Requests) (hwf : s.WF) (hc : Corresponds s) :
    (Requests.Gc cfg env s ≠ none ↔ 0 < cfg.REQUEST_TIMEOUT) ∧
    ∀ s' calls, Requests.Gc cfg env s = some (s', calls) →
      s'.requests
        = s.requests.filter (fun e => decide (env.now < e.2.expiration)) ∧
      s'.expirations
        = s.expirations.filter (fun p => decide (env.now < p.1)) ∧
      calls.Perm
        (s.requests.filter (fun e => decide (e.2.expiration ≤ env.now))) ∧
      calls.Pairwise
        (fun a b => pair_lt (a.2.expiration, a.1) (b.2.expiration, b.1)) ∧
      calls.map (fun e => (e.2.expiration, e.1))
        = s.expirations.filter (fun p => decide (p.1 ≤ env.now)) := by
  constructor
  · constructor
    · intro hne
      obtain ⟨out, hout⟩ := Option.ne_none_iff_exists'.1 hne
      exact Gc_positive_timeout cfg env s out hout
    · intro hrt
      obtain ⟨s', calls, hgc, _⟩ := Gc_spec cfg env s hrt hwf.2.2.1 hwf.1 hc
      rw [hgc]
      simp
  · intro s' calls h
    have hrt := Gc_positive_timeout cfg env s _ h
    obtain ⟨s2, calls2, hgc, hexp, hreq, hmap, hmem, _⟩ :=
      Gc_spec cfg env s hrt hwf.2.2.1 hwf.1 hc
    rw [hgc] at h
    simp only [Option.some.injEq, Prod.mk.injEq] at h
    obtain ⟨h1, h2⟩ := h
    subst h1 h2
    have hsorted : (calls2.map (fun e => (e.2.expiration, e.1))).Pairwise
        pair_lt := by
      rw [hmap]
      exact hwf.2.2.1.filter _
    have hreqnd : s.requests.Nodup :=
      List.Nodup.of_map Prod.fst (nodup_of_ascending hwf.1)
    refine ⟨?_, ?_, ?_, List.pairwise_map.1 hsorted, hmap⟩
    · rw [hreq]
      apply List.filter_congr
      intro e _
      simp
    · rw [hexp]
      apply List.filter_congr
      intro e _
      simp
    · apply (List.perm_ext_iff_of_nodup
        (List.Nodup.of_map _ (nodup_of_pair_ascending hsorted))
        (hreqnd.filter _)).2
      intro e
      rw [List.mem_filter]
      constructor
      · intro he
        refine ⟨hmem e he, ?_⟩
        have : (e.2.expiration, e.1)
            ∈ calls2.map (fun e => (e.2.expiration, e.1)) :=
          List.mem_map.2 ⟨e, he, rfl⟩
        rw [hmap] at this
        exact (List.mem_filter.1 this).2
      · rintro ⟨he, hexpired⟩
        have hfe := (mem_iff_map_find _ hwf.1 e).1 he
        have hin : (e.2.expiration, e.1) ∈ s.expirations :=
          (hc _).2 ⟨e.2, hfe, rfl⟩
        have hin2 : (e.2.expiration, e.1)
            ∈ calls2.map (fun e => (e.2.expiration, e.1)) := by
          rw [hmap]
          exact List.mem_filter.2 ⟨hin, hexpired⟩
        obtain ⟨e', he', heq⟩ := List.mem_map.1 hin2
        have hk : e'.1 = e.1 := congrArg Prod.snd heq
        have hfe' := (mem_iff_map_find _ hwf.1 e').1 (hmem e' he')
        rw [hk, hfe] at hfe'
        have : e' = e := Prod.ext hk (Option.some.inj hfe').symm
        exact this ▸ he'

theorem C8_Gc_removes_exactly_expired_witness :
    Requests.Gc example_config (example_env 15000000005) table_3_7
      = some (table_7_swept, [(3, example_request 15000000000)]) ∧
    (Requests.Gc example_config (example_env 15000000005) table_3_7 ≠ none
      ↔ 0 < example_config.REQUEST_TIMEOUT) ∧
    (table_7_swept.requests = table_3_7.requests.filter
        (fun e => decide ((example_env 15000000005).now < e.2.expiration)) ∧
      table_7_swept.expirations = table_3_7.expirations.filter
        (fun p => decide ((example_env 15000000005).now < p.1)) ∧
      [(3, example_request 15000000000)].Perm
        (table_3_7.requests.filter (fun e =>
          decide (e.2.expiration ≤ (example_env 15000000005).now))) ∧
      [(3, example_request 15000000000)].Pairwise
        (fun a b => pair_lt (a.2.expiration, a.1) (b.2.expiration, b.1)) ∧
      [(3, example_request 15000000000)].map
          (fun e => (e.2.expiration, e.1))
        = table_3_7.expirations.filter
          (fun p => decide (p.1 ≤ (example_env 15000000005).now))) :=
  ⟨by decide,
   (C8_Gc_removes_exactly_expired example_config (example_env 15000000005)
     table_3_7 table_3_7_WF table_3_7_Corresponds).1,
   (C8_Gc_removes_exactly_expired example_config (example_env 15000000005)
     table_3_7 table_3_7_WF table_3_7_Corresponds).2 table_7_swept
     [(3, example_request 15000000000)] (by decide)⟩

theorem Gc_loop_noop (now : Nat) (exps : List (Nat × Nat)) (s : Requests)
    (calls : List (Nat × request_st)) (upd : Bool)
    (h : ∀ p ∈ exps.head?, ¬ p.1 ≤ now) :
    Requests.Gc_loop now exps s calls upd
      = some ({ s with expirations := exps }, calls, upd) := by
  cases exps with
  | nil => rfl
  | cons p rest =>
    have hp : ¬ p.1 ≤ now := h p (by simp)
    simp [Requests.Gc_loop, hp]

theorem Gc_exit (cfg : Config) (env : Env) (s s1 : Requests)
    (calls1 : List (Nat × request_st))
    (h : Requests.Gc cfg env s = some (s1, calls1)) :
    ∀ p ∈ s1.expirations.head?, ¬ p.1 ≤ env.now := by
  unfold Requests.Gc at h
  split_ifs at h with h1
  split at h
  · simp at h
  next sl callsl upd hloop =>
    obtain ⟨_, _, h3, _⟩ := Gc_loop_exit _ _ _ _ _ _ _ _ hloop
    by_cases hu : upd = true
    · rw [if_pos hu] at h
      split at h
      · simp at h
      next s2 h2 =>
        simp only [Option.some.injEq, Prod.mk.injEq] at h
        rw [← h.1, (update_gc_timer_frame _ _ _ _ h2).2]
        exact h3
    · rw [if_neg hu] at h
      simp only [Option.some.injEq, Prod.mk.injEq] at h
      rw [← h.1]
      exact h3

/-- C9: with the clock reading held fixed `Gc` is idempotent: after a run of
`Gc` that returned, a second run at the same `now` invokes the callback zero
times and returns the very state the first run left (mapping, expiration
index, timer state and the timer calls issued); and the first run does return
on every well-formed table whose index corresponds to the mapping, when
`REQUEST_TIMEOUT > 0`. -/
theorem C9_Gc_idempotent (cfg : Config) (env env2 : Env) (s : Requests)
    (hnow : env2.now = env.now) :
    (∀ s1 calls1, Requests.Gc cfg env s = some (s1, calls1) →
      Requests.Gc cfg env2 s1 = some (s1, [])) ∧
    (s.WF → Corresponds s → 0 < cfg.REQUEST_TIMEOUT →
      ∃ s1 calls1, Requests.Gc cfg env s = some (s1, calls1)) := by
  constructor
  · intro s1 calls1 h
    have hrt := Gc_positive_timeout cfg env s _ h
    have hexit := Gc_exit cfg env s s1 calls1 h
    rw [← hnow] at hexit
    unfold Requests.Gc
    rw [if_neg (not_not.2 hrt),
      Gc_loop_noop env2.now s1.expirations s1 [] false hexit]
    simp
  · intro hwf hc hrt
    obtain ⟨s', calls, hgc, _⟩ := Gc_spec cfg env s hrt hwf.2.2.1 hwf.1 hc
    exact ⟨s', calls, hgc⟩

theorem C9_Gc_idempotent_witness :
    Requests.Gc example_config (example_env 15000000005) table_3_7
      = some (table_7_swept, [(3, example_request 15000000000)]) ∧
    Requests.Gc example_config example_env_again table_7_swept
      = some (table_7_swept, []) ∧
    (∃ s1 calls1,
      Requests.Gc example_config (example_env 15000000005) table_3_7
        = some (s1, calls1)) :=
  ⟨by decide,
   (C9_Gc_idempotent example_config (example_env 15000000005)
     example_env_again table_3_7 rfl).1 table_7_swept
     [(3, example_request 15000000000)] (by decide),
   (C9_Gc_idempotent example_config (example_env 15000000005)
     example_env_again table_3_7 rfl).2 table_3_7_WF table_3_7_Corresponds
     (by decide)⟩

/-! ## Claim on `REQUEST_TIMEOUT = 0` -/

theorem unused_index_step (cfg : Config) (c : Call) (s s' : Requests)
    (h0 : cfg.REQUEST_TIMEOUT = 0)
    (hinv : s.expirations = [] ∧ s.timer_calls = []
      ∧ s.timer_state = .DISARMED)
    (h : Requests.step cfg c s = some s') :
    s'.expirations = [] ∧ s'.timer_calls = []
      ∧ s'.timer_state = .DISARMED := by
  cases c with
  | put env q fd client question orig =>
    simp only [Requests.step, Requests.Put, h0] at h
    split_ifs at h
    simp only [Option.some.injEq] at h
    subst h
    exact hinv
  | done env q =>
    simp only [Requests.step, Requests.Done, h0] at h
    split at h
    · simp at h
    · split_ifs at h with h1 h2 h3 h4 h5
      · exact absurd rfl h1
      · exact absurd rfl h1
      · simp only [Option.some.injEq] at h
        subst h
        exact hinv
  | gc env =>
    simp only [Requests.step] at h
    split at h
    · simp at h
    next s1 calls hgc =>
      have := Gc_positive_timeout _ _ _ _ hgc
      omega

theorem unused_index_run (cfg : Config) (h0 : cfg.REQUEST_TIMEOUT = 0) :
    ∀ (calls : List Call) (s s' : Requests),
    (s.expirations = [] ∧ s.timer_calls = []
      ∧ s.timer_state = .DISARMED) →
    Requests.run cfg calls s = some s' →
    s'.expirations = [] ∧ s'.timer_calls = []
      ∧ s'.timer_state = .DISARMED := by
  intro calls
  induction calls with
  | nil =>
    intro s s' hinv h
    simp only [Requests.run, Option.some.injEq] at h
    subst h
    exact hinv
  | cons c cs ih =>
    intro s s' hinv h
    simp only [Requests.run] at h
    split at h
    · simp at h
    next s1 hstep =>
      exact ih s1 s' (unused_index_step cfg c s s1 h0 hinv hstep) h

/-- C10: with `REQUEST_TIMEOUT = 0`, after every sequence of calls from the
initial state the expiration index is empty, no `timerfd_settime` call has
been issued and the timer state is `DISARMED`; and each further call still
updates the primary mapping: `Put` of an absent ID completes and makes `Find`
return the new record, `Done` of a present ID completes and makes `Find`
return nothing, both leaving the other IDs, the index and the timer as they
were. -/
theorem C10_no_timeout_leaves_index_unused (cfg : Config)
    (calls : List Call) (s : Requests) (h0 : cfg.REQUEST_TIMEOUT = 0)
    (h : Requests.run cfg calls Requests.init = some s) :
    (s.expirations = [] ∧ s.timer_calls = []
      ∧ s.timer_state = .DISARMED) ∧
    (∀ env q fd client question orig, q < 65536 →
      Requests.Find s q = none →
      ∃ s', Requests.Put cfg env q fd client question orig s = some s' ∧
        Requests.Find s' q = some ⟨fd, env.now, client, question, orig⟩ ∧
        (∀ p, p ≠ q → Requests.Find s' p = Requests.Find s p) ∧
        s'.expirations = [] ∧ s'.timer_calls = []
          ∧ s'.timer_state = .DISARMED) ∧
    (∀ env q r, Requests.Find s q = some r →
      ∃ s', Requests.Done cfg env q r s = some s' ∧
        Requests.Find s' q = none ∧
        (∀ p, p ≠ q → Requests.Find s' p = Requests.Find s p) ∧
        s'.expirations = [] ∧ s'.timer_calls = []
          ∧ s'.timer_state = .DISARMED) := by
  have hinv := unused_index_run cfg h0 calls Requests.init s
    ⟨rfl, rfl, rfl⟩ h
  have hwf := (run_preserves cfg calls Requests.init s init_WF
    (fun _ => init_Corresponds) h).1
  refine ⟨hinv, ?_, ?_⟩
  · intro env q fd client question orig hq hfind
    have hins := map_emplace_inserted s.requests q
      ⟨fd, env.now, client, question, orig⟩ hfind
    refine ⟨{ s with requests := (map_emplace s.requests q
      ⟨fd, env.now, client, question, orig⟩).1 }, ?_, ?_, ?_, hinv⟩
    · simp [Requests.Put, h0, hins]
    · simp [Requests.Find, map_find_emplace _ _ _ hins]
    · intro p hp
      simp [Requests.Find, map_find_emplace _ _ _ hins, hp]
  · intro env q r hfind
    have hcount : (map_erase s.requests q).2 = 1 :=
      map_erase_count s.requests q r hwf.1 hfind
    refine ⟨{ s with requests := (map_erase s.requests q).1 }, ?_, ?_, ?_,
      hinv⟩
    · simp [Requests.Done, h0, hcount]
    · simp [Requests.Find, map_find_erase]
    · intro p hp
      simp [Requests.Find, map_find_erase, hp]

theorem C10_no_timeout_leaves_index_unused_witness :
    (table_7_no_timeout.expirations = []
      ∧ table_7_no_timeout.timer_calls = []
      ∧ table_7_no_timeout.timer_state = .DISARMED) ∧
    (∀ env q fd client question orig, q < 65536 →
      Requests.Find table_7_no_timeout q = none →
      ∃ s', Requests.Put example_config_no_timeout env q fd client question
          orig table_7_no_timeout = some s' ∧
        Requests.Find s' q = some ⟨fd, env.now, client, question, orig⟩ ∧
        (∀ p, p ≠ q →
          Requests.Find s' p = Requests.Find table_7_no_timeout p) ∧
        s'.expirations = [] ∧ s'.timer_calls = []
          ∧ s'.timer_state = .DISARMED) ∧
    (∀ env q r, Requests.Find table_7_no_timeout q = some r →
      ∃ s', Requests.Done example_config_no_timeout env q r
          table_7_no_timeout = some s' ∧
        Requests.Find s' q = none ∧
        (∀ p, p ≠ q →
          Requests.Find s' p = Requests.Find table_7_no_timeout p) ∧
        s'.expirations = [] ∧ s'.timer_calls = []
          ∧ s'.timer_state = .DISARMED) :=
  C10_no_timeout_leaves_index_unused example_config_no_timeout
    example_calls_no_timeout table_7_no_timeout (by decide) (by decide)

/-! ## Claims on the timer policy -/

/-- C11: when `update_gc_timer` runs with a non-empty expiration index whose
first element is `oldest`, and `timerfd_settime` succeeds, it completes
exactly when the assertion `REQUEST_TIMEOUT > 0` holds, and then the timer
state is `PERIODIC` if `MIN_GC_TIME > 0` and `oldest < now + MIN_GC_TIME`,
and `EXACT` otherwise; when the state is already `PERIODIC` and `PERIODIC` is
selected again no `timerfd_settime` call is made (the object is unchanged),
otherwise exactly one call is made, periodic with `MIN_GC_TIME` seconds or
absolute at `oldest`; and in a well-formed index `oldest` is the minimum
expiration. -/
theorem C11_timer_policy (cfg : Config) (env : Env) (s : Requests)
    (oldest : Nat × Nat) (rest : List (Nat × Nat))
    (hexp : s.expirations = oldest :: rest)
    (hok : env.settime_ok = true) :
    (Requests.update_gc_timer cfg env s ≠ none ↔ 0 < cfg.REQUEST_TIMEOUT) ∧
    (∀ s', Requests.update_gc_timer cfg env s = some s' →
      (s'.timer_state =
        if cfg.MIN_GC_TIME > 0
          ∧ oldest.1 < env.timer_now + cfg.MIN_GC_TIME * TICKS_PER_SECOND
        then .PERIODIC else .EXACT) ∧
      (cfg.MIN_GC_TIME > 0
          ∧ oldest.1 < env.timer_now + cfg.MIN_GC_TIME * TICKS_PER_SECOND →
        s.timer_state = .PERIODIC → s' = s) ∧
      (cfg.MIN_GC_TIME > 0
          ∧ oldest.1 < env.timer_now + cfg.MIN_GC_TIME * TICKS_PER_SECOND →
        s.timer_state ≠ .PERIODIC →
        s'.timer_calls = s.timer_calls ++ [.periodic cfg.MIN_GC_TIME]) ∧
      (¬ (cfg.MIN_GC_TIME > 0
          ∧ oldest.1 < env.timer_now + cfg.MIN_GC_TIME * TICKS_PER_SECOND) →
        s'.timer_calls = s.timer_calls ++
          [.abstime (oldest.1 / TICKS_PER_SECOND)
            (oldest.1 % TICKS_PER_SECOND)])) ∧
    (s.WF → ∀ p ∈ s.expirations, oldest.1 ≤ p.1) := by
  refine ⟨?_, ?_, ?_⟩
  · constructor
    · intro hne
      by_contra hrt
      apply hne
      unfold Requests.update_gc_timer
      rw [hexp]
      simp only
      rw [if_pos hrt]
    · intro hrt
      obtain ⟨s', hs'⟩ := update_gc_timer_total cfg env s hrt
      rw [hs']
      simp
  · intro s' h
    unfold Requests.update_gc_timer at h
    rw [hexp] at h
    simp only at h
    have hconv : (cfg.MIN_GC_TIME > 0
          ∧ oldest.1 < env.timer_now + cfg.MIN_GC_TIME * TICKS_PER_SECOND) ↔
        (cfg.MIN_GC_TIME ≠ 0
          ∧ oldest.1 < env.timer_now + cfg.MIN_GC_TIME * TICKS_PER_SECOND) := by
      constructor
      · rintro ⟨ha, hb⟩
        exact ⟨by omega, hb⟩
      · rintro ⟨ha, hb⟩
        exact ⟨by omega, hb⟩
    split_ifs at h with h1 h2 h3
    · simp only [Option.some.injEq] at h
      subst h
      exact ⟨by rw [if_pos (hconv.2 h2)]; exact h3, fun _ _ => rfl,
        fun _ hne => absurd h3 hne, fun hno => absurd (hconv.2 h2) hno⟩
    · simp only [Option.some.injEq] at h
      subst h
      exact ⟨by rw [if_pos (hconv.2 h2)], fun _ hp => absurd hp h3,
        fun _ _ => rfl, fun hno => absurd (hconv.2 h2) hno⟩
    · simp only [Option.some.injEq] at h
      subst h
      exact ⟨by rw [if_neg (fun hy => h2 (hconv.1 hy))],
        fun hyes => absurd (hconv.1 hyes) h2,
        fun hyes => absurd (hconv.1 hyes) h2, fun _ => rfl⟩
  · intro hwf p hp
    rw [hexp] at hp
    have hs := hwf.2.2.1
    rw [hexp, List.pairwise_cons] at hs
    rcases List.mem_cons.1 hp with h | h
    · rw [h]
    · have := hs.1 p h
      unfold pair_lt at this
      omega

theorem C11_timer_policy_witness :
    Requests.update_gc_timer example_config (example_env 14950000000)
      table_3_7 = some table_3_7_periodic ∧
    Requests.update_gc_timer example_config (example_env 14950000000)
      table_3_7_periodic = some table_3_7_periodic ∧
    Requests.update_gc_timer example_config (example_env 30)
      table_3_7_periodic
      = some { table_3_7_periodic with
          timer_state := .EXACT,
          timer_calls := [.abstime 15 0, .periodic 5, .abstime 15 0] } ∧
    (Requests.update_gc_timer example_config (example_env 14950000000)
        table_3_7 ≠ none ↔ 0 < example_config.REQUEST_TIMEOUT) :=
  ⟨by decide, by decide, by decide,
   (C11_timer_policy example_config (example_env 14950000000) table_3_7
     (15000000000, 3) [(15000000010, 7)] rfl rfl).1⟩

theorem Put_keeps_timer_of_nonempty_index (cfg : Config) (env : Env)
    (q : Nat) (fd : Int) (client : Nat × Nat) (question : List Nat)
    (orig : Nat) (s s' : Requests) (hne : s.expirations ≠ [])
    (h : Requests.Put cfg env q fd client question orig s = some s') :
    s'.timer_state = s.timer_state ∧ s'.timer_calls = s.timer_calls := by
  unfold Requests.Put at h
  simp only at h
  split_ifs at h with h1 h2 h3 h4 h5
  · simp only [Option.some.injEq] at h
    subst h
    exact ⟨rfl, rfl⟩
  · exact absurd (List.length_eq_zero.1 h5) hne
  · simp only [Option.some.injEq] at h
    subst h
    exact ⟨rfl, rfl⟩

/-- C12, as the claim states it, fails: in the GC-coalescing scenario
(`REQUEST_TIMEOUT = 15`, `MIN_GC_TIME = 5`, ten requests recorded within the
first 100 ms and ten more from 14.95 s on, before the timer fires at 15 s)
the timer state after the second batch is `EXACT`, not `PERIODIC`, and the
only `timerfd_settime` call issued is the one of the first `Put`. -/
theorem C12_second_batch_leaves_timer_exact :
    (Requests.run example_config
        (coalescing_first_batch ++ coalescing_second_batch)
        Requests.init).map (fun s => (s.timer_state, s.timer_calls))
      = some (.EXACT, [.abstime 15 0]) ∧
    ¬ ((Requests.run example_config
        (coalescing_first_batch ++ coalescing_second_batch)
        Requests.init).map (fun s => s.timer_state) = some .PERIODIC) := by
  constructor <;> decide

/-- C12, amended: in the GC-coalescing scenario the ten requests of the
first batch leave the timer `EXACT` at the oldest expiration (15 s); the
arrival of the second batch at 14.95 s leaves it `EXACT`, as `Put` programs
the timer only when the index was empty before; the state switches to
`PERIODIC` (one periodic call with 5 s) when the timer fires at 15 s and `Gc`
removes the oldest request, because the oldest remaining expiration is then
less than `now + 5 s`. -/
theorem C12_coalescing_scenario :
    (Requests.run example_config coalescing_first_batch
        Requests.init).map
        (fun s => (s.timer_state, s.timer_calls, s.expirations.head?))
      = some (.EXACT, [.abstime 15 0], some (15000000000, 1)) ∧
    (Requests.run example_config
        (coalescing_first_batch ++ coalescing_second_batch)
        Requests.init).map
        (fun s => (s.timer_state, s.timer_calls, s.expirations.length))
      = some (.EXACT, [.abstime 15 0], 20) ∧
    (Requests.run example_config
        (coalescing_first_batch ++ coalescing_second_batch
          ++ [.gc (example_env 15000000000)])
        Requests.init).map
        (fun s => (s.timer_state, s.timer_calls, s.expirations.head?))
      = some (.PERIODIC, [.abstime 15 0, .periodic 5],
          some (15010000000, 2)) := by
  refine ⟨?_, ?_, ?_⟩ <;> decide

/-! ## The unordered maps of the pool -/

theorem umap_find_eq_none_iff {β : Type} (m : List (Int × β)) (sfd : Int) :
    umap_find m sfd = none ↔ sfd ∉ m.map Prod.fst := by
  induction m with
  | nil => simp [umap_find]
  | cons e rest ih =>
    obtain ⟨k, v⟩ := e
    by_cases h : k = sfd
    · simp [umap_find, h]
    · have h' : ¬ sfd = k := fun hq => h hq.symm
      simp [umap_find, h, h', ih]

theorem umap_find_mem {β : Type} (m : List (Int × β)) (sfd : Int) (v : β)
    (h : umap_find m sfd = some v) : (sfd, v) ∈ m := by
  induction m with
  | nil => simp [umap_find] at h
  | cons e rest ih =>
    obtain ⟨k, w⟩ := e
    unfold umap_find at h
    by_cases hk : k = sfd
    · simp only [hk, if_true, Option.some.injEq] at h
      simp [hk, h]
    · simp only [hk, if_false] at h
      exact List.mem_cons_of_mem _ (ih h)

theorem keys_umap_assign {β : Type} (m : List (Int × β)) (sfd : Int)
    (v : β) : (umap_assign m sfd v).map Prod.fst = m.map Prod.fst := by
  unfold umap_assign
  rw [List.map_map]
  apply List.map_congr_left
  intro e _
  by_cases h : e.1 = sfd <;> simp [h]

theorem length_umap_assign {β : Type} (m : List (Int × β)) (sfd : Int)
    (v : β) : (umap_assign m sfd v).length = m.length := by
  simp [umap_assign]

theorem mem_umap_assign {β : Type} (m : List (Int × β)) (sfd : Int)
    (v : β) (e : Int × β) (h : e ∈ umap_assign m sfd v) :
    e ∈ m ∨ e = (sfd, v) := by
  unfold umap_assign at h
  obtain ⟨a, ha, hae⟩ := List.mem_map.1 h
  by_cases hk : a.1 = sfd
  · simp only [hk, if_true] at hae
    exact Or.inr hae.symm
  · simp only [hk, if_false] at hae
    exact Or.inl (hae ▸ ha)

theorem mem_keys_umap_erase {β : Type} (m : List (Int × β)) (sfd x : Int) :
    x ∈ (umap_erase m sfd).map Prod.fst ↔ x ∈ m.map Prod.fst ∧ x ≠ sfd := by
  unfold umap_erase
  simp only [List.mem_map, List.mem_filter]
  constructor
  · rintro ⟨e, ⟨he, hne⟩, hx⟩
    refine ⟨⟨e, he, hx⟩, ?_⟩
    rw [← hx]
    simpa using hne
  · rintro ⟨⟨e, he, hx⟩, hne⟩
    exact ⟨e, ⟨he, by rw [hx]; simpa using hne⟩, hx⟩

theorem length_umap_erase_le {β : Type} (m : List (Int × β)) (sfd : Int) :
    (umap_erase m sfd).length ≤ m.length :=
  List.length_filter_le _ _

theorem length_umap_erase_lt {β : Type} (m : List (Int × β)) (sfd : Int)
    (v : β) (h : umap_find m sfd = some v) :
    (umap_erase m sfd).length + 1 ≤ m.length := by
  induction m with
  | nil => simp [umap_find] at h
  | cons e rest ih =>
    obtain ⟨k, w⟩ := e
    unfold umap_find at h
    unfold umap_erase at ih ⊢
    by_cases hk : k = sfd
    · rw [List.filter_cons_of_neg (by simp [hk])]
      have := List.length_filter_le (fun e : Int × β => decide (e.1 ≠ sfd))
        rest
      simp only [List.length_cons]
      omega
    · simp only [hk, if_false] at h
      rw [List.filter_cons_of_pos (by simp [hk])]
      simp only [List.length_cons]
      have := ih h
      omega

/-! ## The operations of the pool, case by case -/

theorem Upstream_Get_cases (pcfg : PoolConfig) (env : Upstream.Env)
    (s s' : Upstream) (r : Option Int)
    (h : Upstream.Get pcfg env s = some (r, s')) :
    (s' = s ∧ (r = none ∨ ∃ i ∈ s.available, r = some i.1)) ∨
    (Upstream.open_new_port pcfg s = true ∧ env.new_socket ≥ 0 ∧
      umap_find s.available env.new_socket = none ∧
      r = some env.new_socket ∧
      s' = { s with available :=
        (env.new_socket, { outstanding := 0, lifetime := 0 })
          :: s.available }) := by
  unfold Upstream.Get at h
  simp only at h
  split_ifs at h with h1 h2 h3 h4
  · simp only [Option.some.injEq, Prod.mk.injEq] at h
    exact Or.inl ⟨h.2.symm, Or.inl h.1.symm⟩
  · unfold umap_emplace at h3
    split at h3
    · simp at h3
    · simp only [Option.some.injEq, Prod.mk.injEq] at h
      unfold umap_emplace at h
      rename_i hfind
      simp only [hfind] at h
      exact Or.inr ⟨h2.1, h2.2, hfind, h.1.symm, h.2.symm⟩
  · cases hget : s.available.get? env.n with
    | none =>
      rw [hget] at h
      simp at h
    | some i =>
      rw [hget] at h
      simp only [Option.some.injEq, Prod.mk.injEq] at h
      exact Or.inl ⟨h.2.symm, Or.inr ⟨i, List.get?_mem hget, h.1.symm⟩⟩
  · simp only [Option.some.injEq, Prod.mk.injEq] at h
    exact Or.inl ⟨h.2.symm, Or.inl h.1.symm⟩

theorem Upstream_Put_cases (pcfg : PoolConfig) (sfd : Int)
    (s s' : Upstream) (h : Upstream.Put pcfg sfd s = some s') :
    ∃ socket, umap_find s.available sfd = some socket ∧
      ((pcfg.MAX_PORT_LIFETIME = 0 ∧
        s' = { s with
          available := umap_assign s.available sfd
            ⟨(socket.outstanding + 1) % 4294967296, socket.lifetime⟩ }) ∨
       (pcfg.MAX_PORT_LIFETIME ≠ 0 ∧
        (socket.lifetime + 1) % 4294967296 < pcfg.MAX_PORT_LIFETIME ∧
        s' = { s with
          available := umap_assign s.available sfd
            ⟨(socket.outstanding + 1) % 4294967296,
              (socket.lifetime + 1) % 4294967296⟩ }) ∨
       (pcfg.MAX_PORT_LIFETIME ≠ 0 ∧
        (socket.lifetime + 1) % 4294967296 ≥ pcfg.MAX_PORT_LIFETIME ∧
        umap_find s.end_of_life sfd = none ∧
        s' = { s with
          available := umap_erase s.available sfd,
          end_of_life :=
            (sfd, (socket.outstanding + 1) % 4294967296)
              :: s.end_of_life })) := by
  unfold Upstream.Put at h
  split at h
  · simp at h
  next socket hfind =>
    refine ⟨socket, hfind, ?_⟩
    simp only at h
    split_ifs at h with h1 h2 h3
    · unfold umap_emplace at h3 h
      split at h3
      · simp at h3
      · rename_i hf
        simp only [hf, Option.some.injEq] at h
        exact Or.inr (Or.inr ⟨h1, h2, hf, h.symm⟩)
    · simp only [Option.some.injEq] at h
      exact Or.inr (Or.inl ⟨h1, by omega, h.symm⟩)
    · simp only [Option.some.injEq] at h
      exact Or.inl ⟨by simpa using h1, h.symm⟩

theorem Upstream_Done_cases (sfd : Int) (s s' : Upstream)
    (h : Upstream.Done sfd s = some s') :
    (∃ socket, umap_find s.available sfd = some socket ∧
      socket.outstanding > 0 ∧
      s' = { s with
        available := umap_assign s.available sfd
          ⟨socket.outstanding - 1, socket.lifetime⟩ }) ∨
    (umap_find s.available sfd = none ∧
      ∃ o, umap_find s.end_of_life sfd = some o ∧ o > 0 ∧
        ((o - 1 = 0 ∧
          s' = { s with end_of_life := umap_erase s.end_of_life sfd,
                        closed := s.closed ++ [sfd] }) ∨
         (o - 1 ≠ 0 ∧
          s' = { s with
            end_of_life := umap_assign s.end_of_life sfd (o - 1) }))) := by
  unfold Upstream.Done at h
  split at h
  next socket hfind =>
    split_ifs at h with h1
    simp only [Option.some.injEq] at h
    exact Or.inl ⟨socket, hfind, h1, h.symm⟩
  next hfind =>
    split at h
    · simp at h
    next o hf =>
      split_ifs at h with h1 h2
      · simp only [Option.some.injEq] at h
        exact Or.inr ⟨hfind, o, hf, h1, Or.inl ⟨h2, h.symm⟩⟩
      · simp only [Option.some.injEq] at h
        exact Or.inr ⟨hfind, o, hf, h1, Or.inr ⟨h2, h.symm⟩⟩

/-! ## Invariants of the pool -/

theorem Upstream_run_invariant (pcfg : PoolConfig) (P : Upstream → Prop)
    (hstep : ∀ c s s', P s → Upstream.call_fresh pcfg c s = true →
      Upstream.step pcfg c s = some s' → P s') :
    ∀ (calls : List Upstream.Call) (s s' : Upstream), P s →
      Upstream.creation_fresh_along pcfg calls s = true →
      Upstream.run pcfg calls s = some s' → P s' := by
  intro calls
  induction calls with
  | nil =>
    intro s s' hP _ h
    simp only [Upstream.run, Option.some.injEq] at h
    exact h ▸ hP
  | cons c cs ih =>
    intro s s' hP hfresh h
    simp only [Upstream.run] at h
    simp only [Upstream.creation_fresh_along, Bool.and_eq_true] at hfresh
    split at h
    · simp at h
    next s1 hs1 =>
      rw [hs1] at hfresh
      exact ih s1 s' (hstep c s s1 hP hfresh.1 hs1) hfresh.2 h

theorem Upstream_run_invariant_any (pcfg : PoolConfig)
    (P : Upstream → Prop)
    (hstep : ∀ c s s', P s → Upstream.step pcfg c s = some s' → P s') :
    ∀ (calls : List Upstream.Call) (s s' : Upstream), P s →
      Upstream.run pcfg calls s = some s' → P s' := by
  intro calls
  induction calls with
  | nil =>
    intro s s' hP h
    simp only [Upstream.run, Option.some.injEq] at h
    exact h ▸ hP
  | cons c cs ih =>
    intro s s' hP h
    simp only [Upstream.run] at h
    split at h
    · simp at h
    next s1 hs1 => exact ih s1 s' (hstep c s s1 hP hs1) h

theorem Upstream_bound_step (pcfg : PoolConfig)
    (hmax : 0 < pcfg.MAX_PORTS) (c : Upstream.Call) (s s' : Upstream)
    (hP : s.available.length + s.end_of_life.length ≤ pcfg.MAX_PORTS)
    (h : Upstream.step pcfg c s = some s') :
    s'.available.length + s'.end_of_life.length ≤ pcfg.MAX_PORTS := by
  cases c with
  | get env =>
    simp only [Upstream.step] at h
    split at h
    · simp at h
    next r s1 hget =>
      simp only [Option.some.injEq] at h
      subst h
      rcases Upstream_Get_cases pcfg env s s1 r hget with
        ⟨hs, _⟩ | ⟨hopen, _, _, _, hs⟩
      · rw [hs]
        exact hP
      · rw [hs]
        simp only [List.length_cons]
        unfold Upstream.open_new_port at hopen
        simp only [decide_eq_true_eq] at hopen
        omega
  | put sfd =>
    simp only [Upstream.step] at h
    obtain ⟨socket, hfind, hcase⟩ := Upstream_Put_cases pcfg sfd s s' h
    rcases hcase with ⟨_, hs⟩ | ⟨_, _, hs⟩ | ⟨_, _, _, hs⟩
    · rw [hs]
      simpa [length_umap_assign] using hP
    · rw [hs]
      simpa [length_umap_assign] using hP
    · rw [hs]
      have := length_umap_erase_lt s.available sfd socket hfind
      simp only [List.length_cons]
      omega
  | done sfd =>
    simp only [Upstream.step] at h
    rcases Upstream_Done_cases sfd s s' h with
      ⟨socket, _, _, hs⟩ | ⟨_, o, _, _, ⟨_, hs⟩ | ⟨_, hs⟩⟩
    · rw [hs]
      simpa [length_umap_assign] using hP
    · rw [hs]
      have := length_umap_erase_le s.end_of_life sfd
      simp only
      omega
    · rw [hs]
      simpa [length_umap_assign] using hP

/-- C18: with `MAX_PORTS > 0`, in every pool state reached from the empty
pool by calls of `Get`, `Put` and `Done`, the number of sockets in
`available` plus the number in `end_of_life` is at most `MAX_PORTS`. -/
theorem C18_pool_size_bounded (pcfg : PoolConfig)
    (calls : List Upstream.Call) (s : Upstream)
    (hmax : 0 < pcfg.MAX_PORTS)
    (h : Upstream.run pcfg calls Upstream.init = some s) :
    s.available.length + s.end_of_life.length ≤ pcfg.MAX_PORTS :=
  Upstream_run_invariant_any pcfg
    (fun s => s.available.length + s.end_of_life.length ≤ pcfg.MAX_PORTS)
    (fun c s s' hP hs => Upstream_bound_step pcfg hmax c s s' hP hs)
    calls Upstream.init s (by simp [Upstream.init]) h

theorem C18_pool_size_bounded_witness :
    example_pool.available.length + example_pool.end_of_life.length
      ≤ example_pool_config.MAX_PORTS :=
  C18_pool_size_bounded example_pool_config example_pool_calls example_pool
    (by decide) (by decide)

theorem Upstream_disjoint_step (pcfg : PoolConfig) (c : Upstream.Call)
    (s s' : Upstream)
    (hP : ∀ sfd, sfd ∈ s.available.map Prod.fst →
      sfd ∉ s.end_of_life.map Prod.fst)
    (hfresh : Upstream.call_fresh pcfg c s = true)
    (h : Upstream.step pcfg c s = some s') :
    ∀ sfd, sfd ∈ s'.available.map Prod.fst →
      sfd ∉ s'.end_of_life.map Prod.fst := by
  cases c with
  | get env =>
    simp only [Upstream.step] at h
    split at h
    · simp at h
    next r s1 hget =>
      simp only [Option.some.injEq] at h
      subst h
      rcases Upstream_Get_cases pcfg env s s1 r hget with
        ⟨hs, _⟩ | ⟨hopen, hge, _, _, hs⟩
      · rw [hs]
        exact hP
      · rw [hs]
        simp only [Upstream.call_fresh, decide_eq_true_eq] at hfresh
        have hnew := hfresh hopen hge
        intro sfd hmem
        simp only [List.map_cons, List.mem_cons] at hmem
        rcases hmem with hm | hm
        · rw [hm]
          exact fun hin => hnew (Or.inr hin)
        · exact hP sfd hm
  | put sfd =>
    simp only [Upstream.step] at h
    obtain ⟨socket, hfind, hcase⟩ := Upstream_Put_cases pcfg sfd s s' h
    rcases hcase with ⟨_, hs⟩ | ⟨_, _, hs⟩ | ⟨_, _, _, hs⟩
    · rw [hs]
      simpa [keys_umap_assign] using hP
    · rw [hs]
      simpa [keys_umap_assign] using hP
    · rw [hs]
      intro x hx
      simp only at hx ⊢
      rw [mem_keys_umap_erase] at hx
      simp only [List.map_cons, List.mem_cons, not_or]
      exact ⟨hx.2, hP x hx.1⟩
  | done sfd =>
    simp only [Upstream.step] at h
    rcases Upstream_Done_cases sfd s s' h with
      ⟨socket, _, _, hs⟩ | ⟨_, o, _, _, ⟨_, hs⟩ | ⟨_, hs⟩⟩
    · rw [hs]
      simpa [keys_umap_assign] using hP
    · rw [hs]
      intro x hx hx'
      simp only at hx hx'
      rw [mem_keys_umap_erase] at hx'
      exact hP x hx hx'.1
    · rw [hs]
      simpa [keys_umap_assign] using hP

/-- C19: when socket creation only returns identifiers the pool does not
hold at that time, in every pool state reached from the empty pool by calls
of `Get`, `Put` and `Done` no socket identifier is a key of both `available`
and `end_of_life`. -/
theorem C19_pool_maps_disjoint (pcfg : PoolConfig)
    (calls : List Upstream.Call) (s : Upstream)
    (hfresh : Upstream.creation_fresh_along pcfg calls Upstream.init = true)
    (h : Upstream.run pcfg calls Upstream.init = some s) :
    ∀ sfd, ¬ (sfd ∈ s.available.map Prod.fst
      ∧ sfd ∈ s.end_of_life.map Prod.fst) := by
  have hinv := Upstream_run_invariant pcfg
    (fun s => ∀ sfd, sfd ∈ s.available.map Prod.fst →
      sfd ∉ s.end_of_life.map Prod.fst)
    (fun c s s' hP hf hs => Upstream_disjoint_step pcfg c s s' hP hf hs)
    calls Upstream.init s (by simp [Upstream.init]) hfresh h
  intro sfd hboth
  exact hinv sfd hboth.1 hboth.2

theorem C19_pool_maps_disjoint_witness :
    Upstream.run example_pool_config example_pool_calls Upstream.init
      = some example_pool ∧
    Upstream.creation_fresh_along example_pool_config example_pool_calls
      Upstream.init = true ∧
    ∀ sfd, ¬ (sfd ∈ example_pool.available.map Prod.fst
      ∧ sfd ∈ example_pool.end_of_life.map Prod.fst) :=
  ⟨by decide, by decide,
   C19_pool_maps_disjoint example_pool_config example_pool_calls
     example_pool (by decide) (by decide)⟩

theorem Upstream_lifetime_step (pcfg : PoolConfig)
    (hlife : 0 < pcfg.MAX_PORT_LIFETIME) (c : Upstream.Call)
    (s s' : Upstream)
    (hP : ∀ e ∈ s.available, e.2.lifetime < pcfg.MAX_PORT_LIFETIME)
    (h : Upstream.step pcfg c s = some s') :
    ∀ e ∈ s'.available, e.2.lifetime < pcfg.MAX_PORT_LIFETIME := by
  cases c with
  | get env =>
    simp only [Upstream.step] at h
    split at h
    · simp at h
    next r s1 hget =>
      simp only [Option.some.injEq] at h
      subst h
      rcases Upstream_Get_cases pcfg env s s1 r hget with
        ⟨hs, _⟩ | ⟨_, _, _, _, hs⟩
      · rw [hs]
        exact hP
      · rw [hs]
        intro e he
        rcases List.mem_cons.1 he with hm | hm
        · rw [hm]
          exact hlife
        · exact hP e hm
  | put sfd =>
    simp only [Upstream.step] at h
    obtain ⟨socket, hfind, hcase⟩ := Upstream_Put_cases pcfg sfd s s' h
    rcases hcase with ⟨h0, _⟩ | ⟨_, hlt, hs⟩ | ⟨_, _, _, hs⟩
    · omega
    · rw [hs]
      intro e he
      rcases mem_umap_assign _ _ _ _ he with hm | hm
      · exact hP e hm
      · rw [hm]
        exact hlt
    · rw [hs]
      intro e he
      exact hP e (List.mem_filter.1 he).1
  | done sfd =>
    simp only [Upstream.step] at h
    rcases Upstream_Done_cases sfd s s' h with
      ⟨socket, hfind, _, hs⟩ | ⟨_, o, _, _, ⟨_, hs⟩ | ⟨_, hs⟩⟩
    · rw [hs]
      intro e he
      rcases mem_umap_assign _ _ _ _ he with hm | hm
      · exact hP e hm
      · rw [hm]
        exact hP (sfd, socket) (umap_find_mem _ _ _ hfind)
    · rw [hs]
      exact hP
    · rw [hs]
      exact hP

/-- C20: with `MAX_PORT_LIFETIME = L > 0`, in every pool state reached from
the empty pool by calls of `Get`, `Put` and `Done`, every socket in
`available` has a lifetime less than `L`. -/
theorem C20_available_lifetime_below_limit (pcfg : PoolConfig)
    (calls : List Upstream.Call) (s : Upstream)
    (hlife : 0 < pcfg.MAX_PORT_LIFETIME)
    (h : Upstream.run pcfg calls Upstream.init = some s) :
    ∀ e ∈ s.available, e.2.lifetime < pcfg.MAX_PORT_LIFETIME :=
  Upstream_run_invariant_any pcfg
    (fun s => ∀ e ∈ s.available, e.2.lifetime < pcfg.MAX_PORT_LIFETIME)
    (fun c s s' hP hs => Upstream_lifetime_step pcfg hlife c s s' hP hs)
    calls Upstream.init s (by simp [Upstream.init]) h

theorem C20_available_lifetime_below_limit_witness :
    Upstream.run example_pool_config example_pool_calls Upstream.init
      = some example_pool ∧
    ∀ e ∈ example_pool.available,
      e.2.lifetime < example_pool_config.MAX_PORT_LIFETIME :=
  ⟨by decide,
   C20_available_lifetime_below_limit example_pool_config
     example_pool_calls example_pool (by decide) (by decide)⟩

/-! ## The proxy, case by case -/

theorem parse_message_some (msg : List Nat) (query_id : Nat)
    (question : List Nat)
    (h : parse_message msg = some (query_id, question)) :
    query_id = ntohs_field msg 0 ∧ 12 ≤ msg.length := by
  unfold parse_message at h
  split_ifs at h with hlen
  simp only at h
  split at h
  · simp at h
  · simp only [Option.some.injEq, Prod.mk.injEq] at h
    unfold NS_HFIXEDSZ at hlen
    exact ⟨h.1.symm, by omega⟩

theorem length_set_header_id (msg : List Nat) (query_id : Nat)
    (h : 2 ≤ msg.length) : (set_header_id msg query_id).length = msg.length := by
  simp only [set_header_id, List.length_cons, List.length_drop]
  omega

theorem drop_set_header_id (msg : List Nat) (query_id : Nat) :
    (set_header_id msg query_id).drop 2 = msg.drop 2 := by
  simp [set_header_id]

theorem take_set_header_id (msg : List Nat) (query_id : Nat)
    (h : query_id < 65536) :
    (set_header_id msg query_id).take 2
      = [query_id / 256, query_id % 256] := by
  have : query_id / 256 % 256 = query_id / 256 := by omega
  simp [set_header_id, this]

theorem ntohs_set_header_id (msg : List Nat) (query_id : Nat)
    (h : query_id < 65536) :
    ntohs_field (set_header_id msg query_id) 0 = query_id := by
  simp only [ntohs_field, set_header_id, List.getD_cons_zero, zero_add,
    List.getD_cons_succ]
  omega

theorem Get_query_id_some (cfg : Config) (s : Requests) (k id : Nat)
    (h : Requests.Get_query_id cfg s k = some (some id)) :
    id < 65536 ∧
    (cfg.MAX_OUTSTANDING_REQUESTS = 0
      ∨ s.requests.length < cfg.MAX_OUTSTANDING_REQUESTS) ∧
    s.requests.length < 65536 := by
  unfold Requests.Get_query_id at h
  by_cases h1 : cfg.MAX_OUTSTANDING_REQUESTS ≠ 0
      ∧ s.requests.length ≥ cfg.MAX_OUTSTANDING_REQUESTS
  · rw [if_pos h1] at h
    simp at h
  rw [if_neg h1] at h
  by_cases h2 : ¬ (s.requests.length ≤ MAX_POSSIBLE_QUERIES)
  · rw [if_pos h2] at h
    simp at h
  rw [if_neg h2] at h
  by_cases h3 : s.requests.length ≥ MAX_POSSIBLE_QUERIES
  · rw [if_pos h3] at h
    simp at h
  rw [if_neg h3] at h
  have hid : id < 65536 := by
    cases hfree : Requests.nth_free s k with
    | none =>
      rw [hfree] at h
      simp at h
    | some qid =>
      rw [hfree] at h
      have hq : qid < 65536 := by
        unfold Requests.nth_free at hfree
        split at hfree
        · simp at hfree
        · simp only [Option.some.injEq] at hfree
          omega
      simp only at h
      split_ifs at h <;> simp at h <;> omega
  refine ⟨hid, ?_, ?_⟩
  · by_cases h0 : cfg.MAX_OUTSTANDING_REQUESTS = 0
    · exact Or.inl h0
    · right
      by_contra hge
      exact h1 ⟨h0, by omega⟩
  · unfold MAX_POSSIBLE_QUERIES at h3
    omega

theorem Get_query_id_total (cfg : Config) (s : Requests) (k : Nat)
    (hwf : s.WF) (hk : k ≤ 65535 - s.requests.length) :
    Requests.Get_query_id cfg s k = some none ∨
    ∃ id, Requests.Get_query_id cfg s k = some (some id) ∧ id ∉ s.keys := by
  have hsize := size_le_of_WF s hwf
  by_cases hsat : cfg.MAX_OUTSTANDING_REQUESTS ≠ 0
      ∧ s.requests.length ≥ cfg.MAX_OUTSTANDING_REQUESTS
  · left
    unfold Requests.Get_query_id
    rw [if_pos hsat]
  · by_cases hall : s.requests.length ≥ 65536
    · left
      unfold Requests.Get_query_id
      rw [if_neg hsat, if_neg (by unfold MAX_POSSIBLE_QUERIES; omega),
        if_pos (by unfold MAX_POSSIBLE_QUERIES; omega)]
    · right
      have hn : s.requests.length < 65536 := by omega
      have hsat' : cfg.MAX_OUTSTANDING_REQUESTS = 0
          ∨ s.requests.length < cfg.MAX_OUTSTANDING_REQUESTS := by
        by_cases h0 : cfg.MAX_OUTSTANDING_REQUESTS = 0
        · exact Or.inl h0
        · right
          by_contra hge
          exact hsat ⟨h0, by omega⟩
      obtain ⟨id, hfree, hid, hnot, hrank⟩ := nth_free_spec s k hwf hn hk
      exact ⟨id, Get_query_id_spec cfg s k id hwf hsat' hn hfree hid hnot
        hrank, hnot⟩

theorem forward_query_cases (cfg : Config) (pcfg : PoolConfig)
    (env : Proxy.ForwardEnv) (st st' : Proxy) (b : Bool)
    (h : Proxy.forward_query cfg pcfg env st = some (b, st')) :
    st' = st ∨
    ∃ proxied msg client x question fd sockets1,
      Requests.Get_query_id cfg st.requests env.nth = some (some proxied) ∧
      env.received = some (msg, client) ∧
      parse_message msg = some (x, question) ∧
      header_qr msg = false ∧
      Upstream.Get pcfg env.socket_env st.sockets
        = some (some fd, sockets1) ∧
      ((env.send_ok = false ∧
        st' = { st with
          sockets := sockets1,
          send_calls :=
            st.send_calls ++ [(fd, set_header_id msg proxied)] }) ∨
       (env.send_ok = true ∧
        ∃ sockets2 requests2,
          Upstream.Put pcfg fd sockets1 = some sockets2 ∧
          Requests.Put cfg env.put_env proxied fd client question x
            st.requests = some requests2 ∧
          st' = { requests := requests2, sockets := sockets2,
                  send_calls :=
                    st.send_calls ++ [(fd, set_header_id msg proxied)],
                  sendto_calls := st.sendto_calls })) := by
  unfold Proxy.forward_query at h
  split at h
  · simp at h
  · simp only [Option.some.injEq, Prod.mk.injEq] at h
    exact Or.inl h.2.symm
  next proxied hget =>
    split at h
    · simp only [Option.some.injEq, Prod.mk.injEq] at h
      exact Or.inl h.2.symm
    next msg client hrecv =>
      split at h
      · simp only [Option.some.injEq, Prod.mk.injEq] at h
        exact Or.inl h.2.symm
      next x question hparse =>
        by_cases hqr : header_qr msg = true
        · rw [if_pos hqr] at h
          simp only [Option.some.injEq, Prod.mk.injEq] at h
          exact Or.inl h.2.symm
        · rw [if_neg hqr] at h
          cases hsock : Upstream.Get pcfg env.socket_env st.sockets with
          | none =>
            rw [hsock] at h
            simp at h
          | some res =>
            obtain ⟨r, sockets1⟩ := res
            rw [hsock] at h
            cases r with
            | none =>
              simp only [Option.some.injEq, Prod.mk.injEq] at h
              left
              rcases Upstream_Get_cases pcfg _ _ _ _ hsock with
                ⟨hs, _⟩ | ⟨_, _, _, hr, _⟩
              · rw [← h.2, hs]
              · simp at hr
            | some fd =>
              right
              refine ⟨proxied, msg, client, x, question, fd, sockets1,
                hget, hrecv, hparse, by simpa using hqr, rfl, ?_⟩
              simp only at h
              by_cases hsend : env.send_ok = false
              · rw [if_pos hsend] at h
                simp only [Option.some.injEq, Prod.mk.injEq] at h
                exact Or.inl ⟨hsend, h.2.symm⟩
              · rw [if_neg hsend] at h
                right
                refine ⟨by simpa using hsend, ?_⟩
                cases hput : Upstream.Put pcfg fd sockets1 with
                | none =>
                  rw [hput] at h
                  simp at h
                | some sockets2 =>
                  rw [hput] at h
                  simp only at h
                  cases hrput : Requests.Put cfg env.put_env proxied fd
                      client question x st.requests with
                  | none =>
                    rw [hrput] at h
                    simp at h
                  | some requests2 =>
                    rw [hrput] at h
                    simp only [Option.some.injEq, Prod.mk.injEq] at h
                    exact ⟨sockets2, requests2, rfl, rfl, h.2.symm⟩

theorem return_response_cases (cfg : Config) (upstream_fd : Int)
    (env : Proxy.ResponseEnv) (st st' : Proxy) (b : Bool)
    (h : Proxy.return_response cfg upstream_fd env st = some (b, st')) :
    st' = st ∨
    ∃ msg query_id question request sockets1 requests1,
      env.received = some msg ∧
      parse_message msg = some (query_id, question) ∧
      header_qr msg = true ∧
      Requests.Find st.requests (ntohs_field msg 0) = some request ∧
      upstream_fd = request.upstream_fd ∧
      question = request.question ∧
      Upstream.Done upstream_fd st.sockets = some sockets1 ∧
      Requests.Done cfg env.done_env (ntohs_field msg 0) request
        st.requests = some requests1 ∧
      st' = { requests := requests1, sockets := sockets1,
              send_calls := st.send_calls,
              sendto_calls := st.sendto_calls ++
                [(request.client,
                  set_header_id msg request.original_query_id)] } := by
  unfold Proxy.return_response at h
  split at h
  · simp only [Option.some.injEq, Prod.mk.injEq] at h
    exact Or.inl h.2.symm
  next msg hrecv =>
    split at h
    · simp only [Option.some.injEq, Prod.mk.injEq] at h
      exact Or.inl h.2.symm
    next query_id question hparse =>
      simp only at h
      split_ifs at h with hqr
      · simp only [Option.some.injEq, Prod.mk.injEq] at h
        exact Or.inl h.2.symm
      · split at h
        · simp only [Option.some.injEq, Prod.mk.injEq] at h
          exact Or.inl h.2.symm
        next request hfind =>
          split_ifs at h with hfd hq
          · simp only [Option.some.injEq, Prod.mk.injEq] at h
            exact Or.inl h.2.symm
          · simp only [Option.some.injEq, Prod.mk.injEq] at h
            exact Or.inl h.2.symm
          · split at h
            · simp at h
            next sockets1 hdone =>
              split at h
              · simp at h
              next requests1 hrdone =>
                simp only [Option.some.injEq, Prod.mk.injEq] at h
                right
                exact ⟨msg, query_id, question, request, sockets1,
                  requests1, hrecv, hparse, by simpa using hqr, hfind,
                  by simpa using hfd, by simpa using hq, hdone, hrdone,
                  h.2.symm⟩

/-! ## Claims on the proxy -/

theorem return_response_rejects (cfg : Config) (upstream_fd : Int)
    (env : Proxy.ResponseEnv) (st : Proxy) (msg : List Nat)
    (hrecv : env.received = some msg)
    (hno : ¬ Proxy.accepts st upstream_fd msg) :
    Proxy.return_response cfg upstream_fd env st = some (true, st) := by
  unfold Proxy.return_response
  rw [hrecv]
  simp only
  cases hparse : parse_message msg with
  | none => rfl
  | some res =>
    obtain ⟨query_id, question⟩ := res
    simp only
    by_cases hqr : header_qr msg = false
    · rw [if_pos hqr]
    · rw [if_neg hqr]
      cases hfind : Requests.Find st.requests (ntohs_field msg 0) with
      | none => rfl
      | some request =>
        simp only
        by_cases hfd : upstream_fd ≠ request.upstream_fd
        · rw [if_pos hfd]
        · rw [if_neg hfd]
          by_cases hq : question ≠ request.question
          · rw [if_pos hq]
          · exfalso
            apply hno
            have hid := (parse_message_some msg query_id question hparse).1
            refine ⟨query_id, question, request, hparse, by simpa using hqr,
              by rw [hid]; exact hfind, ?_, ?_⟩
            · exact (not_not.1 hfd).symm
            · exact (not_not.1 hq).symm

/-- C13: `return_response` on the socket `S` returns false and changes
nothing when no message is received; when the message received is not
accepted (it does not parse, or its QR bit is clear, or its ID is not a key
of the request table, or the record was forwarded on another socket than
`S`, or its question differs from the recorded question) it returns true and
leaves the whole state as it was: no `sendto` call is made, and the request
table and the pool are unchanged, so that any later message is handled as if
the rejected one had not arrived; and a `sendto` call to a client is made
only for an accepted message. -/
theorem C13_response_validation (cfg : Config) (upstream_fd : Int)
    (env : Proxy.ResponseEnv) (st : Proxy) :
    (env.received = none →
      Proxy.return_response cfg upstream_fd env st = some (false, st)) ∧
    (∀ msg, env.received = some msg → ¬ Proxy.accepts st upstream_fd msg →
      Proxy.return_response cfg upstream_fd env st = some (true, st) ∧
      ∀ fd₂ env₂ b st',
        Proxy.return_response cfg upstream_fd env st = some (b, st') →
        Proxy.return_response cfg fd₂ env₂ st'
          = Proxy.return_response cfg fd₂ env₂ st) ∧
    (∀ b st', Proxy.return_response cfg upstream_fd env st = some (b, st') →
      st'.sendto_calls ≠ st.sendto_calls →
      ∃ msg, env.received = some msg ∧ Proxy.accepts st upstream_fd msg) := by
  refine ⟨?_, ?_, ?_⟩
  · intro hnone
    unfold Proxy.return_response
    rw [hnone]
  · intro msg hrecv hno
    have hrej := return_response_rejects cfg upstream_fd env st msg hrecv hno
    refine ⟨hrej, ?_⟩
    intro fd₂ env₂ b st' h
    rw [hrej] at h
    simp only [Option.some.injEq, Prod.mk.injEq] at h
    rw [← h.2]
  · intro b st' h hsent
    cases hrecv : env.received with
    | none =>
      exfalso
      unfold Proxy.return_response at h
      rw [hrecv] at h
      simp only [Option.some.injEq, Prod.mk.injEq] at h
      exact hsent (by rw [← h.2])
    | some msg =>
      refine ⟨msg, rfl, ?_⟩
      by_contra hno
      have hrej := return_response_rejects cfg upstream_fd env st msg hrecv
        hno
      rw [hrej] at h
      simp only [Option.some.injEq, Prod.mk.injEq] at h
      exact hsent (by rw [← h.2])

theorem C13_response_validation_witness :
    Proxy.return_response example_config 6
      (example_response_env example_response) proxy_in_flight
      = some (true, proxy_in_flight) ∧
    Proxy.return_response example_config 5
      (example_response_env example_spoof) proxy_in_flight
      = some (true, proxy_in_flight) ∧
    Proxy.return_response example_config 5
      (example_response_env example_response) proxy_in_flight
      = some (true, proxy_answered) ∧
    ∃ msg, (example_response_env example_response).received = some msg
      ∧ Proxy.accepts proxy_in_flight 5 msg :=
  ⟨by decide, by decide, by decide,
   (C13_response_validation example_config 5
     (example_response_env example_response) proxy_in_flight).2.2 true
     proxy_answered (by decide) (by decide)⟩

/-- C16: when the client datagram does not parse (short header, truncated or
unterminated question) or has its QR bit set, `forward_query`, whenever it
returns, leaves the whole state as it was: no `send` call is made and the
request table and the pool are unchanged; and on a well-formed table, with
the draw in its range, it does return, with the result true. -/
theorem C16_invalid_query_dropped (cfg : Config) (pcfg : PoolConfig)
    (env : Proxy.ForwardEnv) (st : Proxy) (msg : List Nat)
    (client : Nat × Nat) (hrecv : env.received = some (msg, client))
    (hbad : parse_message msg = none ∨ header_qr msg = true) :
    (∀ b st', Proxy.forward_query cfg pcfg env st = some (b, st') →
      st' = st) ∧
    (st.requests.WF → env.nth ≤ 65535 - st.requests.requests.length →
      Proxy.forward_query cfg pcfg env st = some (true, st)) := by
  constructor
  · intro b st' h
    rcases forward_query_cases cfg pcfg env st st' b h with
      hs | ⟨_, msg', client', x, question, _, _, _, hrecv', hparse, hqr, _⟩
    · exact hs
    · rw [hrecv] at hrecv'
      simp only [Option.some.injEq, Prod.mk.injEq] at hrecv'
      rw [← hrecv'.1] at hparse hqr
      rcases hbad with hb | hb
      · rw [hb] at hparse
        simp at hparse
      · rw [hb] at hqr
        simp at hqr
  · intro hwf hk
    unfold Proxy.forward_query
    rcases Get_query_id_total cfg st.requests env.nth hwf hk with
      hg | ⟨id, hg, _⟩
    · rw [hg]
    · rw [hg, hrecv]
      simp only
      rcases hbad with hb | hb
      · rw [hb]
      · cases hparse : parse_message msg with
        | none => rfl
        | some res =>
          simp only
          rw [if_pos hb]

theorem C16_invalid_query_dropped_witness :
    Proxy.forward_query example_config example_pool_config
      { example_forward_env with
        received := some (example_response, (2130706433, 40000)) }
      proxy_in_flight = some (true, proxy_in_flight) ∧
    Proxy.forward_query example_config example_pool_config
      { example_forward_env with
        received := some (example_query.take 20, (2130706433, 40000)) }
      proxy_in_flight = some (true, proxy_in_flight) ∧
    (∀ b st', Proxy.forward_query example_config example_pool_config
      { example_forward_env with
        received := some (example_response, (2130706433, 40000)) }
      proxy_in_flight = some (b, st') → st' = proxy_in_flight) :=
  ⟨by decide, by decide,
   (C16_invalid_query_dropped example_config example_pool_config
     { example_forward_env with
       received := some (example_response, (2130706433, 40000)) }
     proxy_in_flight example_response (2130706433, 40000) rfl
     (Or.inr (by decide))).1⟩

theorem Put_records (cfg : Config) (env : Env) (q : Nat) (fd : Int)
    (client : Nat × Nat) (question : List Nat) (orig : Nat)
    (s s' : Requests)
    (h : Requests.Put cfg env q fd client question orig s = some s') :
    Requests.Find s' q
      = some ⟨fd, env.now + cfg.REQUEST_TIMEOUT * TICKS_PER_SECOND, client,
          question, orig⟩ ∧
    (∀ p, p ≠ q → Requests.Find s' p = Requests.Find s p) := by
  obtain ⟨hins, hreq, _⟩ := Put_some _ _ _ _ _ _ _ _ _ h
  unfold Requests.Find
  rw [hreq]
  constructor
  · rw [map_find_emplace _ _ _ hins]
    simp
  · intro p hp
    rw [map_find_emplace _ _ _ hins]
    simp [hp]

/-- C15: whenever `forward_query` makes a `send` call, the message it sends
upstream has the length of the client datagram, agrees with it from byte 2
on, and holds in bytes 0-1 the proxied ID allocated by `Get_query_id`, high
byte first; and when the `send` succeeds the request recorded under the
proxied ID has as `original_query_id` the big-endian value of bytes 0-1 of
the client datagram. -/
theorem C15_forward_rewrites_only_the_id (cfg : Config) (pcfg : PoolConfig)
    (env : Proxy.ForwardEnv) (st st' : Proxy) (b : Bool)
    (h : Proxy.forward_query cfg pcfg env st = some (b, st'))
    (hsent : st'.send_calls ≠ st.send_calls) :
    ∃ msg client proxied upstream_fd,
      env.received = some (msg, client) ∧
      Requests.Get_query_id cfg st.requests env.nth = some (some proxied) ∧
      st'.send_calls
        = st.send_calls ++ [(upstream_fd, set_header_id msg proxied)] ∧
      (set_header_id msg proxied).length = msg.length ∧
      (set_header_id msg proxied).drop 2 = msg.drop 2 ∧
      (set_header_id msg proxied).take 2 = [proxied / 256, proxied % 256] ∧
      ntohs_field (set_header_id msg proxied) 0 = proxied ∧
      (env.send_ok = true →
        ∃ request, Requests.Find st'.requests proxied = some request ∧
          request.original_query_id
            = msg.getD 0 0 * 256 + msg.getD 1 0) := by
  rcases forward_query_cases cfg pcfg env st st' b h with
    hs | ⟨proxied, msg, client, x, question, fd, sockets1, hget, hrecv,
      hparse, _, _, hcase⟩
  · exact absurd (by rw [hs]) hsent
  · obtain ⟨hx, hlen⟩ := parse_message_some msg x question hparse
    obtain ⟨hid, _, _⟩ := Get_query_id_some cfg st.requests env.nth proxied
      hget
    refine ⟨msg, client, proxied, fd, hrecv, hget, ?_,
      length_set_header_id msg proxied (by omega),
      drop_set_header_id msg proxied, take_set_header_id msg proxied hid,
      ntohs_set_header_id msg proxied hid, ?_⟩
    · rcases hcase with ⟨_, hs⟩ | ⟨_, _, _, _, _, hs⟩ <;> rw [hs]
    · intro hok
      rcases hcase with ⟨hfail, _⟩ | ⟨_, sockets2, requests2, _, hput, hs⟩
      · rw [hok] at hfail
        simp at hfail
      · rw [hs]
        refine ⟨_, (Put_records _ _ _ _ _ _ _ _ _ hput).1, ?_⟩
        simp only
        rw [hx]
        rfl

theorem C15_forward_rewrites_only_the_id_witness :
    Proxy.forward_query example_config example_pool_config
      example_forward_env Proxy.init = some (true, proxy_in_flight) ∧
    ∃ msg client proxied upstream_fd,
      example_forward_env.received = some (msg, client) ∧
      Requests.Get_query_id example_config Proxy.init.requests
        example_forward_env.nth = some (some proxied) ∧
      proxy_in_flight.send_calls
        = Proxy.init.send_calls
          ++ [(upstream_fd, set_header_id msg proxied)] ∧
      (set_header_id msg proxied).length = msg.length ∧
      (set_header_id msg proxied).drop 2 = msg.drop 2 ∧
      (set_header_id msg proxied).take 2 = [proxied / 256, proxied % 256] ∧
      ntohs_field (set_header_id msg proxied) 0 = proxied ∧
      (example_forward_env.send_ok = true →
        ∃ request,
          Requests.Find proxy_in_flight.requests proxied = some request ∧
          request.original_query_id
            = msg.getD 0 0 * 256 + msg.getD 1 0) :=
  ⟨by decide,
   C15_forward_rewrites_only_the_id example_config example_pool_config
     example_forward_env Proxy.init proxy_in_flight true (by decide)
     (by decide)⟩

theorem getD_lt_of_bytes (msg : List Nat) (i : Nat)
    (h : ∀ byte ∈ msg, byte < 256) : msg.getD i 0 < 256 := by
  by_cases hi : i < msg.length
  · rw [List.getD_eq_getElem _ _ hi]
    exact h _ (List.getElem_mem hi)
  · rw [List.getD_eq_default _ _ (by omega)]
    omega

theorem umap_find_assign_self {β : Type} (m : List (Int × β)) (sfd : Int)
    (v w : β) (h : umap_find m sfd = some w) :
    umap_find (umap_assign m sfd v) sfd = some v := by
  induction m with
  | nil => simp [umap_find] at h
  | cons e rest ih =>
    obtain ⟨k, u⟩ := e
    have hcons : umap_assign ((k, u) :: rest) sfd v
        = (if k = sfd then (k, v) else (k, u)) :: umap_assign rest sfd v :=
      rfl
    rw [hcons]
    unfold umap_find at h
    by_cases hk : k = sfd
    · rw [if_pos hk]
      unfold umap_find
      rw [if_pos hk]
    · rw [if_neg hk] at h ⊢
      unfold umap_find
      rw [if_neg hk]
      exact ih h

theorem umap_find_erase_self {β : Type} (m : List (Int × β)) (sfd : Int) :
    umap_find (umap_erase m sfd) sfd = none := by
  apply (umap_find_eq_none_iff _ _).2
  intro hmem
  exact ((mem_keys_umap_erase m sfd sfd).1 hmem).2 rfl

theorem Upstream_Done_after_Put (pcfg : PoolConfig) (sfd : Int)
    (s s' : Upstream) (socket : socket_usage_st)
    (hfind : umap_find s.available sfd = some socket)
    (hcount : socket.outstanding < 4294967295)
    (h : Upstream.Put pcfg sfd s = some s') :
    ∃ s'', Upstream.Done sfd s' = some s'' := by
  have hmod : (socket.outstanding + 1) % 4294967296
      = socket.outstanding + 1 := by omega
  obtain ⟨socket', hfind', hcase⟩ := Upstream_Put_cases pcfg sfd s s' h
  rw [hfind] at hfind'
  have hsock : socket = socket' := Option.some.inj hfind'
  subst hsock
  rw [hmod] at hcase
  unfold Upstream.Done
  rcases hcase with ⟨_, hs⟩ | ⟨_, _, hs⟩ | ⟨_, _, _, hs⟩
  · rw [hs]
    simp only
    rw [umap_find_assign_self _ _ _ _ hfind]
    simp only
    rw [if_neg (by simp)]
    exact ⟨_, rfl⟩
  · rw [hs]
    simp only
    rw [umap_find_assign_self _ _ _ _ hfind]
    simp only
    rw [if_neg (by simp)]
    exact ⟨_, rfl⟩
  · rw [hs]
    simp only
    rw [umap_find_erase_self]
    simp only [umap_find, if_true]
    rw [if_neg (by simp)]
    split_ifs <;> exact ⟨_, rfl⟩

theorem return_response_accepted (cfg : Config) (upstream_fd : Int)
    (env : Proxy.ResponseEnv) (st : Proxy) (msg : List Nat)
    (query_id : Nat) (question : List Nat) (request : request_st)
    (hrecv : env.received = some msg)
    (hparse : parse_message msg = some (query_id, question))
    (hqr : header_qr msg = true)
    (hfind : Requests.Find st.requests query_id = some request)
    (hfd : request.upstream_fd = upstream_fd)
    (hq : request.question = question) :
    Proxy.return_response cfg upstream_fd env st =
      match Upstream.Done upstream_fd st.sockets with
      | none => none
      | some sockets =>
        match Requests.Done cfg env.done_env query_id request
          st.requests with
        | none => none
        | some requests =>
          some (true,
            { requests := requests, sockets := sockets,
              send_calls := st.send_calls,
              sendto_calls := st.sendto_calls ++
                [(request.client,
                  set_header_id msg request.original_query_id)] }) := by
  have hid := (parse_message_some msg query_id question hparse).1
  unfold Proxy.return_response
  rw [hrecv]
  simp only
  rw [hparse]
  simp only
  rw [if_neg (by simp [hqr]), ← hid, hfind]
  simp only
  rw [if_neg (by simp [hfd]), if_neg (by simp [hq])]

theorem Upstream_Get_found (pcfg : PoolConfig) (env : Upstream.Env)
    (s s' : Upstream) (fd : Int)
    (hcount : ∀ e ∈ s.available, e.2.outstanding < 4294967295)
    (h : Upstream.Get pcfg env s = some (some fd, s')) :
    ∃ socket, umap_find s'.available fd = some socket ∧
      socket.outstanding < 4294967295 := by
  rcases Upstream_Get_cases pcfg env s s' (some fd) h with
    ⟨hs, hr⟩ | ⟨_, _, _, hr, hs⟩
  · rcases hr with hr | ⟨i, hi, hr⟩
    · simp at hr
    · have hfd : fd = i.1 := Option.some.inj hr
      have hkey : fd ∈ s.available.map Prod.fst :=
        List.mem_map.2 ⟨i, hi, hfd.symm⟩
      have hne : umap_find s.available fd ≠ none :=
        fun hn => (umap_find_eq_none_iff _ _).1 hn hkey
      obtain ⟨socket, hsock⟩ := Option.ne_none_iff_exists'.1 hne
      rw [hs]
      exact ⟨socket, hsock, hcount _ (umap_find_mem _ _ _ hsock)⟩
  · have hfd : fd = env.new_socket := Option.some.inj hr
    rw [hs, hfd]
    exact ⟨⟨0, 0⟩, by simp [umap_find], by simp⟩

/-- C14: when `forward_query` has forwarded and recorded a client query
(bytes below 256) whose ID is `x`, on the socket `U` under the proxied ID
`P`, the record holds `U`, the client endpoint, the question of the query
and `x`, the big-endian value of bytes 0-1 of the query; and as long as this
record is in the table, for every message received on `U` that parses with
the ID `P` and the same question bytes and has its QR bit set,
`return_response`, whenever it returns, has made exactly one `sendto` call,
to the recorded client endpoint, with the message received except that bytes
0-1 hold `x`, high byte first (same length, same bytes from byte 2 on), and
has removed the record of `P`; and right after the forward, on a well-formed
table whose index corresponds to the mapping and with reference counts below
`UINT_MAX`, it does return. -/
theorem C14_round_trip (cfg : Config) (pcfg : PoolConfig)
    (fenv : Proxy.ForwardEnv) (st st1 : Proxy) (b : Bool)
    (qmsg : List Nat) (client : Nat × Nat)
    (hrecv : fenv.received = some (qmsg, client))
    (hbytes : ∀ byte ∈ qmsg, byte < 256)
    (hfwd : Proxy.forward_query cfg pcfg fenv st = some (b, st1))
    (hrec : st1.requests ≠ st.requests) :
    ∃ x question P U request,
      parse_message qmsg = some (x, question) ∧ header_qr qmsg = false ∧
      x = qmsg.getD 0 0 * 256 + qmsg.getD 1 0 ∧
      st1.send_calls = st.send_calls ++ [(U, set_header_id qmsg P)] ∧
      Requests.Find st1.requests P = some request ∧
      request.upstream_fd = U ∧ request.client = client ∧
      request.question = question ∧ request.original_query_id = x ∧
      ∀ (st2 : Proxy) (renv : Proxy.ResponseEnv) (resp : List Nat),
        Requests.Find st2.requests P = some request →
        renv.received = some resp →
        parse_message resp = some (P, question) →
        header_qr resp = true →
        (∀ b3 st3, Proxy.return_response cfg U renv st2 = some (b3, st3) →
          st3.sendto_calls
            = st2.sendto_calls ++ [(client, set_header_id resp x)] ∧
          (set_header_id resp x).length = resp.length ∧
          (set_header_id resp x).drop 2 = resp.drop 2 ∧
          (set_header_id resp x).take 2
            = [qmsg.getD 0 0, qmsg.getD 1 0] ∧
          Requests.Find st3.requests P = none) ∧
        (st2 = st1 → st.requests.WF →
          (cfg.REQUEST_TIMEOUT ≠ 0 → Corresponds st.requests) →
          (∀ e ∈ st.sockets.available, e.2.outstanding < 4294967295) →
          ∃ b3 st3,
            Proxy.return_response cfg U renv st2 = some (b3, st3)) := by
  rcases forward_query_cases cfg pcfg fenv st st1 b hfwd with
    hs | ⟨P, msg, client', x, question, U, sockets1, hget, hrecv', hparse,
      hqr, hsock, hcase⟩
  · exact absurd (by rw [hs]) hrec
  rw [hrecv] at hrecv'
  simp only [Option.some.injEq, Prod.mk.injEq] at hrecv'
  obtain ⟨hm, hc⟩ := hrecv'
  subst hm hc
  rcases hcase with ⟨_, hs⟩ | ⟨_, sockets2, requests2, huput, hput, hs⟩
  · exact absurd (by rw [hs]) hrec
  obtain ⟨hx, hlen⟩ := parse_message_some qmsg x question hparse
  obtain ⟨hP, _, _⟩ := Get_query_id_some cfg st.requests fenv.nth P hget
  have hb0 := getD_lt_of_bytes qmsg 0 hbytes
  have hb1 := getD_lt_of_bytes qmsg 1 hbytes
  have hxval : x = qmsg.getD 0 0 * 256 + qmsg.getD 1 0 := hx
  have hxlt : x < 65536 := by omega
  have hrecord := (Put_records _ _ _ _ _ _ _ _ _ hput).1
  refine ⟨x, question, P, U, _, hparse, hqr, hxval, by rw [hs],
    by rw [hs]; exact hrecord, rfl, rfl, rfl, rfl, ?_⟩
  intro st2 renv resp hfind2 hrrecv hrparse hrqr
  have hacc := return_response_accepted cfg U renv st2 resp P question _
    hrrecv hrparse hrqr hfind2 rfl rfl
  have hrlen := (parse_message_some resp P question hrparse).2
  constructor
  · intro b3 st3 h3
    rw [hacc] at h3
    split at h3
    · simp at h3
    next sockets3 _ =>
      split at h3
      · simp at h3
      next requests3 hdone =>
        simp only [Option.some.injEq, Prod.mk.injEq] at h3
        rw [← h3.2]
        refine ⟨rfl, length_set_header_id resp x (by omega),
          drop_set_header_id resp x, ?_, ?_⟩
        · rw [take_set_header_id resp x hxlt, hxval]
          have h1 : (qmsg.getD 0 0 * 256 + qmsg.getD 1 0) / 256
              = qmsg.getD 0 0 := by omega
          have h2 : (qmsg.getD 0 0 * 256 + qmsg.getD 1 0) % 256
              = qmsg.getD 1 0 := by omega
          rw [h1, h2]
        · obtain ⟨_, hreq, _, _⟩ := Done_some _ _ _ _ _ _ hdone
          simp only [Requests.Find]
          rw [hreq, map_find_erase]
          simp
  · intro hst hwf hcorr hcount
    subst hst
    rw [hacc, hs]
    simp only
    obtain ⟨socket, hsfind, hsc⟩ :=
      Upstream_Get_found pcfg fenv.socket_env st.sockets sockets1 U hcount
        hsock
    obtain ⟨sockets3, hdone3⟩ :=
      Upstream_Done_after_Put pcfg U sockets1 sockets2 socket hsfind hsc
        huput
    have hwf2 : requests2.WF := WF_Put _ _ _ _ _ _ _ _ _ hP hwf hput
    have hcorr2 : cfg.REQUEST_TIMEOUT ≠ 0 → Corresponds requests2 :=
      fun hrt => Corresponds_Put _ _ _ _ _ _ _ _ _ (by omega) hwf
        (hcorr hrt) hput
    obtain ⟨requests3, hrdone3⟩ :=
      Done_total cfg renv.done_env P _ requests2 hrecord hwf2 hcorr2
    rw [hdone3]
    simp only
    rw [hrdone3]
    exact ⟨_, _, rfl⟩

theorem C14_round_trip_witness :
    Proxy.forward_query example_config example_pool_config
      example_forward_env Proxy.init = some (true, proxy_in_flight) ∧
    Proxy.return_response example_config 5
      (example_response_env example_response) proxy_in_flight
      = some (true, proxy_answered) ∧
    proxy_answered.sendto_calls
      = [((2130706433, 40000),
          [18, 52, 129, 128, 0, 1, 0, 1, 0, 0, 0, 0,
            7, 101, 120, 97, 109, 112, 108, 101, 3, 99, 111, 109, 0,
            0, 1, 0, 1, 192, 12, 0, 1, 0, 1, 0, 0, 14, 16, 0, 4,
            93, 184, 216, 34])] ∧
    ∃ x question P U request,
      parse_message example_query = some (x, question) ∧
      header_qr example_query = false ∧
      x = example_query.getD 0 0 * 256 + example_query.getD 1 0 ∧
      proxy_in_flight.send_calls
        = Proxy.init.send_calls ++ [(U, set_header_id example_query P)] ∧
      Requests.Find proxy_in_flight.requests P = some request ∧
      request.upstream_fd = U ∧ request.client = (2130706433, 40000) ∧
      request.question = question ∧ request.original_query_id = x ∧
      ∀ (st2 : Proxy) (renv : Proxy.ResponseEnv) (resp : List Nat),
        Requests.Find st2.requests P = some request →
        renv.received = some resp →
        parse_message resp = some (P, question) →
        header_qr resp = true →
        (∀ b3 st3, Proxy.return_response example_config U renv st2
            = some (b3, st3) →
          st3.sendto_calls
            = st2.sendto_calls
              ++ [((2130706433, 40000), set_header_id resp x)] ∧
          (set_header_id resp x).length = resp.length ∧
          (set_header_id resp x).drop 2 = resp.drop 2 ∧
          (set_header_id resp x).take 2
            = [example_query.getD 0 0, example_query.getD 1 0] ∧
          Requests.Find st3.requests P = none) ∧
        (st2 = proxy_in_flight → Proxy.init.requests.WF →
          (example_config.REQUEST_TIMEOUT ≠ 0 →
            Corresponds Proxy.init.requests) →
          (∀ e ∈ Proxy.init.sockets.available,
            e.2.outstanding < 4294967295) →
          ∃ b3 st3, Proxy.return_response example_config U renv st2
            = some (b3, st3)) :=
  ⟨by decide, by decide, by decide,
   C14_round_trip example_config example_pool_config example_forward_env
     Proxy.init proxy_in_flight true example_query (2130706433, 40000) rfl
     (by decide) (by decide) (by decide)⟩

/-! ## The bound on the outstanding requests -/

theorem length_map_emplace (m : List (Nat × request_st)) (q : Nat)
    (r : request_st) (h : (map_emplace m q r).2 = true) :
    (map_emplace m q r).1.length = m.length + 1 := by
  induction m with
  | nil => simp [map_emplace]
  | cons e rest ih =>
    obtain ⟨k, v⟩ := e
    unfold map_emplace at h ⊢
    by_cases h1 : q < k
    · simp [h1]
    · by_cases h2 : q = k
      · simp [h1, h2] at h
      · simp only [h1, h2, if_false] at h ⊢
        simp only [List.length_cons, ih h]

theorem Gc_loop_sublist (now : Nat) : ∀ (exps : List (Nat × Nat))
    (s : Requests) (calls : List (Nat × request_st)) (upd : Bool)
    (s1 : Requests) (calls1 : List (Nat × request_st)) (upd1 : Bool),
    Requests.Gc_loop now exps s calls upd = some (s1, calls1, upd1) →
    s1.requests.Sublist s.requests ∧ s1.expirations.Sublist exps := by
  intro exps
  induction exps with
  | nil =>
    intro s calls upd s1 calls1 upd1 h
    simp only [Requests.Gc_loop, Option.some.injEq, Prod.mk.injEq] at h
    rw [← h.1]
    exact ⟨List.Sublist.refl _, List.Sublist.refl _⟩
  | cons p rest ih =>
    intro s calls upd s1 calls1 upd1 h
    unfold Requests.Gc_loop at h
    by_cases hp : p.1 ≤ now
    · rw [if_pos hp] at h
      split at h
      · simp at h
      next o ho =>
        obtain ⟨h1, h2⟩ := ih _ _ _ _ _ _ h
        exact ⟨h1.trans (List.filter_sublist _), h2.trans
          (List.sublist_cons_self _ _)⟩
    · rw [if_neg hp] at h
      simp only [Option.some.injEq, Prod.mk.injEq] at h
      rw [← h.1]
      exact ⟨List.Sublist.refl _, List.Sublist.refl _⟩

theorem Gc_sublist (cfg : Config) (env : Env) (s s' : Requests)
    (calls : List (Nat × request_st))
    (h : Requests.Gc cfg env s = some (s', calls)) :
    s'.requests.Sublist s.requests
      ∧ s'.expirations.Sublist s.expirations := by
  unfold Requests.Gc at h
  split_ifs at h with h1
  split at h
  · simp at h
  next sl callsl upd hloop =>
    have hsub := Gc_loop_sublist _ _ _ _ _ _ _ _ hloop
    by_cases hu : upd = true
    · rw [if_pos hu] at h
      split at h
      · simp at h
      next s2 h2 =>
        simp only [Option.some.injEq, Prod.mk.injEq] at h
        have hf := update_gc_timer_frame _ _ _ _ h2
        rw [← h.1, hf.1, hf.2]
        exact hsub
    · rw [if_neg hu] at h
      simp only [Option.some.injEq, Prod.mk.injEq] at h
      rw [← h.1]
      exact hsub

theorem WF_of_sublist (s s' : Requests) (hwf : s.WF)
    (h1 : s'.requests.Sublist s.requests)
    (h2 : s'.expirations.Sublist s.expirations) : s'.WF := by
  have hk : s'.keys.Sublist s.keys := h1.map Prod.fst
  exact ⟨hwf.1.sublist hk, fun k hk' => hwf.2.1 k (hk.subset hk'),
    hwf.2.2.1.sublist h2, fun p hp => hwf.2.2.2 p (h2.subset hp)⟩

theorem bounded_Run_step (cfg : Config) (pcfg : PoolConfig)
    (e : Proxy.Event) (st st' : Proxy)
    (hinv : st.requests.WF ∧ (0 < cfg.MAX_OUTSTANDING_REQUESTS →
      st.requests.requests.length ≤ cfg.MAX_OUTSTANDING_REQUESTS))
    (h : Proxy.Run_step cfg pcfg e st = some st') :
    st'.requests.WF ∧ (0 < cfg.MAX_OUTSTANDING_REQUESTS →
      st'.requests.requests.length ≤ cfg.MAX_OUTSTANDING_REQUESTS) := by
  obtain ⟨hwf, hlen⟩ := hinv
  cases e with
  | client env =>
    simp only [Proxy.Run_step] at h
    split at h
    · simp at h
    next b st1 hfq =>
      simp only [Option.some.injEq] at h
      subst h
      rcases forward_query_cases cfg pcfg env st st1 b hfq with
        hs | ⟨P, msg, client, x, question, U, sockets1, hget, _, _, _, _,
          hcase⟩
      · rw [hs]
        exact ⟨hwf, hlen⟩
      · rcases hcase with ⟨_, hs⟩ | ⟨_, sockets2, requests2, _, hput, hs⟩
        · rw [hs]
          exact ⟨hwf, hlen⟩
        · rw [hs]
          obtain ⟨hP, hsat, _⟩ := Get_query_id_some cfg st.requests env.nth
            P hget
          obtain ⟨hins, hreq, _⟩ := Put_some _ _ _ _ _ _ _ _ _ hput
          refine ⟨WF_Put _ _ _ _ _ _ _ _ _ hP hwf hput, ?_⟩
          intro hM
          simp only
          rw [hreq, length_map_emplace _ _ _ hins]
          rcases hsat with h0 | hlt
          · omega
          · omega
  | timer read_ok env =>
    simp only [Proxy.Run_step, Proxy.on_timer] at h
    split_ifs at h with hread
    · simp only [Option.some.injEq] at h
      rw [← h]
      exact ⟨hwf, hlen⟩
    · split at h
      · simp at h
      next requests1 calls hgc =>
        split at h
        · simp at h
        next sockets1 _ =>
          simp only [Option.some.injEq] at h
          rw [← h]
          obtain ⟨h1, h2⟩ := Gc_sublist _ _ _ _ _ hgc
          refine ⟨WF_of_sublist _ _ hwf h1 h2, ?_⟩
          intro hM
          have := h1.length_le
          have := hlen hM
          simp only
          omega
  | upstream fd env =>
    simp only [Proxy.Run_step] at h
    split at h
    · simp at h
    next b st1 hrr =>
      simp only [Option.some.injEq] at h
      subst h
      rcases return_response_cases cfg fd env st st1 b hrr with
        hs | ⟨msg, _, _, request, sockets1, requests1, _, _, _, _, _, _, _,
          hdone, hs⟩
      · rw [hs]
        exact ⟨hwf, hlen⟩
      · rw [hs]
        obtain ⟨_, hreq, _, _⟩ := Done_some _ _ _ _ _ _ hdone
        refine ⟨WF_Done _ _ _ _ _ _ hwf hdone, ?_⟩
        intro hM
        simp only
        rw [hreq]
        have := List.length_filter_le
          (fun e : Nat × request_st => decide (e.1 ≠ ntohs_field msg 0))
          st.requests.requests
        have := hlen hM
        simp only [map_erase]
        omega

theorem bounded_Run (cfg : Config) (pcfg : PoolConfig) :
    ∀ (events : List Proxy.Event) (st st' : Proxy),
    (st.requests.WF ∧ (0 < cfg.MAX_OUTSTANDING_REQUESTS →
      st.requests.requests.length ≤ cfg.MAX_OUTSTANDING_REQUESTS)) →
    Proxy.Run cfg pcfg events st = some st' →
    st'.requests.WF ∧ (0 < cfg.MAX_OUTSTANDING_REQUESTS →
      st'.requests.requests.length ≤ cfg.MAX_OUTSTANDING_REQUESTS) := by
  intro events
  induction events with
  | nil =>
    intro st st' hinv h
    simp only [Proxy.Run, Option.some.injEq] at h
    exact h ▸ hinv
  | cons e es ih =>
    intro st st' hinv h
    simp only [Proxy.Run] at h
    split at h
    · simp at h
    next st1 hstep =>
      exact ih st1 st' (bounded_Run_step cfg pcfg e st st1 hinv hstep) h

/-- The bound on the primary mapping: in every proxy state reached from the
initial state through `forward_query`, `return_response` and the `Gc` driven
by the timer, the primary mapping has at most `MAX_OUTSTANDING_REQUESTS`
entries when that bound is non-zero, and at most 65536 entries in any case;
with `M > 0` and `M` requests in flight `forward_query` returns true and
leaves the whole state as it was (no ID is allocated, nothing is recorded);
and with fewer than `M` in flight (and fewer than 65536), `Get_query_id`
allocates a free ID for every draw in its range, and a `forward_query` that
sends the query successfully and returns, which it does not in every case,
has recorded it under this ID, the mapping growing by one. -/
theorem outstanding_requests_bounded (cfg : Config) (pcfg : PoolConfig)
    (events : List Proxy.Event) (st : Proxy)
    (h : Proxy.Run cfg pcfg events Proxy.init = some st) :
    (0 < cfg.MAX_OUTSTANDING_REQUESTS →
      st.requests.requests.length ≤ cfg.MAX_OUTSTANDING_REQUESTS) ∧
    st.requests.requests.length ≤ 65536 ∧
    (0 < cfg.MAX_OUTSTANDING_REQUESTS →
      st.requests.requests.length = cfg.MAX_OUTSTANDING_REQUESTS →
      ∀ env, Proxy.forward_query cfg pcfg env st = some (true, st)) ∧
    (st.requests.requests.length < cfg.MAX_OUTSTANDING_REQUESTS →
      st.requests.requests.length < 65536 →
      ∀ env : Proxy.ForwardEnv,
        env.nth ≤ 65535 - st.requests.requests.length →
        ∃ id, Requests.Get_query_id cfg st.requests env.nth
            = some (some id) ∧
          Requests.Find st.requests id = none ∧
          ∀ b st', Proxy.forward_query cfg pcfg env st = some (b, st') →
            env.send_ok = true → st'.send_calls ≠ st.send_calls →
            (∃ request, Requests.Find st'.requests id = some request) ∧
            st'.requests.requests.length
              = st.requests.requests.length + 1) := by
  obtain ⟨hwf, hlen⟩ := bounded_Run cfg pcfg events Proxy.init st
    ⟨init_WF, fun _ => by simp [Proxy.init, Requests.init]⟩ h
  refine ⟨hlen, size_le_of_WF _ hwf, ?_, ?_⟩
  · intro hM hfull env
    unfold Proxy.forward_query
    have hsat : Requests.Get_query_id cfg st.requests env.nth
        = some none := by
      unfold Requests.Get_query_id
      rw [if_pos ⟨by omega, by omega⟩]
    rw [hsat]
  · intro hlt h16 env hk
    obtain ⟨id, hfree, hid, hnot, hrank⟩ :=
      nth_free_spec st.requests env.nth hwf h16 hk
    have hg := Get_query_id_spec cfg st.requests env.nth id hwf
      (Or.inr hlt) h16 hfree hid hnot hrank
    refine ⟨id, hg, (map_find_eq_none_iff _ _).2 hnot, ?_⟩
    intro b st' hfq hok hsent
    rcases forward_query_cases cfg pcfg env st st' b hfq with
      hs | ⟨P, msg, client, x, question, U, sockets1, hget, _, _, _, _,
        hcase⟩
    · exact absurd (by rw [hs]) hsent
    · rw [hg] at hget
      have hP : id = P := by
        simpa using hget
      subst hP
      rcases hcase with ⟨hfail, _⟩ | ⟨_, sockets2, requests2, _, hput, hs⟩
      · rw [hok] at hfail
        simp at hfail
      · rw [hs]
        obtain ⟨hins, hreq, _⟩ := Put_some _ _ _ _ _ _ _ _ _ hput
        refine ⟨⟨_, (Put_records _ _ _ _ _ _ _ _ _ hput).1⟩, ?_⟩
        simp only
        rw [hreq, length_map_emplace _ _ _ hins]

theorem outstanding_requests_bounded_example :
    (Proxy.Run example_config_max2 example_pool_config
        (saturation_events ++ [.client example_forward_env_3])
        Proxy.init).map
        (fun st => (st.requests.keys, st.send_calls.length))
      = some ([100, 43981], 2) ∧
    (Proxy.Run example_config_max2 example_pool_config
        (saturation_events ++ [.client example_forward_env_3,
          .upstream 5 (example_response_env example_response),
          .client example_forward_env_3])
        Proxy.init).map
        (fun st => (st.requests.keys, st.send_calls.length))
      = some ([7, 100], 3) ∧
    ((0 < example_config_max2.MAX_OUTSTANDING_REQUESTS →
      proxy_saturated.requests.requests.length
        ≤ example_config_max2.MAX_OUTSTANDING_REQUESTS) ∧
    proxy_saturated.requests.requests.length ≤ 65536 ∧
    (0 < example_config_max2.MAX_OUTSTANDING_REQUESTS →
      proxy_saturated.requests.requests.length
        = example_config_max2.MAX_OUTSTANDING_REQUESTS →
      ∀ env, Proxy.forward_query example_config_max2 example_pool_config
        env proxy_saturated = some (true, proxy_saturated))) :=
  ⟨by decide, by decide,
   (outstanding_requests_bounded example_config_max2
     example_pool_config saturation_events proxy_saturated (by decide)).1,
   (outstanding_requests_bounded example_config_max2
     example_pool_config saturation_events proxy_saturated (by decide)).2.1,
   (outstanding_requests_bounded example_config_max2
     example_pool_config saturation_events proxy_saturated
     (by decide)).2.2.1⟩

/-- C17: with `MAX_OUTSTANDING_REQUESTS = 2`, two queries are forwarded at
the clock readings 0 and 1000 ns and the first one is completed at 1000 ns,
with fresh sockets throughout; one request is then in flight, fewer than the
bound.  For the next valid query, read at the same clock reading 1000 ns with
a successful `send`, `Get_query_id` allocates the free ID 7 for the draw 7,
its pair (15000001000, 7) is inserted in front of the pair of the request
100, and `forward_query` aborts in `Requests::Put` on
`assert(++i == this->expirations.end())`: the query is not recorded and the
event loop does not go on.  At the reading 1001 ns the same query is
recorded under the ID 7, the mapping growing to 2 entries. -/
theorem C17_next_query_aborts_on_equal_readings :
    Proxy.Run example_config_max2 example_pool_config completion_events
      Proxy.init = some proxy_one_completed ∧
    Proxy.creation_fresh_along example_config_max2 example_pool_config
      (completion_events ++ [.client example_forward_env_3_tie])
      Proxy.init = true ∧
    proxy_one_completed.requests.requests.length = 1 ∧
    Requests.Get_query_id example_config_max2
      proxy_one_completed.requests example_forward_env_3_tie.nth
      = some (some 7) ∧
    set_emplace proxy_one_completed.requests.expirations (15000001000, 7)
      = [(15000001000, 7), (15000001000, 100)] ∧
    Proxy.forward_query example_config_max2 example_pool_config
      example_forward_env_3_tie proxy_one_completed = none ∧
    Proxy.Run example_config_max2 example_pool_config
      (completion_events ++ [.client example_forward_env_3_tie])
      Proxy.init = none ∧
    (Proxy.forward_query example_config_max2 example_pool_config
        example_forward_env_3_later proxy_one_completed).map
        (fun r => r.2.requests.keys)
      = some [7, 100] := by
  refine ⟨by decide, by decide, by decide, by decide, by decide, by decide,
    by decide, by decide⟩

/-! ## The bound on the iterations of `parse_qname` -/

theorem parse_qname_fuel : ∀ (fuel₁ fuel₂ : Nat) (p : List Nat),
    p.length < fuel₁ → p.length < fuel₂ →
    parse_qname fuel₁ p = parse_qname fuel₂ p := by
  intro fuel₁
  induction fuel₁ with
  | zero =>
    intro fuel₂ p h1 _
    omega
  | succ n ih =>
    intro fuel₂ p h1 h2
    cases fuel₂ with
    | zero => omega
    | succ m =>
      unfold parse_qname
      by_cases hlen : p.length < 1
      · rw [if_pos hlen, if_pos hlen]
      · rw [if_neg hlen, if_neg hlen]
        simp only
        by_cases h0 : p.headD 0 = 0
        · rw [if_pos h0, if_pos h0]
        · rw [if_neg h0, if_neg h0]
          by_cases hl : p.tail.length < p.headD 0
          · rw [if_pos hl, if_pos hl]
          · rw [if_neg hl, if_neg hl]
            have hdrop : (p.tail.drop (p.headD 0)).length < p.length := by
              simp only [List.length_drop, List.length_tail]
              omega
            exact ih m _ (by omega) (by omega)

/-! ## Claims on the retiring sockets -/

theorem Upstream_retiring_step (pcfg : PoolConfig) (c : Upstream.Call)
    (s s' : Upstream)
    (hP : (∀ e ∈ s.end_of_life, e.2 ≥ 1) ∧
      (pcfg.MAX_PORT_LIFETIME ≠ 0 → pcfg.MAX_PORT_LIFETIME < 4294967296 →
        ∀ e ∈ s.available, e.2.outstanding ≤ e.2.lifetime ∧
          e.2.lifetime < pcfg.MAX_PORT_LIFETIME))
    (h : Upstream.step pcfg c s = some s') :
    (∀ e ∈ s'.end_of_life, e.2 ≥ 1) ∧
      (pcfg.MAX_PORT_LIFETIME ≠ 0 → pcfg.MAX_PORT_LIFETIME < 4294967296 →
        ∀ e ∈ s'.available, e.2.outstanding ≤ e.2.lifetime ∧
          e.2.lifetime < pcfg.MAX_PORT_LIFETIME) := by
  obtain ⟨hE, hA⟩ := hP
  cases c with
  | get env =>
    simp only [Upstream.step] at h
    split at h
    · simp at h
    next r s1 hget =>
      simp only [Option.some.injEq] at h
      subst h
      rcases Upstream_Get_cases pcfg env s s1 r hget with
        ⟨hs, _⟩ | ⟨_, _, _, _, hs⟩
      · rw [hs]
        exact ⟨hE, hA⟩
      · rw [hs]
        refine ⟨hE, ?_⟩
        intro h0 h32 e he
        rcases List.mem_cons.1 he with hm | hm
        · rw [hm]
          simp only
          omega
        · exact hA h0 h32 e hm
  | put sfd =>
    simp only [Upstream.step] at h
    obtain ⟨socket, hfind, hcase⟩ := Upstream_Put_cases pcfg sfd s s' h
    have hmem := umap_find_mem _ _ _ hfind
    rcases hcase with ⟨h0, hs⟩ | ⟨_, hlt, hs⟩ | ⟨h0, hge, _, hs⟩
    · rw [hs]
      exact ⟨hE, fun hne => absurd h0 hne⟩
    · rw [hs]
      refine ⟨hE, ?_⟩
      intro h0 h32 e he
      rcases mem_umap_assign _ _ _ _ he with hm | hm
      · exact hA h0 h32 e hm
      · rw [hm]
        have := hA h0 h32 _ hmem
        simp only at this ⊢
        omega
    · have h32 : pcfg.MAX_PORT_LIFETIME < 4294967296 := by omega
      have := hA h0 h32 _ hmem
      simp only at this
      rw [hs]
      refine ⟨?_, ?_⟩
      · intro e he
        rcases List.mem_cons.1 he with hm | hm
        · rw [hm]
          simp only
          omega
        · exact hE e hm
      · intro _ _ e he
        exact hA h0 h32 e (List.mem_filter.1 he).1
  | done sfd =>
    simp only [Upstream.step] at h
    rcases Upstream_Done_cases sfd s s' h with
      ⟨socket, hfind, _, hs⟩ | ⟨_, o, _, _, ⟨_, hs⟩ | ⟨hne, hs⟩⟩
    · rw [hs]
      refine ⟨hE, ?_⟩
      intro h0 h32 e he
      rcases mem_umap_assign _ _ _ _ he with hm | hm
      · exact hA h0 h32 e hm
      · rw [hm]
        have := hA h0 h32 _ (umap_find_mem _ _ _ hfind)
        simp only at this ⊢
        omega
    · rw [hs]
      exact ⟨fun e he => hE e (List.mem_filter.1 he).1, hA⟩
    · rw [hs]
      refine ⟨?_, hA⟩
      intro e he
      rcases mem_umap_assign _ _ _ _ he with hm | hm
      · exact hE e hm
      · rw [hm]
        simp only
        omega

theorem Upstream_retiring_run (pcfg : PoolConfig)
    (calls : List Upstream.Call) (s : Upstream)
    (h : Upstream.run pcfg calls Upstream.init = some s) :
    (∀ e ∈ s.end_of_life, e.2 ≥ 1) ∧
      (pcfg.MAX_PORT_LIFETIME ≠ 0 → pcfg.MAX_PORT_LIFETIME < 4294967296 →
        ∀ e ∈ s.available, e.2.outstanding ≤ e.2.lifetime ∧
          e.2.lifetime < pcfg.MAX_PORT_LIFETIME) :=
  Upstream_run_invariant_any pcfg
    (fun s => (∀ e ∈ s.end_of_life, e.2 ≥ 1) ∧
      (pcfg.MAX_PORT_LIFETIME ≠ 0 → pcfg.MAX_PORT_LIFETIME < 4294967296 →
        ∀ e ∈ s.available, e.2.outstanding ≤ e.2.lifetime ∧
          e.2.lifetime < pcfg.MAX_PORT_LIFETIME))
    (fun c s s' hP hs => Upstream_retiring_step pcfg c s s' hP hs)
    calls Upstream.init s (by simp [Upstream.init]) h

/-- C21: in every pool state reached from the empty pool by calls of `Get`,
`Put` and `Done` (a `Done` on a socket without an outstanding forward
aborts), every entry of `end_of_life` has a count of at least 1; a `Put`
closes nothing and either leaves `end_of_life` as it is or adds its socket
there with the count it has just incremented, which is the former count plus
one without a wrap; and a `Done` closes its socket, and removes it from
`end_of_life`, exactly when the socket is not in `available` and its count in
`end_of_life` is 1, so that the call brings it to 0; in every other case
`Done` closes nothing and keeps the keys of `end_of_life`. -/
theorem C21_retiring_sockets_outstanding (pcfg : PoolConfig)
    (calls : List Upstream.Call) (s : Upstream)
    (h : Upstream.run pcfg calls Upstream.init = some s) :
    (∀ e ∈ s.end_of_life, e.2 ≥ 1) ∧
    (∀ sfd s' socket, umap_find s.available sfd = some socket →
      Upstream.Put pcfg sfd s = some s' →
      s'.closed = s.closed ∧
      (s'.end_of_life = s.end_of_life ∨
        (socket.outstanding + 1 < 4294967296 ∧
         s'.end_of_life
          = (sfd, socket.outstanding + 1) :: s.end_of_life))) ∧
    (∀ sfd s', Upstream.Done sfd s = some s' →
      (umap_find s.available sfd = none ∧
        umap_find s.end_of_life sfd = some 1 ∧
        s'.closed = s.closed ++ [sfd] ∧
        sfd ∉ s'.end_of_life.map Prod.fst) ∨
      (¬ (umap_find s.available sfd = none ∧
          umap_find s.end_of_life sfd = some 1) ∧
        s'.closed = s.closed ∧
        s'.end_of_life.map Prod.fst = s.end_of_life.map Prod.fst)) := by
  obtain ⟨hE, hA⟩ := Upstream_retiring_run pcfg calls s h
  refine ⟨hE, ?_, ?_⟩
  · intro sfd s' socket hfind hput
    obtain ⟨socket', hfind', hcase⟩ := Upstream_Put_cases pcfg sfd s s' hput
    rw [hfind] at hfind'
    have hsock : socket = socket' := Option.some.inj hfind'
    subst hsock
    rcases hcase with ⟨_, hs⟩ | ⟨_, _, hs⟩ | ⟨h0, hge, _, hs⟩
    · rw [hs]
      exact ⟨rfl, Or.inl rfl⟩
    · rw [hs]
      exact ⟨rfl, Or.inl rfl⟩
    · have h32 : pcfg.MAX_PORT_LIFETIME < 4294967296 := by omega
      have := hA h0 h32 _ (umap_find_mem _ _ _ hfind)
      simp only at this
      have hlt : socket.outstanding + 1 < 4294967296 := by omega
      rw [hs]
      refine ⟨rfl, Or.inr ⟨hlt, ?_⟩⟩
      simp only
      rw [Nat.mod_eq_of_lt hlt]
  · intro sfd s' hdone
    rcases Upstream_Done_cases sfd s s' hdone with
      ⟨socket, hfind, _, hs⟩ | ⟨hnone, o, hfo, hpos, ⟨hz, hs⟩ | ⟨hnz, hs⟩⟩
    · right
      rw [hs]
      refine ⟨?_, rfl, rfl⟩
      intro hboth
      rw [hfind] at hboth
      simp at hboth
    · left
      have ho : o = 1 := by omega
      rw [hs]
      refine ⟨hnone, by rw [hfo, ho], rfl, ?_⟩
      intro hmem
      exact ((mem_keys_umap_erase _ _ _).1 hmem).2 rfl
    · right
      rw [hs]
      refine ⟨?_, rfl, ?_⟩
      · intro hboth
        rw [hfo] at hboth
        have := Option.some.inj hboth.2
        omega
      · simp only
        exact keys_umap_assign _ _ _

theorem C21_retiring_sockets_outstanding_witness :
    Upstream.run example_pool_config example_pool_calls Upstream.init
      = some example_pool ∧
    (∀ e ∈ example_pool.end_of_life, e.2 ≥ 1) :=
  ⟨by decide,
   (C21_retiring_sockets_outstanding example_pool_config example_pool_calls
     example_pool (by decide)).1⟩

/-! ## The lifetime counter without a limit, and equal clock readings -/

/-- C22: with `MAX_PORT_LIFETIME = 0` a `Put` increments `outstanding` and
leaves `lifetime` as it is: after the creation of the socket 5 and two
forwards through it, the record of the socket holds `outstanding = 2` and
`lifetime = 0`, while with `MAX_PORT_LIFETIME = 3` the same calls give
`outstanding = 2` and `lifetime = 2`. -/
theorem C22_lifetime_not_counted_without_limit :
    Upstream.run example_pool_config_no_limit
        example_pool_calls_two_forwards Upstream.init
      = some { available := [(5, { outstanding := 2, lifetime := 0 })],
               end_of_life := [], closed := [] } ∧
    Upstream.run { MAX_PORTS := 0, MAX_PORT_LIFETIME := 3 }
        example_pool_calls_two_forwards Upstream.init
      = some { available := [(5, { outstanding := 2, lifetime := 2 })],
               end_of_life := [], closed := [] } := by
  constructor <;> decide

/-- C29: two requests recorded at the same clock reading: after the request
5 has been recorded at 10 ns, the ID 2 is absent, its pair (15000000010, 2)
is inserted in front of the pair of the request 5, and `Put` aborts on
`assert(++i == this->expirations.end())`; the event loop aborts likewise on
two client queries forwarded at the same clock reading when the second
proxied ID is the smaller one, and does not when the second reading is
later. -/
theorem C29_newest_assertion_fails_on_equal_readings :
    Requests.run example_config [example_put 10 5] Requests.init
      = some table_5 ∧
    map_find table_5.requests 2 = none ∧
    set_emplace table_5.expirations (15000000010, 2)
      = [(15000000010, 2), (15000000010, 5)] ∧
    Requests.run example_config [example_put 10 2] table_5 = none ∧
    Requests.run example_config [example_put 11 2] table_5 ≠ none ∧
    Proxy.Run example_config example_pool_config
      [.client example_forward_env, .client example_forward_env_tie]
      Proxy.init = none ∧
    Proxy.Run example_config example_pool_config
      [.client example_forward_env, .client example_forward_env_2]
      Proxy.init = some proxy_saturated := by
  refine ⟨by decide, by decide, by decide, by decide, by decide, by decide,
    by decide⟩

/-! ## Claim on the result of `Get` -/

theorem open_new_port_eq_false_iff (pcfg : PoolConfig) (s : Upstream) :
    Upstream.open_new_port pcfg s = false ↔
      pcfg.MAX_PORTS > 0 ∧
        s.available.length + s.end_of_life.length ≥ pcfg.MAX_PORTS := by
  unfold Upstream.open_new_port
  simp only [decide_eq_false_iff_not]
  omega

theorem Upstream_disjoint_run (pcfg : PoolConfig)
    (calls : List Upstream.Call) (s : Upstream)
    (hfresh : Upstream.creation_fresh_along pcfg calls Upstream.init = true)
    (h : Upstream.run pcfg calls Upstream.init = some s) :
    ∀ sfd, sfd ∈ s.available.map Prod.fst →
      sfd ∉ s.end_of_life.map Prod.fst :=
  Upstream_run_invariant pcfg
    (fun s => ∀ sfd, sfd ∈ s.available.map Prod.fst →
      sfd ∉ s.end_of_life.map Prod.fst)
    (fun c s s' hP hf hs => Upstream_disjoint_step pcfg c s s' hP hf hs)
    calls Upstream.init s (by simp [Upstream.init]) hfresh h

/-- C24: in a pool state reached from the empty pool, when socket creation
returns identifiers the pool does not hold and the random draw is at most
`available.size() - 1`, `Get` returns; it returns no socket if and only if
`available` is empty and either there is no headroom (`MAX_PORTS > 0` and the
two maps together hold at least `MAX_PORTS` sockets) or socket creation
failed; with headroom and a successful creation it returns the new socket,
inserted in `available` with `outstanding = 0` and `lifetime = 0`; and in
every case a returned socket is a key of `available` after the call and not a
key of `end_of_life`. -/
theorem C24_Get_returns_no_socket_iff (pcfg : PoolConfig)
    (calls : List Upstream.Call) (s : Upstream) (env : Upstream.Env)
    (hfresh : Upstream.creation_fresh_along pcfg calls Upstream.init = true)
    (hrun : Upstream.run pcfg calls Upstream.init = some s)
    (hnew : Upstream.creation_fresh pcfg env s)
    (hdraw : env.n ≤ s.available.length - 1) :
    ∃ r s', Upstream.Get pcfg env s = some (r, s') ∧
      (r = none ↔
        s.available = [] ∧
          ((pcfg.MAX_PORTS > 0 ∧
            s.available.length + s.end_of_life.length ≥ pcfg.MAX_PORTS)
           ∨ env.new_socket < 0)) ∧
      (¬ (pcfg.MAX_PORTS > 0 ∧
          s.available.length + s.end_of_life.length ≥ pcfg.MAX_PORTS) →
        env.new_socket ≥ 0 →
        r = some env.new_socket ∧
        s'.available
          = (env.new_socket, { outstanding := 0, lifetime := 0 })
              :: s.available ∧
        s'.end_of_life = s.end_of_life) ∧
      (∀ fd, r = some fd →
        fd ∈ s'.available.map Prod.fst ∧
        fd ∉ s'.end_of_life.map Prod.fst) := by
  have hdisj := Upstream_disjoint_run pcfg calls s hfresh hrun
  have hroom := open_new_port_eq_false_iff pcfg s
  by_cases hopen : Upstream.open_new_port pcfg s = true
  · have hhead : ¬ (pcfg.MAX_PORTS > 0 ∧
        s.available.length + s.end_of_life.length ≥ pcfg.MAX_PORTS) := by
      intro hno
      rw [hroom.2 hno] at hopen
      simp at hopen
    by_cases hge : env.new_socket ≥ 0
    · have hnot := hnew hopen hge
      have hfind : umap_find s.available env.new_socket = none :=
        (umap_find_eq_none_iff _ _).2 (fun hin => hnot (Or.inl hin))
      have hget : Upstream.Get pcfg env s
          = some (some env.new_socket,
              { s with available :=
                (env.new_socket, { outstanding := 0, lifetime := 0 })
                  :: s.available }) := by
        unfold Upstream.Get
        rw [if_neg (by simp [hopen]), if_pos ⟨hopen, hge⟩]
        simp only [umap_emplace, hfind]
        simp
      refine ⟨_, _, hget, ?_, ?_, ?_⟩
      · constructor
        · intro hr
          simp at hr
        · rintro ⟨_, hno | hneg⟩
          · exact absurd hno hhead
          · omega
      · intro _ _
        exact ⟨rfl, rfl, rfl⟩
      · intro fd hfd
        have hfd' : fd = env.new_socket := (Option.some.inj hfd).symm
        rw [hfd']
        refine ⟨by simp, ?_⟩
        exact fun hin => hnot (Or.inr hin)
    · by_cases hav : s.available = []
      · have hget : Upstream.Get pcfg env s = some (none, s) := by
          unfold Upstream.Get
          rw [if_neg (by simp [hopen]), if_neg (by simp [hge]),
            if_neg (by simp [hav])]
        refine ⟨_, _, hget, ?_, ?_, ?_⟩
        · constructor
          · intro _
            exact ⟨hav, Or.inr (by omega)⟩
          · intro _
            rfl
        · intro _ hge'
          exact absurd hge' hge
        · intro fd hfd
          simp at hfd
      · have hlen : env.n < s.available.length := by
          have : 0 < s.available.length := List.length_pos.2 hav
          omega
        have hget : Upstream.Get pcfg env s
            = some (some (s.available.get ⟨env.n, hlen⟩).1, s) := by
          unfold Upstream.Get
          rw [if_neg (by simp [hopen]), if_neg (by simp [hge]),
            if_pos hav, List.get?_eq_get hlen]
        refine ⟨_, _, hget, ?_, ?_, ?_⟩
        · constructor
          · intro hr
            simp at hr
          · rintro ⟨hnil, _⟩
            exact absurd hnil hav
        · intro _ hge'
          exact absurd hge' hge
        · intro fd hfd
          have hfd' : fd = (s.available.get ⟨env.n, hlen⟩).1 :=
            (Option.some.inj hfd).symm
          have hmem : fd ∈ s.available.map Prod.fst := by
            rw [hfd']
            exact List.mem_map.2 ⟨_, List.get_mem _ _ _, rfl⟩
          exact ⟨hmem, hdisj fd hmem⟩
  · have hclosed : Upstream.open_new_port pcfg s = false := by
      simpa using hopen
    have hno := hroom.1 hclosed
    by_cases hav : s.available = []
    · have hget : Upstream.Get pcfg env s = some (none, s) := by
        unfold Upstream.Get
        rw [if_pos ⟨hclosed, hav⟩]
      refine ⟨_, _, hget, ?_, ?_, ?_⟩
      · constructor
        · intro _
          exact ⟨hav, Or.inl hno⟩
        · intro _
          rfl
      · intro hhead
        exact absurd hno hhead
      · intro fd hfd
        simp at hfd
    · have hlen : env.n < s.available.length := by
        have : 0 < s.available.length := List.length_pos.2 hav
        omega
      have hget : Upstream.Get pcfg env s
          = some (some (s.available.get ⟨env.n, hlen⟩).1, s) := by
        unfold Upstream.Get
        rw [if_neg (by simp [hav]), if_neg (by simp [hclosed]),
          if_pos hav, List.get?_eq_get hlen]
      refine ⟨_, _, hget, ?_, ?_, ?_⟩
      · constructor
        · intro hr
          simp at hr
        · rintro ⟨hnil, _⟩
          exact absurd hnil hav
      · intro hhead
        exact absurd hno hhead
      · intro fd hfd
        have hfd' : fd = (s.available.get ⟨env.n, hlen⟩).1 :=
          (Option.some.inj hfd).symm
        have hmem : fd ∈ s.available.map Prod.fst := by
          rw [hfd']
          exact List.mem_map.2 ⟨_, List.get_mem _ _ _, rfl⟩
        exact ⟨hmem, hdisj fd hmem⟩

theorem C24_Get_returns_no_socket_iff_witness :
    Upstream.run example_pool_config example_pool_calls Upstream.init
      = some example_pool ∧
    ∃ r s', Upstream.Get example_pool_config ⟨7, 0⟩ example_pool
        = some (r, s') ∧
      (r = none ↔
        example_pool.available = [] ∧
          ((example_pool_config.MAX_PORTS > 0 ∧
            example_pool.available.length
              + example_pool.end_of_life.length
              ≥ example_pool_config.MAX_PORTS)
           ∨ (7 : Int) < 0)) ∧
      (¬ (example_pool_config.MAX_PORTS > 0 ∧
          example_pool.available.length + example_pool.end_of_life.length
            ≥ example_pool_config.MAX_PORTS) →
        (7 : Int) ≥ 0 →
        r = some 7 ∧
        s'.available
          = (7, { outstanding := 0, lifetime := 0 })
              :: example_pool.available ∧
        s'.end_of_life = example_pool.end_of_life) ∧
      (∀ fd, r = some fd →
        fd ∈ s'.available.map Prod.fst ∧
        fd ∉ s'.end_of_life.map Prod.fst) :=
  ⟨by decide,
   C24_Get_returns_no_socket_iff example_pool_config example_pool_calls
     example_pool ⟨7, 0⟩ (by decide) (by decide) (by decide) (by decide)⟩

/-! ## Claim on the retirement of a socket -/

theorem umap_find_cons {β : Type} (m : List (Int × β)) (a sfd : Int)
    (u : β) :
    umap_find ((a, u) :: m) sfd
      = if a = sfd then some u else umap_find m sfd := rfl

theorem umap_find_assign {β : Type} (m : List (Int × β)) (k sfd : Int)
    (v : β) :
    umap_find (umap_assign m k v) sfd
      = if k = sfd then (umap_find m sfd).map (fun _ => v)
        else umap_find m sfd := by
  induction m with
  | nil => simp [umap_find, umap_assign]
  | cons e rest ih =>
    obtain ⟨a, u⟩ := e
    have hcons : umap_assign ((a, u) :: rest) k v
        = (if a = k then (a, v) else (a, u)) :: umap_assign rest k v :=
      rfl
    rw [hcons]
    by_cases hk : k = sfd
    · rw [if_pos hk] at ih ⊢
      by_cases ha : a = k
      · rw [if_pos ha]
        unfold umap_find
        rw [if_pos (ha.trans hk), if_pos (ha.trans hk)]
        rfl
      · rw [if_neg ha]
        have ha' : ¬ a = sfd := fun h => ha (h.trans hk.symm)
        unfold umap_find
        rw [if_neg ha', if_neg ha']
        exact ih
    · rw [if_neg hk] at ih ⊢
      by_cases ha : a = k
      · rw [if_pos ha]
        have ha' : ¬ a = sfd := fun h => hk (ha.symm.trans h)
        unfold umap_find
        rw [if_neg ha', if_neg ha']
        exact ih
      · rw [if_neg ha]
        unfold umap_find
        by_cases ha' : a = sfd
        · rw [if_pos ha', if_pos ha']
        · rw [if_neg ha', if_neg ha']
          exact ih

theorem umap_find_erase {β : Type} (m : List (Int × β)) (k sfd : Int) :
    umap_find (umap_erase m k) sfd
      = if k = sfd then none else umap_find m sfd := by
  by_cases hk : k = sfd
  · rw [if_pos hk, hk]
    exact umap_find_erase_self m sfd
  · rw [if_neg hk]
    induction m with
    | nil => rfl
    | cons e rest ih =>
      obtain ⟨a, u⟩ := e
      unfold umap_erase at ih ⊢
      by_cases ha : a = k
      · rw [List.filter_cons_of_neg (by simp [ha])]
        have ha' : ¬ a = sfd := fun h => hk (ha.symm.trans h)
        rw [ih, umap_find_cons, if_neg ha']
      · rw [List.filter_cons_of_pos (by simp [ha])]
        rw [umap_find_cons, umap_find_cons]
        by_cases ha' : a = sfd
        · rw [if_pos ha', if_pos ha']
        · rw [if_neg ha', if_neg ha']
          exact ih

theorem Upstream_run_append (pcfg : PoolConfig)
    (a b : List Upstream.Call) (s s1 s2 : Upstream)
    (ha : Upstream.run pcfg a s = some s1)
    (hb : Upstream.run pcfg b s1 = some s2) :
    Upstream.run pcfg (a ++ b) s = some s2 := by
  induction a generalizing s with
  | nil =>
    simp only [Upstream.run, Option.some.injEq] at ha
    rw [ha]
    exact hb
  | cons c cs ih =>
    simp only [Upstream.run, List.cons_append] at ha ⊢
    split at ha
    · simp at ha
    next s' hs' => exact ih s' ha

theorem puts_on_cons (sfd : Int) (c : Upstream.Call)
    (cs : List Upstream.Call) :
    Upstream.puts_on sfd (c :: cs)
      = (if c = .put sfd then 1 else 0) + Upstream.puts_on sfd cs := by
  unfold Upstream.puts_on
  by_cases h : c = .put sfd
  · rw [List.filter_cons_of_pos (by simp [h]), if_pos h]
    simp only [List.length_cons]
    omega
  · rw [List.filter_cons_of_neg (by simp [h]), if_neg h]
    omega

theorem Upstream_find_step (pcfg : PoolConfig) (sfd : Int)
    (c : Upstream.Call) (s s' : Upstream)
    (h : Upstream.step pcfg c s = some s')
    (hnc : Upstream.creates sfd c = false) (hne : c ≠ .put sfd) :
    (umap_find s'.available sfd).map (fun e => e.lifetime)
      = (umap_find s.available sfd).map (fun e => e.lifetime) := by
  cases c with
  | get env =>
    simp only [Upstream.creates, decide_eq_false_iff_not] at hnc
    simp only [Upstream.step] at h
    split at h
    · simp at h
    next r s1 hget =>
      simp only [Option.some.injEq] at h
      subst h
      rcases Upstream_Get_cases pcfg env s s1 r hget with
        ⟨hs, _⟩ | ⟨_, _, _, _, hs⟩
      · rw [hs]
      · rw [hs]
        simp only [umap_find]
        rw [if_neg hnc]
  | put k =>
    have hk : ¬ k = sfd := fun hk => hne (by rw [hk])
    simp only [Upstream.step] at h
    obtain ⟨socket, _, hcase⟩ := Upstream_Put_cases pcfg k s s' h
    rcases hcase with ⟨_, hs⟩ | ⟨_, _, hs⟩ | ⟨_, _, _, hs⟩
    · rw [hs]
      simp only
      rw [umap_find_assign, if_neg hk]
    · rw [hs]
      simp only
      rw [umap_find_assign, if_neg hk]
    · rw [hs]
      simp only
      rw [umap_find_erase, if_neg hk]
  | done k =>
    simp only [Upstream.step] at h
    rcases Upstream_Done_cases k s s' h with
      ⟨socket, hfind, _, hs⟩ | ⟨_, o, _, _, ⟨_, hs⟩ | ⟨_, hs⟩⟩
    · rw [hs]
      simp only
      rw [umap_find_assign]
      by_cases hk : k = sfd
      · rw [if_pos hk, ← hk, hfind]
        rfl
      · rw [if_neg hk]
    · rw [hs]
    · rw [hs]

theorem Upstream_absent_run (pcfg : PoolConfig) (sfd : Int) :
    ∀ (calls : List Upstream.Call) (s s' : Upstream),
      umap_find s.available sfd = none →
      (∀ c ∈ calls, Upstream.creates sfd c = false) →
      Upstream.run pcfg calls s = some s' →
      Upstream.puts_on sfd calls = 0 ∧
        umap_find s'.available sfd = none := by
  intro calls
  induction calls with
  | nil =>
    intro s s' hfind _ h
    simp only [Upstream.run, Option.some.injEq] at h
    rw [← h]
    exact ⟨rfl, hfind⟩
  | cons c cs ih =>
    intro s s' hfind hnc h
    simp only [Upstream.run] at h
    split at h
    · simp at h
    next s1 hs1 =>
      have hne : c ≠ .put sfd := by
        intro hc
        rw [hc] at hs1
        simp only [Upstream.step] at hs1
        obtain ⟨socket, hf, _⟩ := Upstream_Put_cases pcfg sfd s s1 hs1
        rw [hfind] at hf
        simp at hf
      have hstep := Upstream_find_step pcfg sfd c s s1 hs1
        (hnc c (List.mem_cons_self _ _)) hne
      rw [hfind] at hstep
      have hfind1 : umap_find s1.available sfd = none := by
        simpa using hstep
      obtain ⟨hp, hf⟩ := ih s1 s' hfind1
        (fun c' hc' => hnc c' (List.mem_cons_of_mem _ hc')) h
      rw [puts_on_cons, if_neg hne, hp]
      exact ⟨rfl, hf⟩

theorem Upstream_lifetime_counts (pcfg : PoolConfig) (sfd : Int)
    (hL : 0 < pcfg.MAX_PORT_LIFETIME)
    (hL32 : pcfg.MAX_PORT_LIFETIME < 4294967296) :
    ∀ (calls : List Upstream.Call) (s s' : Upstream) (lt : Nat),
      (umap_find s.available sfd).map (fun e => e.lifetime) = some lt →
      lt < pcfg.MAX_PORT_LIFETIME →
      (∀ c ∈ calls, Upstream.creates sfd c = false) →
      Upstream.run pcfg calls s = some s' →
      lt + Upstream.puts_on sfd calls ≤ pcfg.MAX_PORT_LIFETIME ∧
      (lt + Upstream.puts_on sfd calls < pcfg.MAX_PORT_LIFETIME →
        (umap_find s'.available sfd).map (fun e => e.lifetime)
          = some (lt + Upstream.puts_on sfd calls)) ∧
      (lt + Upstream.puts_on sfd calls = pcfg.MAX_PORT_LIFETIME →
        umap_find s'.available sfd = none) := by
  intro calls
  induction calls with
  | nil =>
    intro s s' lt hfind hlt _ h
    simp only [Upstream.run, Option.some.injEq] at h
    rw [← h]
    have hp : Upstream.puts_on sfd [] = 0 := rfl
    rw [hp]
    refine ⟨by omega, fun _ => hfind, fun hh => by omega⟩
  | cons c cs ih =>
    intro s s' lt hfind hlt hnc h
    simp only [Upstream.run] at h
    split at h
    · simp at h
    next s1 hs1 =>
      have hnc' : ∀ c' ∈ cs, Upstream.creates sfd c' = false :=
        fun c' hc' => hnc c' (List.mem_cons_of_mem _ hc')
      rw [puts_on_cons]
      by_cases hc : c = .put sfd
      · rw [if_pos hc]
        rw [hc] at hs1
        simp only [Upstream.step] at hs1
        obtain ⟨socket, hf, hcase⟩ := Upstream_Put_cases pcfg sfd s s1 hs1
        rw [hf] at hfind
        have hsl : socket.lifetime = lt := by simpa using hfind
        rw [hsl] at hcase
        have hmod : (lt + 1) % 4294967296 = lt + 1 :=
          Nat.mod_eq_of_lt (by omega)
        rw [hmod] at hcase
        rcases hcase with ⟨h0, _⟩ | ⟨_, hstay, hs⟩ | ⟨_, hmove, _, hs⟩
        · omega
        · have hfind1 : (umap_find s1.available sfd).map
              (fun e => e.lifetime) = some (lt + 1) := by
            rw [hs]
            simp only
            rw [umap_find_assign, if_pos rfl, hf]
            rfl
          have := ih s1 s' (lt + 1) hfind1 hstay hnc' h
          have harith : lt + (1 + Upstream.puts_on sfd cs)
              = lt + 1 + Upstream.puts_on sfd cs := by omega
          rw [harith]
          exact this
        · have hfind1 : umap_find s1.available sfd = none := by
            rw [hs]
            simp only
            exact umap_find_erase_self _ _
          obtain ⟨hp, hnone⟩ :=
            Upstream_absent_run pcfg sfd cs s1 s' hfind1 hnc' h
          rw [hp]
          refine ⟨by omega, fun hh => by omega, fun _ => hnone⟩
      · rw [if_neg hc]
        have hstep := Upstream_find_step pcfg sfd c s s1 hs1
          (hnc c (List.mem_cons_self _ _)) hc
        rw [hfind] at hstep
        have := ih s1 s' lt hstep hlt hnc' h
        rw [Nat.zero_add]
        exact this

/-- C23: with `0 < MAX_PORT_LIFETIME = L` (an `unsigned`), take a pool state
reached from the empty pool in which `Get` has just inserted the socket
`sfd` (`outstanding = 0`, `lifetime = 0`), and any further calls that do not
create `sfd` again.  The number of `Put` calls for `sfd` among them is at
most `L`; as long as it is less than `L` the socket is in `available` with
that number as its lifetime; once it is `L` the socket is not in `available`.
In the state reached, a `Put` on an available socket of lifetime `l` keeps it
in `available` with both counters incremented when `l + 1 < L`, and when
`l + 1 = L` removes it from `available` and adds it to `end_of_life` with its
incremented outstanding count.  With `L = 1` every available socket has the
lifetime 0 and every `Put` leaves its socket outside `available`, where `Get`
selects from. -/
theorem C23_retired_by_Lth_forward (pcfg : PoolConfig)
    (hL : 0 < pcfg.MAX_PORT_LIFETIME)
    (hL32 : pcfg.MAX_PORT_LIFETIME < 4294967296)
    (calls0 calls : List Upstream.Call) (s0 s : Upstream) (sfd : Int)
    (hreach : Upstream.run pcfg calls0 Upstream.init = some s0)
    (hnew : umap_find s0.available sfd
      = some { outstanding := 0, lifetime := 0 })
    (hnc : ∀ c ∈ calls, Upstream.creates sfd c = false)
    (hrun : Upstream.run pcfg calls s0 = some s) :
    Upstream.puts_on sfd calls ≤ pcfg.MAX_PORT_LIFETIME ∧
    (Upstream.puts_on sfd calls < pcfg.MAX_PORT_LIFETIME →
      ∃ o, umap_find s.available sfd
        = some { outstanding := o,
                 lifetime := Upstream.puts_on sfd calls }) ∧
    (Upstream.puts_on sfd calls = pcfg.MAX_PORT_LIFETIME →
      umap_find s.available sfd = none) ∧
    (∀ fd socket s', umap_find s.available fd = some socket →
      Upstream.Put pcfg fd s = some s' →
      (socket.lifetime + 1 < pcfg.MAX_PORT_LIFETIME →
        umap_find s'.available fd
          = some { outstanding := socket.outstanding + 1,
                   lifetime := socket.lifetime + 1 } ∧
        s'.end_of_life = s.end_of_life) ∧
      (socket.lifetime + 1 = pcfg.MAX_PORT_LIFETIME →
        umap_find s'.available fd = none ∧
        s'.end_of_life
          = (fd, socket.outstanding + 1) :: s.end_of_life)) ∧
    (pcfg.MAX_PORT_LIFETIME = 1 →
      (∀ e ∈ s.available, e.2.lifetime = 0) ∧
      ∀ fd s', Upstream.Put pcfg fd s = some s' →
        fd ∉ s'.available.map Prod.fst ∧
        fd ∈ s'.end_of_life.map Prod.fst) := by
  have hcount := Upstream_lifetime_counts pcfg sfd hL hL32 calls s0 s 0
    (by rw [hnew]; rfl) hL hnc hrun
  simp only [Nat.zero_add] at hcount
  obtain ⟨hle, hlt, heq⟩ := hcount
  have hreach' := Upstream_run_append pcfg calls0 calls _ _ _ hreach hrun
  obtain ⟨_, hA⟩ := Upstream_retiring_run pcfg _ s hreach'
  have hA' := hA (by omega) hL32
  have hstep : ∀ fd socket s', umap_find s.available fd = some socket →
      Upstream.Put pcfg fd s = some s' →
      (socket.lifetime + 1 < pcfg.MAX_PORT_LIFETIME →
        umap_find s'.available fd
          = some { outstanding := socket.outstanding + 1,
                   lifetime := socket.lifetime + 1 } ∧
        s'.end_of_life = s.end_of_life) ∧
      (socket.lifetime + 1 = pcfg.MAX_PORT_LIFETIME →
        umap_find s'.available fd = none ∧
        s'.end_of_life
          = (fd, socket.outstanding + 1) :: s.end_of_life) := by
    intro fd socket s' hfind hput
    obtain ⟨socket', hfind', hcase⟩ := Upstream_Put_cases pcfg fd s s' hput
    rw [hfind] at hfind'
    have hsock : socket = socket' := Option.some.inj hfind'
    subst hsock
    have hb := hA' _ (umap_find_mem _ _ _ hfind)
    simp only at hb
    have hm1 : (socket.lifetime + 1) % 4294967296 = socket.lifetime + 1 :=
      Nat.mod_eq_of_lt (by omega)
    have hm2 : (socket.outstanding + 1) % 4294967296
        = socket.outstanding + 1 := Nat.mod_eq_of_lt (by omega)
    rw [hm1, hm2] at hcase
    rcases hcase with ⟨h0, _⟩ | ⟨_, hstay, hs⟩ | ⟨_, hmove, _, hs⟩
    · omega
    · refine ⟨fun _ => ?_, fun hh => by omega⟩
      rw [hs]
      simp only
      rw [umap_find_assign, if_pos rfl, hfind]
      exact ⟨rfl, trivial⟩
    · refine ⟨fun hh => by omega, fun _ => ?_⟩
      rw [hs]
      exact ⟨umap_find_erase_self _ _, rfl⟩
  refine ⟨hle, ?_, heq, hstep, ?_⟩
  · intro hp
    have := hlt hp
    cases hf : umap_find s.available sfd with
    | none =>
      rw [hf] at this
      simp at this
    | some socket =>
      rw [hf] at this
      have hl : socket.lifetime = Upstream.puts_on sfd calls := by
        simpa using this
      exact ⟨socket.outstanding, by rw [← hl]⟩
  · intro h1
    refine ⟨fun e he => ?_, ?_⟩
    · have := (hA' e he).2
      omega
    · intro fd s' hput
      obtain ⟨socket, hfind, _⟩ := Upstream_Put_cases pcfg fd s s' hput
      have hb := (hA' _ (umap_find_mem _ _ _ hfind)).2
      simp only at hb
      obtain ⟨hnone, heol⟩ :=
        (hstep fd socket s' hfind hput).2 (by omega)
      refine ⟨(umap_find_eq_none_iff _ _).1 hnone, ?_⟩
      rw [heol]
      simp

theorem C23_retired_by_Lth_forward_witness :
    Upstream.run example_pool_config [.get ⟨5, 0⟩] Upstream.init
      = some example_pool_created ∧
    Upstream.run example_pool_config example_pool_calls_after_creation
      example_pool_created = some example_pool_retired ∧
    Upstream.puts_on 5 example_pool_calls_after_creation
      = example_pool_config.MAX_PORT_LIFETIME ∧
    umap_find example_pool_retired.available 5 = none :=
  ⟨by decide, by decide, by decide,
   (C23_retired_by_Lth_forward example_pool_config (by decide) (by decide)
     [.get ⟨5, 0⟩] example_pool_calls_after_creation example_pool_created
     example_pool_retired 5 (by decide) (by decide) (by decide)
     (by decide)).2.2.1 (by decide)⟩

/-! ## Claim on the 16-bit arithmetic of `Get_query_id` -/

theorem walk_no_wrap : ∀ (keys : List Nat) (q nf : Nat),
    keys.Pairwise (· < ·) → (∀ x ∈ keys, nf ≤ x ∧ x < 65536) →
    q + nf + keys.length ≤ 65535 →
    (∀ v ∈ Requests.walk_visited keys q nf,
      v.2.2 ≤ v.1 ∧ v.2.1 + v.2.2 ≤ 65535 ∧
      (¬ v.2.1 < v.1 - v.2.2 → v.1 < 65535)) ∧
    ∀ q' nf', Requests.walk keys q nf = some (q', nf') →
      ((q' + nf' : Nat) : Int)
        = Requests.walk_unbounded keys (q : Int) (nf : Int) := by
  intro keys
  induction keys with
  | nil =>
    intro q nf _ _ _
    refine ⟨by simp [Requests.walk_visited], ?_⟩
    intro q' nf' h
    simp only [Requests.walk, Option.some.injEq, Prod.mk.injEq] at h
    simp only [Requests.walk_unbounded]
    omega
  | cons key rest ih =>
    intro q nf hs hb hlen
    have hk := hb key (List.mem_cons_self _ _)
    rw [List.pairwise_cons] at hs
    simp only [List.length_cons] at hlen
    have hnfree : (key + 65536 - nf) % 65536 = key - nf := by omega
    by_cases hq : q < key - nf
    · constructor
      · intro v hv
        simp only [Requests.walk_visited, hk.1, hnfree, hq, if_true,
          List.mem_singleton] at hv
        rw [hv]
        simp only
        omega
      · intro q' nf' h
        simp only [Requests.walk, hk.1, hnfree, hq, if_true,
          Option.some.injEq, Prod.mk.injEq] at h
        have hq' : (q : Int) < (key : Int) - (nf : Int) := by omega
        simp only [Requests.walk_unbounded, hq', if_true]
        omega
    · have hq1 : (q + 65536 - (key - nf)) % 65536 = q - (key - nf) := by
        omega
      have hk1 : (key + 1) % 65536 = key + 1 := by omega
      obtain ⟨hv', hw'⟩ :=
        ih (q - (key - nf)) (key + 1) hs.2
          (fun x hx => ⟨hs.1 x hx, (hb x (List.mem_cons_of_mem _ hx)).2⟩)
          (by omega)
      constructor
      · intro v hv
        simp only [Requests.walk_visited, hk.1, hnfree, hq, if_true,
          if_false, hq1, hk1, List.mem_cons] at hv
        rcases hv with hv | hv
        · rw [hv]
          simp only
          omega
        · exact hv' v hv
      · intro q' nf' h
        simp only [Requests.walk, hk.1, hnfree, hq, if_true, if_false, hq1,
          hk1] at h
        have hq' : ¬ (q : Int) < (key : Int) - (nf : Int) := by omega
        have e1 : (q : Int) - ((key : Int) - (nf : Int))
            = ((q - (key - nf) : Nat) : Int) := by omega
        have e2 : (key : Int) + 1 = ((key + 1 : Nat) : Int) := by omega
        simp only [Requests.walk_unbounded, hq', if_false]
        rw [e1, e2]
        exact hw' q' nf' h

/-- C30: for every well-formed mapping with fewer than 65536 entries and
every draw `k ≤ 65535 - n`, at every entry the loop of `Get_query_id` visits
the assertion `next_free <= i.first` holds, `*query_idp + next_free` is at
most 65535, and when the loop does not break there the key is below 65535,
so that `i.first + 1` does not wrap; the loop returns, the final sum
`*query_idp + next_free` is at most 65535, and it is the number the same
loop computes over the integers. -/
theorem C30_walk_never_wraps (s : Requests) (k : Nat) (hwf : s.WF)
    (hn : s.requests.length < 65536) (hk : k ≤ 65535 - s.requests.length) :
    (∀ v ∈ Requests.walk_visited s.keys k 0,
      v.2.2 ≤ v.1 ∧ v.2.1 + v.2.2 ≤ 65535 ∧
      (¬ v.2.1 < v.1 - v.2.2 → v.1 < 65535)) ∧
    ∃ q nf, Requests.walk s.keys k 0 = some (q, nf) ∧ q + nf ≤ 65535 ∧
      Requests.nth_free s k = some (q + nf) ∧
      ((q + nf : Nat) : Int) = Requests.walk_unbounded s.keys k 0 := by
  have hlen : s.keys.length = s.requests.length := by
    simp [Requests.keys]
  have hb : ∀ x ∈ s.keys, 0 ≤ x ∧ x < 65536 :=
    fun x hx => ⟨Nat.zero_le _, hwf.2.1 x hx⟩
  have hsum : k + 0 + s.keys.length ≤ 65535 := by omega
  obtain ⟨hv, hw⟩ := walk_no_wrap s.keys k 0 hwf.1 hb hsum
  obtain ⟨q, nf, hwalk, hle, _, _, _⟩ := walk_spec s.keys k 0 hwf.1 hb hsum
  refine ⟨hv, q, nf, hwalk, hle, ?_, ?_⟩
  · unfold Requests.nth_free
    rw [hwalk]
    simp only
    rw [Nat.mod_eq_of_lt (by omega)]
  · have := hw q nf hwalk
    simpa using this

theorem C30_walk_never_wraps_witness :
    Requests.nth_free table_3_7 5 = some 6 ∧
    Requests.walk_visited table_3_7.keys 5 0 = [(3, 5, 0), (7, 2, 4)] ∧
    (∀ v ∈ Requests.walk_visited table_3_7.keys 5 0,
      v.2.2 ≤ v.1 ∧ v.2.1 + v.2.2 ≤ 65535 ∧
      (¬ v.2.1 < v.1 - v.2.2 → v.1 < 65535)) ∧
    ∃ q nf, Requests.walk table_3_7.keys 5 0 = some (q, nf) ∧
      q + nf ≤ 65535 ∧
      Requests.nth_free table_3_7 5 = some (q + nf) ∧
      ((q + nf : Nat) : Int) = Requests.walk_unbounded table_3_7.keys 5 0 :=
  ⟨by decide, by decide,
   C30_walk_never_wraps table_3_7 5 table_3_7_WF (by decide) (by decide)⟩

/-! ## The parser on a message and on its prefixes -/

theorem parse_qname_nil (f : Nat) : parse_qname f [] = none := by
  cases f <;> simp [parse_qname]

theorem parse_qname_cons (f l : Nat) (t : List Nat) :
    parse_qname (f + 1) (l :: t)
      = if l = 0 then some t
        else if t.length < l then none
        else parse_qname f (t.drop l) := by
  simp [parse_qname]

theorem parse_qname_split : ∀ (fuel : Nat) (p rest : List Nat),
    parse_qname fuel p = some rest →
    ∃ name, p = name ++ rest ∧ 1 ≤ name.length ∧
      (∀ tail f, (name ++ tail).length < f →
        parse_qname f (name ++ tail) = some tail) ∧
      (∀ k f, k < name.length → parse_qname f (name.take k) = none) := by
  intro fuel
  induction fuel with
  | zero =>
    intro p rest h
    simp [parse_qname] at h
  | succ fuel ih =>
    intro p rest h
    cases p with
    | nil => simp [parse_qname] at h
    | cons l t =>
      rw [parse_qname_cons] at h
      by_cases hl : l = 0
      · rw [if_pos hl] at h
        have ht : t = rest := Option.some.inj h
        refine ⟨[0], by simp [hl, ht], by simp, ?_, ?_⟩
        · intro tail f hf
          cases f with
          | zero => simp at hf
          | succ f =>
            rw [List.singleton_append, parse_qname_cons, if_pos rfl]
        · intro k f hk
          have hk0 : k = 0 := by simpa using hk
          rw [hk0, List.take_zero]
          exact parse_qname_nil f
      · rw [if_neg hl] at h
        by_cases hlen : t.length < l
        · rw [if_pos hlen] at h
          simp at h
        · rw [if_neg hlen] at h
          obtain ⟨name', hsplit, hpos, hfwd, htrunc⟩ := ih _ _ h
          have htake : (t.take l).length = l := by
            rw [List.length_take]
            omega
          refine ⟨l :: (t.take l ++ name'), ?_, by simp, ?_, ?_⟩
          · rw [List.cons_append, List.append_assoc, ← hsplit,
              List.take_append_drop]
          · intro tail f hf
            cases f with
            | zero => simp at hf
            | succ f =>
              rw [List.cons_append, parse_qname_cons, if_neg hl,
                List.append_assoc]
              rw [if_neg (by
                simp only [List.length_append, htake]
                omega)]
              rw [List.drop_left' htake]
              apply hfwd
              simp only [List.cons_append, List.length_cons,
                List.length_append, htake] at hf ⊢
              omega
          · intro k f hk
            cases k with
            | zero =>
              rw [List.take_zero]
              exact parse_qname_nil f
            | succ k =>
              cases f with
              | zero => simp [parse_qname]
              | succ f =>
                simp only [List.length_cons, List.length_append, htake]
                  at hk
                rw [List.take_succ_cons, parse_qname_cons, if_neg hl]
                by_cases hkl : k < l
                · rw [if_pos (by
                    rw [List.length_take, List.length_append, htake]
                    omega)]
                · rw [if_neg (by
                    rw [List.length_take, List.length_append, htake]
                    omega)]
                  rw [List.take_append_eq_append_take, htake,
                    List.take_of_length_le (by omega),
                    List.drop_left' htake]
                  exact htrunc _ _ (by omega)

theorem parse_questions_succ (i : Nat) (p : List Nat) :
    parse_questions (i + 1) p
      = match parse_qname (p.length + 1) p with
        | none => none
        | some p =>
          if p.length < NS_QFIXEDSZ then none
          else parse_questions i (p.drop NS_QFIXEDSZ) := rfl

theorem parse_questions_split : ∀ (i : Nat) (p rest : List Nat),
    parse_questions i p = some rest →
    ∃ qs, p = qs ++ rest ∧ 5 * i ≤ qs.length ∧
      (∀ tail, parse_questions i (qs ++ tail) = some tail) ∧
      (∀ k, k < qs.length → parse_questions i (qs.take k) = none) := by
  intro i
  induction i with
  | zero =>
    intro p rest h
    simp only [parse_questions, Option.some.injEq] at h
    exact ⟨[], by simp [h], by simp, fun tail => rfl, fun k hk => by
      simp at hk⟩
  | succ i ih =>
    intro p rest h
    rw [parse_questions_succ] at h
    cases hq : parse_qname (p.length + 1) p with
    | none =>
      rw [hq] at h
      simp at h
    | some r1 =>
      rw [hq] at h
      simp only at h
      by_cases hlen : r1.length < NS_QFIXEDSZ
      · rw [if_pos hlen] at h
        simp at h
      · rw [if_neg hlen] at h
        unfold NS_QFIXEDSZ at hlen h
        obtain ⟨name, hsplit, hpos, hfwd, htrunc⟩ :=
          parse_qname_split _ _ _ hq
        obtain ⟨qs', hsplit', hcount, hfwd', htrunc'⟩ := ih _ _ h
        have htake : (r1.take 4).length = 4 := by
          rw [List.length_take]
          omega
        refine ⟨name ++ (r1.take 4 ++ qs'), ?_, ?_, ?_, ?_⟩
        · rw [List.append_assoc, List.append_assoc, ← hsplit',
            List.take_append_drop]
          exact hsplit
        · simp only [List.length_append, htake]
          omega
        · intro tail
          rw [parse_questions_succ, List.append_assoc, List.append_assoc,
            hfwd _ _ (Nat.lt_succ_self _)]
          simp only
          rw [if_neg (by
            unfold NS_QFIXEDSZ
            simp only [List.length_append, htake]
            omega)]
          unfold NS_QFIXEDSZ
          rw [List.drop_left' htake]
          exact hfwd' tail
        · intro k hk
          simp only [List.length_append, htake] at hk
          rw [parse_questions_succ]
          by_cases hkn : k < name.length
          · rw [List.take_append_of_le_length (by omega),
              htrunc k _ hkn]
          · rw [List.take_append_eq_append_take,
              List.take_of_length_le (by omega),
              hfwd _ _ (Nat.lt_succ_self _)]
            simp only
            by_cases hk4 : k - name.length < 4
            · rw [if_pos (by
                unfold NS_QFIXEDSZ
                rw [List.length_take, List.length_append, htake]
                omega)]
            · rw [if_neg (by
                unfold NS_QFIXEDSZ
                rw [List.length_take, List.length_append, htake]
                omega)]
              unfold NS_QFIXEDSZ
              rw [List.take_append_eq_append_take, htake,
                List.take_of_length_le (by omega),
                List.drop_left' htake]
              exact htrunc' _ (by omega)

theorem parse_message_split (msg : List Nat) (query_id : Nat)
    (question : List Nat)
    (h : parse_message msg = some (query_id, question)) :
    ∃ rest, msg = msg.take 12 ++ (question ++ rest) ∧
      (msg.take 12).length = 12 ∧
      query_id = ntohs_field msg 0 ∧
      5 * ntohs_field msg 4 ≤ question.length ∧
      (∀ tail, parse_questions (ntohs_field msg 4) (question ++ tail)
        = some tail) ∧
      (∀ k, k < question.length →
        parse_questions (ntohs_field msg 4) (question.take k) = none) := by
  unfold parse_message at h
  by_cases hlen : msg.length < NS_HFIXEDSZ
  · rw [if_pos hlen] at h
    simp at h
  · rw [if_neg hlen] at h
    simp only at h
    unfold NS_HFIXEDSZ at hlen h
    cases hq : parse_questions (ntohs_field msg 4) (msg.drop 12) with
    | none =>
      rw [hq] at h
      simp at h
    | some rest =>
      rw [hq] at h
      simp only [Option.some.injEq, Prod.mk.injEq] at h
      obtain ⟨qs, hsplit, hcount, hfwd, htrunc⟩ :=
        parse_questions_split _ _ _ hq
      have hquestion : question = qs := by
        rw [← h.2, hsplit]
        simp
      rw [hquestion]
      refine ⟨rest, ?_, ?_, h.1.symm, hcount, hfwd, htrunc⟩
      · rw [← hsplit, List.take_append_drop]
      · rw [List.length_take]
        omega

theorem parse_encode_qname : ∀ (labels : List (List Nat)) (tail : List Nat)
    (f : Nat), (∀ label ∈ labels, 1 ≤ label.length) →
    (encode_qname labels ++ tail).length < f →
    parse_qname f (encode_qname labels ++ tail) = some tail := by
  intro labels
  induction labels with
  | nil =>
    intro tail f _ hf
    cases f with
    | zero => simp at hf
    | succ f =>
      simp only [encode_qname, List.singleton_append]
      rw [parse_qname_cons, if_pos rfl]
  | cons label rest ih =>
    intro tail f hl hf
    have hpos := hl label (List.mem_cons_self _ _)
    cases f with
    | zero => simp at hf
    | succ f =>
      simp only [encode_qname, List.cons_append, List.append_assoc,
        List.length_cons, List.length_append] at hf ⊢
      rw [parse_qname_cons, if_neg (by omega),
        if_neg (by simp only [List.length_append]; omega),
        List.drop_left' rfl]
      apply ih tail f (fun l h => hl l (List.mem_cons_of_mem _ h))
      simp only [List.length_append]
      omega

theorem parse_encode_questions :
    ∀ (qs : List (List (List Nat) × List Nat)) (tail : List Nat),
    (∀ q ∈ qs, (∀ label ∈ q.1, 1 ≤ label.length) ∧ q.2.length = 4) →
    parse_questions qs.length (encode_questions qs ++ tail) = some tail := by
  intro qs
  induction qs with
  | nil =>
    intro tail _
    rfl
  | cons q rest ih =>
    intro tail hq
    obtain ⟨hlabels, hfixed⟩ := hq q (List.mem_cons_self _ _)
    simp only [encode_questions, List.length_cons, List.append_assoc]
    rw [parse_questions_succ,
      parse_encode_qname q.1 _ _ hlabels (Nat.lt_succ_self _)]
    simp only
    rw [if_neg (by
      unfold NS_QFIXEDSZ
      simp only [List.length_append, hfixed]
      omega)]
    unfold NS_QFIXEDSZ
    rw [List.drop_left' hfixed]
    exact ih tail (fun q' h => hq q' (List.mem_cons_of_mem _ h))

/-- C25: for every 12-byte header whose QDCOUNT field is the number of the
questions, every list of questions whose labels have between 1 and 255 bytes
and whose QTYPE and QCLASS take 4 bytes, and every trailer,
`parse_message` on the header followed by the encoded questions and the
trailer succeeds, with the big-endian value of bytes 0-1 as the ID and
exactly the encoded questions as the question, whatever the trailer. -/
theorem C25_parse_round_trip (header : List Nat)
    (qs : List (List (List Nat) × List Nat)) (trailer : List Nat)
    (hheader : header.length = 12)
    (hcount : ntohs_field header 4 = qs.length)
    (hqs : ∀ q ∈ qs,
      (∀ label ∈ q.1, 1 ≤ label.length ∧ label.length ≤ 255) ∧
      q.2.length = 4) :
    parse_message (header ++ encode_questions qs ++ trailer)
      = some (header.getD 0 0 * 256 + header.getD 1 0,
          encode_questions qs) := by
  have hqs' : ∀ q ∈ qs, (∀ label ∈ q.1, 1 ≤ label.length) ∧
      q.2.length = 4 :=
    fun q h => ⟨fun l hl => ((hqs q h).1 l hl).1, (hqs q h).2⟩
  have hfield : ∀ i, i + 1 < 12 →
      ntohs_field (header ++ encode_questions qs ++ trailer) i
        = ntohs_field header i := by
    intro i hi
    unfold ntohs_field
    rw [List.append_assoc, List.getD_append _ _ _ _ (by omega),
      List.getD_append _ _ _ _ (by omega)]
  unfold parse_message
  rw [if_neg (by
    unfold NS_HFIXEDSZ
    simp only [List.length_append, hheader]
    omega)]
  simp only
  rw [hfield 4 (by omega), hfield 0 (by omega), hcount]
  unfold NS_HFIXEDSZ
  rw [List.append_assoc, List.drop_left' hheader,
    parse_encode_questions qs trailer hqs']
  simp only [List.length_append, Nat.add_sub_cancel, List.take_left']
  rfl

theorem C25_parse_round_trip_witness :
    example_header ++ encode_questions example_questions ++ example_trailer
      = example_query.take 12 ++ example_response.drop 12 ∧
    parse_message
        (example_header ++ encode_questions example_questions
          ++ example_trailer)
      = some (example_header.getD 0 0 * 256 + example_header.getD 1 0,
          encode_questions example_questions) :=
  ⟨by decide,
   C25_parse_round_trip example_header example_questions example_trailer
     (by decide) (by decide) (by decide)⟩

/-- C26: when `parse_message` succeeds on a message with a question of `L`
bytes, it returns `NULL` on every prefix of the message shorter than
`12 + L` bytes: a prefix shorter than 12 bytes fails the check of the header
size, and a longer one passes it and fails in the loop over the questions. -/
theorem C26_truncation_rejected (msg : List Nat) (query_id : Nat)
    (question : List Nat) (n : Nat)
    (h : parse_message msg = some (query_id, question))
    (hn : n < 12 + question.length) :
    parse_message (msg.take n) = none ∧
    (n < 12 → (msg.take n).length < NS_HFIXEDSZ) ∧
    (12 ≤ n → ¬ (msg.take n).length < NS_HFIXEDSZ ∧
      parse_questions (ntohs_field (msg.take n) 4)
        ((msg.take n).drop NS_HFIXEDSZ) = none) := by
  obtain ⟨rest, hsplit, hhead, _, _, _, htrunc⟩ :=
    parse_message_split msg query_id question h
  have hlen : 12 + question.length ≤ msg.length := by
    have := congrArg List.length hsplit
    simp only [List.length_append, hhead] at this
    omega
  have hshort : n < 12 → (msg.take n).length < NS_HFIXEDSZ := by
    intro h12
    unfold NS_HFIXEDSZ
    rw [List.length_take]
    omega
  have hlong : 12 ≤ n → ¬ (msg.take n).length < NS_HFIXEDSZ ∧
      parse_questions (ntohs_field (msg.take n) 4)
        ((msg.take n).drop NS_HFIXEDSZ) = none := by
    intro h12
    constructor
    · unfold NS_HFIXEDSZ
      rw [List.length_take]
      omega
    · have hfield : ntohs_field (msg.take n) 4 = ntohs_field msg 4 := by
        unfold ntohs_field
        simp only [List.getD_eq_getElem?_getD]
        rw [List.getElem?_take_of_lt (by omega),
          List.getElem?_take_of_lt (by omega)]
      have hdrop : msg.drop 12 = question ++ rest := by
        conv_lhs => rw [hsplit]
        exact List.drop_left' hhead
      unfold NS_HFIXEDSZ
      rw [hfield, List.drop_take, hdrop,
        List.take_append_of_le_length (by omega)]
      exact htrunc _ (by omega)
  refine ⟨?_, hshort, hlong⟩
  unfold parse_message
  by_cases h12 : n < 12
  · rw [if_pos (hshort h12)]
  · obtain ⟨h1, h2⟩ := hlong (by omega)
    rw [if_neg h1]
    simp only
    rw [h2]

theorem C26_truncation_rejected_witness :
    parse_message example_query = some (4660, example_query.drop 12) ∧
    (example_query.drop 12).length = 17 ∧
    parse_message (example_query.take 28) = none :=
  ⟨by decide, by decide,
   (C26_truncation_rejected example_query 4660 (example_query.drop 12) 28
     (by decide) (by decide)).1⟩

/-- C27: on a message of at least 12 bytes whose QDCOUNT is 0,
`parse_message` succeeds with an empty question; every successful parse
yields a question of at least 5 bytes per counted question, hence a
non-empty one when QDCOUNT is at least 1; and a message that
`return_response` accepts for a request recorded with an empty question has
QDCOUNT 0. -/
theorem C27_empty_question_iff_no_questions (msg : List Nat) :
    (12 ≤ msg.length → ntohs_field msg 4 = 0 →
      parse_message msg = some (ntohs_field msg 0, [])) ∧
    (∀ query_id question, parse_message msg = some (query_id, question) →
      5 * ntohs_field msg 4 ≤ question.length ∧
      (1 ≤ ntohs_field msg 4 → question ≠ [])) ∧
    (∀ (st : Proxy) (upstream_fd : Int) (request : request_st),
      Proxy.accepts st upstream_fd msg →
      Requests.Find st.requests (ntohs_field msg 0) = some request →
      request.question = [] → ntohs_field msg 4 = 0) := by
  have hcount : ∀ query_id question,
      parse_message msg = some (query_id, question) →
      5 * ntohs_field msg 4 ≤ question.length := by
    intro query_id question h
    obtain ⟨_, _, _, _, hc, _, _⟩ :=
      parse_message_split msg query_id question h
    exact hc
  refine ⟨?_, ?_, ?_⟩
  · intro hlen hzero
    unfold parse_message
    rw [if_neg (by unfold NS_HFIXEDSZ; omega)]
    simp only
    rw [hzero]
    simp [parse_questions]
  · intro query_id question h
    have hc := hcount query_id question h
    refine ⟨hc, ?_⟩
    intro hone hnil
    rw [hnil] at hc
    simp only [List.length_nil] at hc
    omega
  · rintro st upstream_fd request ⟨query_id, question, request', hparse, _,
      hfind', _, hq'⟩ hfind hempty
    have hid := (parse_message_some msg query_id question hparse).1
    rw [hid, hfind] at hfind'
    have hreq : request = request' := Option.some.inj hfind'
    have hc := hcount query_id question hparse
    rw [← hq', ← hreq, hempty] at hc
    simp only [List.length_nil] at hc
    omega

theorem C27_empty_question_iff_no_questions_witness :
    parse_message example_empty_response = some (43981, []) ∧
    (12 ≤ example_empty_response.length →
      ntohs_field example_empty_response 4 = 0 →
      parse_message example_empty_response
        = some (ntohs_field example_empty_response 0, [])) :=
  ⟨by decide,
   (C27_empty_question_iff_no_questions example_empty_response).1⟩

/-! ## The reference counts of the pool and the request records -/

theorem outstanding_of_Get (pcfg : PoolConfig) (env : Upstream.Env)
    (s s' : Upstream) (r : Option Int)
    (h : Upstream.Get pcfg env s = some (r, s'))
    (hfresh : Upstream.creation_fresh pcfg env s) (x : Int) :
    Upstream.outstanding_of s' x = Upstream.outstanding_of s x := by
  rcases Upstream_Get_cases pcfg env s s' r h with
    ⟨hs, _⟩ | ⟨hopen, hge, hfind, _, hs⟩
  · rw [hs]
  · have hnot := hfresh hopen hge
    have heol : umap_find s.end_of_life env.new_socket = none :=
      (umap_find_eq_none_iff _ _).2 (fun hin => hnot (Or.inr hin))
    rw [hs]
    unfold Upstream.outstanding_of
    simp only
    rw [umap_find_cons]
    by_cases hx : env.new_socket = x
    · rw [if_pos hx, ← hx, hfind, heol]
    · rw [if_neg hx]

theorem outstanding_of_Put (pcfg : PoolConfig) (fd : Int)
    (s s' : Upstream) (h : Upstream.Put pcfg fd s = some s')
    (hcount : Upstream.outstanding_of s fd + 1 < 4294967296) (x : Int) :
    Upstream.outstanding_of s' x
      = Upstream.outstanding_of s x + (if fd = x then 1 else 0) := by
  obtain ⟨socket, hfind, hcase⟩ := Upstream_Put_cases pcfg fd s s' h
  have hout : Upstream.outstanding_of s fd = socket.outstanding := by
    unfold Upstream.outstanding_of
    rw [hfind]
  rw [hout] at hcount
  rw [Nat.mod_eq_of_lt hcount] at hcase
  have hassign : ∀ lt,
      Upstream.outstanding_of
        { s with
          available :=
            umap_assign s.available fd ⟨socket.outstanding + 1, lt⟩ } x
      = Upstream.outstanding_of s x + (if fd = x then 1 else 0) := by
    intro lt
    unfold Upstream.outstanding_of
    simp only
    rw [umap_find_assign]
    by_cases hx : fd = x
    · rw [if_pos hx, if_pos hx, ← hx, hfind]
      rfl
    · rw [if_neg hx, if_neg hx]
      rfl
  rcases hcase with ⟨_, hs⟩ | ⟨_, _, hs⟩ | ⟨_, _, _, hs⟩
  · rw [hs]
    exact hassign _
  · rw [hs]
    exact hassign _
  · rw [hs]
    unfold Upstream.outstanding_of
    simp only
    rw [umap_find_erase, umap_find_cons]
    by_cases hx : fd = x
    · rw [if_pos hx, if_pos hx, if_pos hx, ← hx, hfind]
    · rw [if_neg hx, if_neg hx, if_neg hx]
      rfl

theorem outstanding_of_Done (fd : Int) (s s' : Upstream)
    (h : Upstream.Done fd s = some s') (x : Int) :
    Upstream.outstanding_of s' x + (if fd = x then 1 else 0)
      = Upstream.outstanding_of s x := by
  rcases Upstream_Done_cases fd s s' h with
    ⟨socket, hfind, hpos, hs⟩ | ⟨hnone, o, hfo, hpos, ⟨hz, hs⟩ | ⟨hnz, hs⟩⟩
  · rw [hs]
    unfold Upstream.outstanding_of
    simp only
    rw [umap_find_assign]
    by_cases hx : fd = x
    · rw [if_pos hx, if_pos hx, ← hx, hfind]
      simp only [Option.map_some']
      omega
    · rw [if_neg hx, if_neg hx]
      rfl
  · rw [hs]
    unfold Upstream.outstanding_of
    simp only
    rw [umap_find_erase]
    by_cases hx : fd = x
    · rw [if_pos hx, if_pos hx, ← hx, hnone, hfo]
      simp only
      omega
    · rw [if_neg hx, if_neg hx]
      rfl
  · rw [hs]
    unfold Upstream.outstanding_of
    simp only
    rw [umap_find_assign]
    by_cases hx : fd = x
    · rw [if_pos hx, if_pos hx, ← hx, hnone, hfo]
      simp only [Option.map_some']
      omega
    · rw [if_neg hx, if_neg hx]
      rfl

theorem Upstream_Done_total (fd : Int) (s : Upstream)
    (h : 1 ≤ Upstream.outstanding_of s fd) :
    ∃ s', Upstream.Done fd s = some s' := by
  unfold Upstream.outstanding_of at h
  unfold Upstream.Done
  cases hfind : umap_find s.available fd with
  | some socket =>
    rw [hfind] at h
    simp only at h ⊢
    rw [if_neg (by omega)]
    exact ⟨_, rfl⟩
  | none =>
    rw [hfind] at h
    simp only at h ⊢
    cases hfo : umap_find s.end_of_life fd with
    | none =>
      rw [hfo] at h
      simp at h
    | some o =>
      rw [hfo] at h
      simp only at h ⊢
      rw [if_neg (by omega)]
      by_cases hz : o - 1 = 0
      · rw [if_pos hz]
        exact ⟨_, rfl⟩
      · rw [if_neg hz]
        exact ⟨_, rfl⟩

theorem release_all_counts : ∀ (calls : List (Nat × request_st))
    (s s' : Upstream), Proxy.release_all calls s = some s' →
    ∀ x, Upstream.outstanding_of s' x + records_on calls x
      = Upstream.outstanding_of s x := by
  intro calls
  induction calls with
  | nil =>
    intro s s' h x
    simp only [Proxy.release_all, Option.some.injEq] at h
    rw [← h]
    rfl
  | cons c rest ih =>
    intro s s' h x
    simp only [Proxy.release_all] at h
    split at h
    · simp at h
    next s1 hs1 =>
      have h1 := outstanding_of_Done _ _ _ hs1 x
      have h2 := ih s1 s' h x
      unfold records_on at h2 ⊢
      by_cases hx : c.2.upstream_fd = x
      · rw [List.filter_cons_of_pos (by simp [hx])]
        rw [if_pos hx] at h1
        simp only [List.length_cons]
        omega
      · rw [List.filter_cons_of_neg (by simp [hx])]
        rw [if_neg hx] at h1
        omega

theorem release_all_total : ∀ (calls : List (Nat × request_st))
    (s : Upstream),
    (∀ x, records_on calls x ≤ Upstream.outstanding_of s x) →
    ∃ s', Proxy.release_all calls s = some s' := by
  intro calls
  induction calls with
  | nil =>
    intro s _
    exact ⟨s, rfl⟩
  | cons c rest ih =>
    intro s hle
    have hc : 1 ≤ records_on (c :: rest) c.2.upstream_fd := by
      unfold records_on
      rw [List.filter_cons_of_pos (by simp)]
      simp
    obtain ⟨s1, hs1⟩ := Upstream_Done_total c.2.upstream_fd s
      (le_trans hc (hle _))
    have hrest : ∀ x, records_on rest x ≤ Upstream.outstanding_of s1 x := by
      intro x
      have h1 := outstanding_of_Done _ _ _ hs1 x
      have h2 := hle x
      unfold records_on at h2 ⊢
      by_cases hx : c.2.upstream_fd = x
      · rw [List.filter_cons_of_pos (by simp [hx])] at h2
        rw [if_pos hx] at h1
        simp only [List.length_cons] at h2
        omega
      · rw [List.filter_cons_of_neg (by simp [hx])] at h2
        rw [if_neg hx] at h1
        omega
    obtain ⟨s', hs'⟩ := ih s1 hrest
    refine ⟨s', ?_⟩
    simp only [Proxy.release_all]
    rw [hs1]
    exact hs'

theorem records_on_emplace (m : List (Nat × request_st)) (q : Nat)
    (r : request_st) (h : (map_emplace m q r).2 = true) (x : Int) :
    records_on (map_emplace m q r).1 x
      = records_on m x + (if r.upstream_fd = x then 1 else 0) := by
  induction m with
  | nil =>
    unfold records_on
    by_cases hx : r.upstream_fd = x <;> simp [map_emplace, hx]
  | cons e rest ih =>
    obtain ⟨k, v⟩ := e
    unfold map_emplace at h ⊢
    by_cases h1 : q < k
    · rw [if_pos h1]
      unfold records_on
      by_cases hx : r.upstream_fd = x
      · rw [List.filter_cons_of_pos (by simp [hx]), if_pos hx]
        simp only [List.length_cons]
      · rw [List.filter_cons_of_neg (by simp [hx]), if_neg hx]
        rfl
    · rw [if_neg h1] at h ⊢
      by_cases h2 : q = k
      · rw [if_pos h2] at h
        simp at h
      · rw [if_neg h2] at h ⊢
        have := ih h
        unfold records_on at this ⊢
        simp only
        by_cases hv : v.upstream_fd = x
        · rw [List.filter_cons_of_pos (by simp [hv]),
            List.filter_cons_of_pos (by simp [hv])]
          simp only [List.length_cons]
          omega
        · rw [List.filter_cons_of_neg (by simp [hv]),
            List.filter_cons_of_neg (by simp [hv])]
          exact this

theorem records_on_erase (m : List (Nat × request_st)) (q : Nat)
    (r : request_st) (hs : (m.map Prod.fst).Pairwise (· < ·))
    (h : map_find m q = some r) (x : Int) :
    records_on (map_erase m q).1 x + (if r.upstream_fd = x then 1 else 0)
      = records_on m x := by
  induction m with
  | nil => simp [map_find] at h
  | cons e rest ih =>
    obtain ⟨k, v⟩ := e
    simp only [List.map_cons, List.pairwise_cons] at hs
    unfold map_find at h
    unfold map_erase at ih ⊢
    simp only at ih ⊢
    by_cases hk : k = q
    · rw [if_pos hk] at h
      have hv : v = r := Option.some.inj h
      have hrest : rest.filter (fun e => decide (e.1 ≠ q)) = rest := by
        apply List.filter_eq_self.2
        intro a ha
        have := hs.1 a.1 (List.mem_map_of_mem _ ha)
        simp only [ne_eq, decide_eq_true_eq]
        omega
      rw [List.filter_cons_of_neg (by simp [hk]), hrest, ← hv]
      unfold records_on
      by_cases hx : v.upstream_fd = x
      · rw [List.filter_cons_of_pos (by simp [hx]), if_pos hx]
        simp only [List.length_cons]
      · rw [List.filter_cons_of_neg (by simp [hx]), if_neg hx]
        rfl
    · rw [if_neg hk] at h
      have := ih hs.2 h
      rw [List.filter_cons_of_pos (by simp [hk])]
      unfold records_on at this ⊢
      by_cases hv : v.upstream_fd = x
      · rw [List.filter_cons_of_pos (by simp [hv]),
          List.filter_cons_of_pos (by simp [hv])]
        simp only [List.length_cons]
        omega
      · rw [List.filter_cons_of_neg (by simp [hv]),
          List.filter_cons_of_neg (by simp [hv])]
        exact this

theorem records_on_split (m : List (Nat × request_st))
    (a : Nat × request_st → Bool) (x : Int) :
    records_on (m.filter (fun e => !a e)) x + records_on (m.filter a) x
      = records_on m x := by
  induction m with
  | nil => rfl
  | cons e rest ih =>
    unfold records_on at ih ⊢
    by_cases ha : a e = true
    · rw [List.filter_cons_of_neg (by simp [ha]),
        List.filter_cons_of_pos ha]
      by_cases hx : e.2.upstream_fd = x
      · rw [List.filter_cons_of_pos (by simp [hx]),
          List.filter_cons_of_pos (by simp [hx])]
        simp only [List.length_cons]
        omega
      · rw [List.filter_cons_of_neg (by simp [hx]),
          List.filter_cons_of_neg (by simp [hx])]
        exact ih
    · rw [List.filter_cons_of_pos (by simp [ha]),
        List.filter_cons_of_neg ha]
      by_cases hx : e.2.upstream_fd = x
      · rw [List.filter_cons_of_pos (by simp [hx]),
          List.filter_cons_of_pos (by simp [hx])]
        simp only [List.length_cons]
        omega
      · rw [List.filter_cons_of_neg (by simp [hx]),
          List.filter_cons_of_neg (by simp [hx])]
        exact ih

theorem Gc_calls_perm (cfg : Config) (env : Env) (s s' : Requests)
    (calls : List (Nat × request_st)) (hwf : s.WF) (hc : Corresponds s)
    (h : Requests.Gc cfg env s = some (s', calls)) :
    s'.requests
      = s.requests.filter (fun e => !decide (e.2.expiration ≤ env.now)) ∧
    calls.Perm
      (s.requests.filter (fun e => decide (e.2.expiration ≤ env.now))) ∧
    Corresponds s' := by
  have hrt := Gc_positive_timeout cfg env s _ h
  obtain ⟨s2, calls2, hgc, hexp, hreq, hmap, hmem, hcorr⟩ :=
    Gc_spec cfg env s hrt hwf.2.2.1 hwf.1 hc
  rw [hgc] at h
  simp only [Option.some.injEq, Prod.mk.injEq] at h
  obtain ⟨h1, h2⟩ := h
  subst h1 h2
  have hsorted : (calls2.map (fun e => (e.2.expiration, e.1))).Pairwise
      pair_lt := by
    rw [hmap]
    exact hwf.2.2.1.filter _
  have hreqnd : s.requests.Nodup :=
    List.Nodup.of_map Prod.fst (nodup_of_ascending hwf.1)
  refine ⟨?_, ?_, hcorr⟩
  · rw [hreq]
    apply List.filter_congr
    intro e _
    by_cases hle : e.2.expiration ≤ env.now <;> simp [hle]
  · apply (List.perm_ext_iff_of_nodup
      (List.Nodup.of_map _ (nodup_of_pair_ascending hsorted))
      (hreqnd.filter _)).2
    intro e
    rw [List.mem_filter]
    constructor
    · intro he
      refine ⟨hmem e he, ?_⟩
      have : (e.2.expiration, e.1)
          ∈ calls2.map (fun e => (e.2.expiration, e.1)) :=
        List.mem_map.2 ⟨e, he, rfl⟩
      rw [hmap] at this
      exact (List.mem_filter.1 this).2
    · rintro ⟨he, hexpired⟩
      have hfe := (mem_iff_map_find _ hwf.1 e).1 he
      have hin : (e.2.expiration, e.1) ∈ s.expirations :=
        (hc _).2 ⟨e.2, hfe, rfl⟩
      have hin2 : (e.2.expiration, e.1)
          ∈ calls2.map (fun e => (e.2.expiration, e.1)) := by
        rw [hmap]
        exact List.mem_filter.2 ⟨hin, hexpired⟩
      obtain ⟨e', he', heq⟩ := List.mem_map.1 hin2
      have hk : e'.1 = e.1 := congrArg Prod.snd heq
      have hfe' := (mem_iff_map_find _ hwf.1 e').1 (hmem e' he')
      rw [hk, hfe] at hfe'
      have : e' = e := Prod.ext hk (Option.some.inj hfe').symm
      exact this ▸ he'

theorem records_on_Gc (cfg : Config) (env : Env) (s s' : Requests)
    (calls : List (Nat × request_st)) (hwf : s.WF) (hc : Corresponds s)
    (h : Requests.Gc cfg env s = some (s', calls)) (x : Int) :
    records_on s'.requests x + records_on calls x
      = records_on s.requests x := by
  obtain ⟨hreq, hperm, _⟩ := Gc_calls_perm cfg env s s' calls hwf hc h
  have hsplit := records_on_split s.requests
    (fun e => decide (e.2.expiration ≤ env.now)) x
  have hcalls : records_on calls x
      = records_on (s.requests.filter
          (fun e => decide (e.2.expiration ≤ env.now))) x := by
    unfold records_on
    exact (hperm.filter _).length_eq
  rw [hreq, hcalls]
  exact hsplit

theorem counted_Run_step (cfg : Config) (pcfg : PoolConfig)
    (e : Proxy.Event) (st st' : Proxy)
    (hinv : st.requests.WF ∧
      (0 < cfg.REQUEST_TIMEOUT → Corresponds st.requests) ∧
      ∀ x, Upstream.outstanding_of st.sockets x
        = records_on st.requests.requests x)
    (hfresh : Proxy.event_fresh pcfg e st = true)
    (h : Proxy.Run_step cfg pcfg e st = some st') :
    st'.requests.WF ∧
      (0 < cfg.REQUEST_TIMEOUT → Corresponds st'.requests) ∧
      ∀ x, Upstream.outstanding_of st'.sockets x
        = records_on st'.requests.requests x := by
  obtain ⟨hwf, hc, hcnt⟩ := hinv
  cases e with
  | client env =>
    simp only [Proxy.event_fresh, decide_eq_true_eq] at hfresh
    simp only [Proxy.Run_step] at h
    split at h
    · simp at h
    next b st1 hfq =>
      simp only [Option.some.injEq] at h
      subst h
      rcases forward_query_cases cfg pcfg env st st1 b hfq with
        hs | ⟨P, msg, client, q, question, U, sockets1, hget, _, _, _,
          hsock, hcase⟩
      · rw [hs]
        exact ⟨hwf, hc, hcnt⟩
      · have hA1 := outstanding_of_Get pcfg env.socket_env st.sockets
          sockets1 (some U) hsock hfresh
        rcases hcase with ⟨_, hs⟩ | ⟨_, sockets2, requests2, hput, hrput, hs⟩
        · rw [hs]
          refine ⟨hwf, hc, fun x => ?_⟩
          simp only
          rw [hA1]
          exact hcnt x
        · obtain ⟨hP, _, hlen⟩ := Get_query_id_some cfg st.requests env.nth
            P hget
          have hle : records_on st.requests.requests U
              ≤ st.requests.requests.length := List.length_filter_le _ _
          have hA2 := outstanding_of_Put pcfg U sockets1 sockets2 hput
            (by rw [hA1, hcnt]; omega)
          obtain ⟨hins, hreq, _⟩ := Put_some _ _ _ _ _ _ _ _ _ hrput
          rw [hs]
          refine ⟨WF_Put _ _ _ _ _ _ _ _ _ hP hwf hrput,
            fun hrt => Corresponds_Put _ _ _ _ _ _ _ _ _ hrt hwf (hc hrt)
              hrput, fun x => ?_⟩
          simp only
          rw [hA2, hA1, hcnt, hreq, records_on_emplace _ _ _ hins]
  | timer read_ok env =>
    simp only [Proxy.Run_step, Proxy.on_timer] at h
    split_ifs at h with hread
    · simp only [Option.some.injEq] at h
      rw [← h]
      exact ⟨hwf, hc, hcnt⟩
    · split at h
      · simp at h
      next requests1 calls hgc =>
        split at h
        · simp at h
        next sockets1 hrel =>
          simp only [Option.some.injEq] at h
          rw [← h]
          have hrt := Gc_positive_timeout cfg env st.requests _ hgc
          obtain ⟨h1, h2⟩ := Gc_sublist _ _ _ _ _ hgc
          obtain ⟨_, _, hcorr⟩ :=
            Gc_calls_perm cfg env _ _ _ hwf (hc hrt) hgc
          refine ⟨WF_of_sublist _ _ hwf h1 h2, fun _ => hcorr, fun x => ?_⟩
          have hr := records_on_Gc cfg env _ _ _ hwf (hc hrt) hgc x
          have hp := release_all_counts calls st.sockets sockets1 hrel x
          have := hcnt x
          simp only
          omega
  | upstream fd env =>
    simp only [Proxy.Run_step] at h
    split at h
    · simp at h
    next b st1 hrr =>
      simp only [Option.some.injEq] at h
      subst h
      rcases return_response_cases cfg fd env st st1 b hrr with
        hs | ⟨msg, _, _, request, sockets1, requests1, _, _, _, hfind, hfd,
          _, hdone, hrdone, hs⟩
      · rw [hs]
        exact ⟨hwf, hc, hcnt⟩
      · obtain ⟨_, hreq, _, _⟩ := Done_some _ _ _ _ _ _ hrdone
        rw [hs]
        refine ⟨WF_Done _ _ _ _ _ _ hwf hrdone,
          fun hrt => Corresponds_Done _ _ _ _ _ _ hrt (hc hrt) hrdone,
          fun x => ?_⟩
        have hp := outstanding_of_Done fd st.sockets sockets1 hdone x
        have hr := records_on_erase st.requests.requests _ request hwf.1
          hfind x
        have := hcnt x
        simp only
        rw [hreq]
        rw [← hfd] at hr
        omega

theorem counted_Run (cfg : Config) (pcfg : PoolConfig) :
    ∀ (events : List Proxy.Event) (st st' : Proxy),
    (st.requests.WF ∧
      (0 < cfg.REQUEST_TIMEOUT → Corresponds st.requests) ∧
      ∀ x, Upstream.outstanding_of st.sockets x
        = records_on st.requests.requests x) →
    Proxy.creation_fresh_along cfg pcfg events st = true →
    Proxy.Run cfg pcfg events st = some st' →
    st'.requests.WF ∧
      (0 < cfg.REQUEST_TIMEOUT → Corresponds st'.requests) ∧
      ∀ x, Upstream.outstanding_of st'.sockets x
        = records_on st'.requests.requests x := by
  intro events
  induction events with
  | nil =>
    intro st st' hinv _ h
    simp only [Proxy.Run, Option.some.injEq] at h
    exact h ▸ hinv
  | cons e es ih =>
    intro st st' hinv hfresh h
    simp only [Proxy.Run] at h
    simp only [Proxy.creation_fresh_along, Bool.and_eq_true] at hfresh
    split at h
    · simp at h
    next st1 hstep =>
      rw [hstep] at hfresh
      exact ih st1 st'
        (counted_Run_step cfg pcfg e st st1 hinv hfresh.1 hstep) hfresh.2 h

/-- C28: when socket creation only returns identifiers the pool does not
hold at that time, in every proxy state reached from the initial state
through `forward_query`, `return_response` and the `Gc` of the timer with its
callback, for every socket identifier the outstanding count the pool stores
for it is the number of request records whose `upstream_fd` is that socket;
hence the `Done` of the pool made for an accepted response returns, that is
none of the assertions of `Upstream::Done` fails, and so do all the `Done`
calls the callback makes for the requests a `Gc` removes. -/
theorem C28_outstanding_counts_records (cfg : Config) (pcfg : PoolConfig)
    (events : List Proxy.Event) (st : Proxy)
    (hfresh : Proxy.creation_fresh_along cfg pcfg events Proxy.init = true)
    (hrun : Proxy.Run cfg pcfg events Proxy.init = some st) :
    (∀ sfd, Upstream.outstanding_of st.sockets sfd
      = records_on st.requests.requests sfd) ∧
    (∀ upstream_fd msg, Proxy.accepts st upstream_fd msg →
      ∃ sockets, Upstream.Done upstream_fd st.sockets = some sockets) ∧
    (∀ env requests calls,
      Requests.Gc cfg env st.requests = some (requests, calls) →
      ∃ sockets, Proxy.release_all calls st.sockets = some sockets) := by
  have hinit : Proxy.init.requests.WF ∧
      (0 < cfg.REQUEST_TIMEOUT → Corresponds Proxy.init.requests) ∧
      ∀ x, Upstream.outstanding_of Proxy.init.sockets x
        = records_on Proxy.init.requests.requests x :=
    ⟨init_WF, fun _ => init_Corresponds, fun x => rfl⟩
  obtain ⟨hwf, hc, hcnt⟩ :=
    counted_Run cfg pcfg events Proxy.init st hinit hfresh hrun
  refine ⟨hcnt, ?_, ?_⟩
  · rintro fd msg ⟨query_id, question, request, _, _, hfind, hfd, _⟩
    apply Upstream_Done_total
    rw [hcnt]
    have hmem : (query_id, request) ∈ st.requests.requests :=
      (mem_iff_map_find _ hwf.1 (query_id, request)).2 hfind
    unfold records_on
    apply List.length_pos.2
    apply List.ne_nil_of_mem
    exact List.mem_filter.2 ⟨hmem, by simpa using hfd⟩
  · intro env requests calls hgc
    have hrt := Gc_positive_timeout cfg env st.requests _ hgc
    apply release_all_total
    intro x
    have hr := records_on_Gc cfg env _ _ _ hwf (hc hrt) hgc x
    have := hcnt x
    omega

theorem C28_outstanding_counts_records_witness :
    Proxy.Run example_config example_pool_config saturation_events
      Proxy.init = some proxy_saturated ∧
    Proxy.creation_fresh_along example_config example_pool_config
      saturation_events Proxy.init = true ∧
    Proxy.Run example_config example_pool_config example_events Proxy.init
      ≠ none ∧
    Upstream.outstanding_of proxy_saturated.sockets 6 = 1 ∧
    records_on proxy_saturated.requests.requests 6 = 1 ∧
    ∀ sfd, Upstream.outstanding_of proxy_saturated.sockets sfd
      = records_on proxy_saturated.requests.requests sfd :=
  ⟨by decide, by decide, by decide, by decide, by decide,
   (C28_outstanding_counts_records example_config example_pool_config
     saturation_events proxy_saturated (by decide) (by decide)).1⟩

/-! ## The offsets `parse_message` reads -/

theorem headD_drop (msg : List Nat) (p : Nat) :
    (msg.drop p).headD 0 = msg.getD p 0 := by
  rw [List.headD_eq_head?_getD, List.head?_drop, List.getD_eq_getElem?_getD]

theorem parse_qname_reads_spec (debug : Bool) (msg : List Nat) :
    ∀ (fuel p left : Nat), p + left = msg.length →
      (∀ i ∈ (parse_qname_reads debug msg fuel p left).2, i < msg.length) ∧
      (parse_qname_reads debug msg fuel p left).1.map
          (fun r => msg.drop r.1)
        = parse_qname fuel (msg.drop p) ∧
      ∀ r, (parse_qname_reads debug msg fuel p left).1 = some r →
        r.1 + r.2 = msg.length ∧ p ≤ r.1 := by
  intro fuel
  induction fuel with
  | zero =>
    intro p left _
    simp [parse_qname_reads, parse_qname]
  | succ fuel ih =>
    intro p left hpl
    have hlen : (msg.drop p).length = left := by
      rw [List.length_drop]
      omega
    have htail : (msg.drop p).tail = msg.drop (p + 1) := by
      rw [List.tail_drop]
    have hlen1 : (msg.drop (p + 1)).length = left - 1 := by
      rw [List.length_drop]
      omega
    unfold parse_qname_reads parse_qname
    rw [hlen]
    by_cases h1 : left < 1
    · rw [if_pos h1, if_pos h1]
      simp
    · rw [if_neg h1, if_neg h1]
      simp only
      rw [headD_drop, htail, hlen1]
      by_cases h0 : msg.getD p 0 = 0
      · rw [if_pos h0, if_pos h0]
        refine ⟨?_, rfl, ?_⟩
        · intro i hi
          simp only [List.mem_singleton] at hi
          omega
        · intro r hr
          simp only [Option.some.injEq] at hr
          rw [← hr]
          simp only
          omega
      · rw [if_neg h0, if_neg h0]
        by_cases h2 : left - 1 < msg.getD p 0
        · rw [if_pos h2, if_pos h2]
          refine ⟨?_, rfl, ?_⟩
          · intro i hi
            simp only [List.mem_singleton] at hi
            omega
          · intro r hr
            simp at hr
        · rw [if_neg h2, if_neg h2]
          have hpl' : p + 1 + msg.getD p 0 + (left - 1 - msg.getD p 0)
              = msg.length := by omega
          obtain ⟨hreads, hres, hpos⟩ :=
            ih (p + 1 + msg.getD p 0) (left - 1 - msg.getD p 0) hpl'
          refine ⟨?_, ?_, ?_⟩
          · intro i hi
            simp only [List.mem_cons, List.mem_append] at hi
            rcases hi with hi | hi | hi
            · omega
            · by_cases hd : debug = true
              · rw [if_pos hd, List.mem_range'_1] at hi
                omega
              · rw [if_neg hd] at hi
                simp at hi
            · exact hreads i hi
          · simp only
            rw [hres, List.drop_drop]
          · intro r hr
            have := hpos r hr
            omega

theorem parse_questions_reads_spec (debug : Bool) (msg : List Nat) :
    ∀ (i p left : Nat), p + left = msg.length →
      (∀ j ∈ (parse_questions_reads debug msg i p left).2,
        j < msg.length) ∧
      (parse_questions_reads debug msg i p left).1.map
          (fun r => msg.drop r.1)
        = parse_questions i (msg.drop p) ∧
      ∀ r, (parse_questions_reads debug msg i p left).1 = some r →
        r.1 + r.2 = msg.length ∧ p ≤ r.1 := by
  intro i
  induction i with
  | zero =>
    intro p left hpl
    simp only [parse_questions_reads, parse_questions]
    refine ⟨by simp, rfl, ?_⟩
    intro r hr
    simp only [Option.some.injEq] at hr
    rw [← hr]
    simp only
    omega
  | succ i ih =>
    intro p left hpl
    have hlen : (msg.drop p).length = left := by
      rw [List.length_drop]
      omega
    obtain ⟨hreads, hres, hpos⟩ :=
      parse_qname_reads_spec debug msg (left + 1) p left hpl
    unfold parse_questions_reads parse_questions
    rw [hlen, ← hres]
    cases hq : parse_qname_reads debug msg (left + 1) p left with
    | mk res reads =>
      rw [hq] at hreads hpos
      simp only at hreads hpos
      cases res with
      | none =>
        simp only [Option.map_none']
        exact ⟨hreads, trivial, fun r hr => by simp at hr⟩
      | some r1 =>
        obtain ⟨p1, left1⟩ := r1
        obtain ⟨hsum, hle⟩ := hpos (p1, left1) rfl
        simp only at hsum hle
        have hlen1 : (msg.drop p1).length = left1 := by
          rw [List.length_drop]
          omega
        simp only [Option.map_some']
        rw [hlen1]
        by_cases h4 : left1 < NS_QFIXEDSZ
        · rw [if_pos h4, if_pos h4]
          exact ⟨hreads, rfl, fun r hr => by simp at hr⟩
        · rw [if_neg h4, if_neg h4]
          unfold NS_QFIXEDSZ at h4 ⊢
          obtain ⟨hreads2, hres2, hpos2⟩ :=
            ih (p1 + 4) (left1 - 4) (by omega)
          refine ⟨?_, ?_, ?_⟩
          · intro j hj
            simp only [List.mem_append] at hj
            rcases hj with hj | hj
            · exact hreads j hj
            · exact hreads2 j hj
          · simp only
            rw [hres2, List.drop_drop]
          · intro r hr
            have := hpos2 r hr
            omega

theorem map_getD_range_from (msg : List Nat) (a n : Nat)
    (h : a + n ≤ msg.length) :
    (List.range' a n).map (fun i => msg.getD i 0) = (msg.drop a).take n := by
  induction n generalizing a with
  | zero => simp
  | succ n ih =>
    have ha : a < msg.length := by omega
    rw [List.range'_succ, List.map_cons, ih (a + 1) (by omega)]
    rw [List.drop_eq_getElem_cons ha, List.take_succ_cons,
      List.getD_eq_getElem _ _ ha]

theorem parse_message_reads_spec (debug : Bool) (msg : List Nat) :
    (∀ i ∈ (parse_message_reads debug msg).2, i < msg.length) ∧
    (parse_message_reads debug msg).1 = parse_message msg := by
  unfold parse_message_reads parse_message
  simp only
  by_cases hlen : msg.length < NS_HFIXEDSZ
  · rw [if_pos hlen, if_pos hlen]
    simp
  · rw [if_neg hlen, if_neg hlen]
    unfold NS_HFIXEDSZ at hlen ⊢
    obtain ⟨hreads, hres, hpos⟩ :=
      parse_questions_reads_spec debug msg (ntohs_field msg 4) 12
        (msg.length - 12) (by omega)
    rw [← hres]
    cases hq : parse_questions_reads debug msg (ntohs_field msg 4) 12
        (msg.length - 12) with
    | mk res reads =>
      rw [hq] at hreads hpos
      simp only at hreads hpos
      have hheader : ∀ i ∈ [0, 1, 4, 5], i < msg.length := by
        intro i hi
        simp only [List.mem_cons, List.mem_singleton, List.not_mem_nil,
          or_false] at hi
        omega
      cases res with
      | none =>
        simp only [Option.map_none']
        refine ⟨?_, trivial⟩
        intro i hi
        rcases List.mem_append.1 hi with h | h
        · exact hheader i h
        · exact hreads i h
      | some r1 =>
        obtain ⟨p1, left1⟩ := r1
        obtain ⟨hsum, hle⟩ := hpos (p1, left1) rfl
        simp only at hsum hle
        simp only [Option.map_some']
        refine ⟨?_, ?_⟩
        · intro i hi
          rcases List.mem_append.1 hi with h | h
          · rcases List.mem_append.1 h with h | h
            · exact hheader i h
            · exact hreads i h
          · rw [List.mem_range'_1] at h
            omega
        · rw [map_getD_range_from msg 12 (p1 - 12) (by omega)]
          simp only [List.length_drop]
          congr 3
          omega

/-- C31: for every message, of `s` bytes, and either value of
`common::Debug`, every offset `parse_message` reads is below `s`; the
function on offsets returns what `parse_message` returns; and whenever it
succeeds with a question of `L` bytes, `12 + L ≤ s` and the question is
exactly the bytes of the message at the offsets 12 to `12 + L - 1`. -/
theorem C31_parse_message_stays_in_buffer (debug : Bool) (msg : List Nat) :
    (∀ i ∈ (parse_message_reads debug msg).2, i < msg.length) ∧
    (parse_message_reads debug msg).1 = parse_message msg ∧
    ∀ query_id question,
      (parse_message_reads debug msg).1 = some (query_id, question) →
      12 + question.length ≤ msg.length ∧
      question = (msg.drop 12).take question.length ∧
      ∀ k, k < question.length →
        question.getD k 0 = msg.getD (12 + k) 0 := by
  obtain ⟨hreads, hres⟩ := parse_message_reads_spec debug msg
  refine ⟨hreads, hres, ?_⟩
  intro query_id question h
  rw [hres] at h
  obtain ⟨rest, hsplit, hhead, _, _, _, _⟩ :=
    parse_message_split msg query_id question h
  have hlen : 12 + question.length ≤ msg.length := by
    have := congrArg List.length hsplit
    simp only [List.length_append, hhead] at this
    omega
  have hdrop : msg.drop 12 = question ++ rest := by
    conv_lhs => rw [hsplit]
    exact List.drop_left' hhead
  have htake : question = (msg.drop 12).take question.length := by
    rw [hdrop, List.take_left' rfl]
  refine ⟨hlen, htake, ?_⟩
  intro k hk
  conv_lhs => rw [htake]
  simp only [List.getD_eq_getElem?_getD]
  rw [List.getElem?_take_of_lt hk, List.getElem?_drop]

theorem C31_parse_message_stays_in_buffer_witness :
    (parse_message_reads true example_query).1
      = some (4660, example_query.drop 12) ∧
    (parse_message_reads true example_query).2
      = [0, 1, 4, 5, 12, 13, 14, 15, 16, 17, 18, 19, 20, 21, 22, 23, 24,
          12, 13, 14, 15, 16, 17, 18, 19, 20, 21, 22, 23, 24, 25, 26, 27,
          28] ∧
    (parse_message_reads false (example_query.take 20)).1 = none ∧
    ∀ i ∈ (parse_message_reads true example_query).2,
      i < example_query.length :=
  ⟨by decide, by decide, by decide,
   (C31_parse_message_stays_in_buffer true example_query).1⟩

end DNSProxy
